import Mathlib

/-!
Sokoban core: board, position codec, move engine, undo stack, win detector.

A shallow embedding of `sokoban.h`, `sokoban.c` and `win.c`.

* C `int` values (coordinates, packed positions, counters, directions) are `Int`.
  No operation in the modelled functions is applied to values near the 32-bit
  boundary except `rc2p` on huge rows, where C leaves the shift undefined.
* A cell is the unsigned value of the `char` stored in `l->pic`, a `Nat`.
  All cell operations are bitwise on the low bits, so the signedness of `char`
  makes no difference to the stored byte.
* `l->pic` is a list of lines; a line is the list of the bytes of its buffer as
  `strdup` allocates it: the characters of the line followed by the terminating
  NUL.  `l->rows` is the number of lines.  `strlen` stops at the first NUL; for a
  buffer whose terminating NUL has been overwritten (a list without NUL) the C
  `strlen` is undefined, and the model returns the number of listed bytes.
* A memory access outside the listed bytes of a line (outside its buffer) or
  outside the array of lines, and a failed `assert`, are modelled as `none`: the
  run has no defined result.
* Curses calls (`mvaddch`, `refresh`, `updateStats`) only paint the screen and
  are left out; the `assert` inside `update` is kept.
-/

namespace Sokoban

/-! ## Constants of `sokoban.h` -/

/-- Bit `WALL` of a cell: there is a wall here. -/
def WALL : Nat := 1
/-- Bit `BOX` of a cell: there is a box here. -/
def BOX : Nat := 2
/-- Bit `STORE` of a cell: this is a storage location. -/
def STORE : Nat := 4
/-- Bit `WORKER` of a cell: the worker is here. -/
def WORKER : Nat := 8
/-- Bit `SPACE` of a cell: this is an empty space. -/
def SPACE : Nat := 16
/-- Bit `HILITE` of a cell: this is drawn highlighted. -/
def HILITE : Nat := 32

/-- Direction code `NORTH`. -/
def NORTH : Int := 1
/-- Direction code `EAST`. -/
def EAST : Int := 2
/-- Direction code `SOUTH`. -/
def SOUTH : Int := 3
/-- Direction code `WEST`. -/
def WEST : Int := 4

/-- The marker `PULL = (1<<12)` set on undo entries of pushing moves. -/
def PULL : Int := (1 : Int) <<< (12 : Int)

/-! ## Data model -/

/-- The `level` structure of `sokoban.h`.  The field `rows` of the C structure is
the number of lines of `pic` (see `level.rows`). -/
structure level where
  levelNumber : Int
  cols : Int
  pic : List (List Nat)
  top : Int
  left : Int
  worker : Int
  startTime : Int
deriving DecidableEq, Repr

/-- The C field `l->rows`: `readLevel` sizes `pic` to exactly this many lines. -/
def level.rows (l : level) : Int := l.pic.length

/-- The play session: the level together with the global variables
`MaxUndo`, `UndoStack`, `UndoTop` and `MoveCount` of `sokoban.c`.
`UndoStack` is the heap block of `MaxUndo` ints. -/
structure session where
  l : level
  MaxUndo : Int
  UndoStack : List Int
  UndoTop : Int
  MoveCount : Int
deriving DecidableEq, Repr

/-! ## Bit operations on cells -/

/-- The C expression `ch & ~mask` on a cell value: the bits of `mask` are cleared,
all other bits of `ch` are kept. -/
def clearBits (ch mask : Nat) : Nat := ch ^^^ (ch &&& mask)

/-- The C truth value of `ch & flag`. -/
def has (ch flag : Nat) : Bool := ch &&& flag != 0

/-- The byte `movePiece` stores at the source, `SPACE | (ch0 & ~(BOX|WORKER))`:
box and worker bits cleared. -/
def vacated (ch0 : Nat) : Nat := SPACE ||| clearBits ch0 (BOX ||| WORKER)

/-- The byte `movePiece` stores at the destination,
`(ch1 & ~(SPACE|BOX|WORKER)) | (ch0 & (BOX | WORKER))`: the box and worker bits
of the source copied in. -/
def entered (ch0 ch1 : Nat) : Nat :=
  clearBits ch1 (SPACE ||| BOX ||| WORKER) ||| (ch0 &&& (BOX ||| WORKER))

/-! ## Position codec -/

/-- `rc2p`: convert row and column to a position, `(r<<6)|c`. -/
def rc2p (r c : Int) : Int := Int.lor (r <<< (6 : Int)) c

/-- `p2rc`: convert a position to a row and a column,
`*r = (p >> 6) & 0x3f; *c = p & 0x3f`. -/
def p2rc (p : Int) : Int × Int := (Int.land (Int.shiftRight p 6) 0x3f, Int.land p 0x3f)

/-! ## Reading the board -/

/-- `width`: the width of the level. -/
def width (l : level) : Int := l.cols

/-- `height`: the height of the level. -/
def height (l : level) : Int := l.rows

/-- C `strlen` of a line: the number of bytes in front of the first NUL. -/
def strlen : List Nat → Nat
  | [] => 0
  | ch :: rest => if ch = 0 then 0 else strlen rest + 1

/-- `get`: the descriptor of the cell at `[row,col]`; `SPACE` to the left of,
above, below and to the right of the maze. -/
def get (l : level) (row col : Int) : Nat :=
  if row < 0 ∨ col < 0 ∨ row ≥ l.rows then SPACE
  else
    let line := l.pic.getD row.toNat []
    if col ≥ (strlen line : Int) then SPACE
    else line.getD col.toNat 0

/-- The unchecked read `l->pic[r][c]`; `none` when `[r,c]` is not a byte of a
line buffer (negative, past the last line, or past the listed bytes of the
line).  The terminating NUL of a line is a byte of its buffer. -/
def peek (l : level) (r c : Int) : Option Nat :=
  if r < 0 ∨ c < 0 then none
  else l.pic[r.toNat]?.bind fun cells => cells[c.toNat]?

/-- The board after the store `l->pic[r][c] = v` (unchanged when `[r,c]` is not
a byte of a line buffer; `poke` rejects that case). -/
def pokeF (l : level) (r c : Int) (v : Nat) : level :=
  { l with pic := l.pic.set r.toNat ((l.pic.getD r.toNat []).set c.toNat v) }

/-- The unchecked store `l->pic[r][c] = v`; `none` when `[r,c]` is not a byte
of a line buffer. -/
def poke (l : level) (r c : Int) (v : Nat) : Option level :=
  match peek l r c with
  | none => none
  | some _ => some (pokeF l r c v)

/-! ## Painting a cell -/

/-- The glyph chosen by `update` for a cell. -/
inductive Glyph where
  | wall
  | workerOnStore
  | boxOnStore
  | worker
  | box
  | store
  | blank
deriving DecidableEq, Repr

/-- The selection chain of `update`; `none` is the `assert(0)` at its end. -/
def selectGlyph (ch : Nat) : Option Glyph :=
  if has ch WALL then some Glyph.wall
  else if (WORKER ||| STORE) &&& ch = (WORKER ||| STORE) then some Glyph.workerOnStore
  else if (BOX ||| STORE) &&& ch = (BOX ||| STORE) then some Glyph.boxOnStore
  else if has ch WORKER then some Glyph.worker
  else if has ch BOX then some Glyph.box
  else if has ch STORE then some Glyph.store
  else if has ch SPACE then some Glyph.blank
  else none

/-- `update`: repaint `[r,c]`.  It reads `l->pic[r][c]` and selects a glyph; the
board is not changed. -/
def update (l : level) (r c : Int) : Option Glyph :=
  (peek l r c).bind selectGlyph

/-- `highlight`: highlight the object at `[row,col]`; nothing happens outside
the maze. -/
def highlight (l : level) (row col : Int) : Option level :=
  if row < 0 ∨ col < 0 ∨ row ≥ l.rows then some l
  else
    let len := strlen (l.pic.getD row.toNat [])
    if col ≥ (len : Int) then some l
    else
      (peek l row col).bind fun ch =>
      (poke l row col (ch ||| HILITE)).bind fun l1 =>
      (update l1 row col).bind fun _ => some l1

/-! ## Moving pieces -/

/-- First statement of `movePiece`: get the worker location to see if the worker
is getting moved; if so, update the tracked position. -/
def retrack (l : level) (r0 c0 r1 c1 : Int) : level :=
  if r0 = (p2rc l.worker).1 ∧ c0 = (p2rc l.worker).2 then { l with worker := rc2p r1 c1 }
  else l

/-- `movePiece`: move a piece at `[r0,c0]` to empty space `[r1,c1]`. -/
def movePiece (l : level) (r0 c0 r1 c1 : Int) : Option level :=
  let la := retrack l r0 c0 r1 c1
  (peek la r0 c0).bind fun ch0 =>
  (peek la r1 c1).bind fun ch1 =>
  (poke la r0 c0 (vacated ch0)).bind fun lb =>
  (poke lb r1 c1 (entered ch0 ch1)).bind fun lc =>
  (update lc r0 c0).bind fun _ =>
  (update lc r1 c1).bind fun _ => some lc

/-- C `realloc` of the undo stack to `n` ints: the old contents are kept, new
slots are indeterminate (modelled as 0). -/
def reallocInts (xs : List Int) (n : Int) : List Int :=
  xs.take n.toNat ++ List.replicate (n.toNat - xs.length) 0

/-- `pushMove`: push move onto the undo stack, possibly extending it. -/
def pushMove (s : session) (m : Int) : Option session :=
  let s1 := { s with UndoTop := s.UndoTop + 1 }
  let s2 :=
    if s1.UndoTop ≥ s1.MaxUndo then
      { s1 with MaxUndo := s1.MaxUndo * 2,
                UndoStack := reallocInts s1.UndoStack (s1.MaxUndo * 2) }
    else s1
  if s2.UndoTop < 0 ∨ s2.UndoTop ≥ (s2.UndoStack.length : Int) then none
  else some { s2 with UndoStack := s2.UndoStack.set s2.UndoTop.toNat m }

/-- Row delta of the `switch` in `go`. -/
def deltaRow (direction : Int) : Int :=
  if direction = NORTH then -1 else if direction = SOUTH then 1 else 0

/-- Column delta of the `switch` in `go`. -/
def deltaCol (direction : Int) : Int :=
  if direction = EAST then 1 else if direction = WEST then -1 else 0

/-- `go`: move worker in the indicated direction.  The result pairs the new
session with the returned `moved`. -/
def go (s : session) (direction : Int) : Option (session × Int) :=
  let dr := deltaRow direction
  let dc := deltaCol direction
  let rc := p2rc s.l.worker
  let r := rc.1
  let c := rc.2
  let sr := r + dr
  let sc := c + dc
  let sch := get s.l sr sc
  if has sch SPACE then
    (movePiece s.l r c sr sc).bind fun l1 =>
    (pushMove { s with l := l1 } (rc2p r c)).bind fun s1 =>
    some ({ s1 with MoveCount := s1.MoveCount + 1 }, 1)
  else if has sch BOX then
    let gr := sr
    let gc := sc
    let sr2 := gr + dr
    let sc2 := gc + dc
    let sch2 := get s.l sr2 sc2
    if has sch2 SPACE then
      (movePiece s.l gr gc sr2 sc2).bind fun l1 =>
      (movePiece l1 r c gr gc).bind fun l2 =>
      (pushMove { s with l := l2 } (Int.lor (rc2p r c) PULL)).bind fun s1 =>
      some ({ s1 with MoveCount := s1.MoveCount + 1 }, 1)
    else some (s, 0)
  else some (s, 0)

/-- `undo`: back up one move, possibly pulling a box. -/
def undo (s : session) : Option (session × Int) :=
  if s.UndoTop < 0 then some (s, 0)
  else
    s.UndoStack[s.UndoTop.toNat]?.bind fun p =>
    let s1 := { s with UndoTop := s.UndoTop - 1 }
    let pull := Int.land PULL p
    let rc := p2rc s1.l.worker
    let r := rc.1
    let c := rc.2
    let src := p2rc p
    let sr := src.1
    let sc := src.2
    (movePiece s1.l r c sr sc).bind fun l1 =>
    (if pull ≠ 0 then movePiece l1 (r - (sr - r)) (c - (sc - c)) r c else some l1).bind fun l2 =>
    some ({ s1 with l := l2, MoveCount := s1.MoveCount - 1 }, 1)

/-! ## Win detection (`win.c`) -/

/-- The test of the first pass of `win`: a box that is not on a store. -/
def unstored (cell : Nat) : Bool := has cell BOX && !has cell STORE

/-- First pass of `win`: is there a box not on a store among the cells
`r < h`, `c < w`? -/
def anyUnstored (l : level) (h w : Nat) : Bool :=
  (List.range h).any fun r => (List.range w).any fun c => unstored (get l r c)

/-- One step of the inner loop of the second pass of `win`. -/
def hiliteStep (r : Nat) (acc : Option level) (c : Nat) : Option level :=
  acc.bind fun l => if has (get l r c) BOX then highlight l r c else some l

/-- Inner loop of the second pass of `win`, over the columns `c < w` of row `r`. -/
def hiliteRow (w : Nat) (acc : Option level) (r : Nat) : Option level :=
  (List.range w).foldl (hiliteStep r) acc

/-- Second pass of `win`: highlight the boxes among the cells `r < h`, `c < w`. -/
def hiliteBoxes (l : level) (h w : Nat) : Option level :=
  (List.range h).foldl (hiliteRow w) (some l)

/-- `win`: check for a win; returns 1 iff all the `BOX` locations are also
`STORE` locations, after highlighting the boxes. -/
def win (l : level) : Option (level × Int) :=
  let w := width l
  let h := height l
  if anyUnstored l h.toNat w.toNat then some (l, 0)
  else (hiliteBoxes l h.toNat w.toNat).bind fun l1 => some (l1, 1)

/-! ## Loading a level (`readLevel`) -/

/-- The string `strdup` copies out of the line buffer: the bytes in front of the
first NUL. -/
def cstring (bytes : List Nat) : List Nat := bytes.take (strlen bytes)

/-- The conversion of one map character to cell bits in `readLevel`:
`@` (64) to `WORKER`, `.` (46) to `STORE|SPACE`, `*` (42) to `STORE|BOX`, `+` (43)
to `STORE|WORKER`, `$` (36) to `BOX`, blank (32) to `SPACE`, `#` (35) to `WALL`;
any other byte is left as it is. -/
def charBits (ch : Nat) : Nat :=
  if ch = 64 then WORKER
  else if ch = 46 ∨ ch = 42 ∨ ch = 43 then
    if ch = 46 then STORE ||| SPACE
    else if ch = 42 then STORE ||| BOX
    else STORE ||| WORKER
  else if ch = 36 then BOX
  else if ch = 32 then SPACE
  else if ch = 35 then WALL
  else ch

/-- Body of the conversion loop of `readLevel` at `[r,c]`: the worker position is
recorded at `@` and `+`, and the converted byte is stored back.  At the column
of the terminating NUL of a line shorter than `cols` the NUL is read and stored
back unchanged (`charBits 0 = 0`); further right the read is outside the buffer. -/
def scanCell (r : Nat) (acc : Option level) (c : Nat) : Option level :=
  acc.bind fun l =>
    (peek l r c).bind fun ch =>
      poke (if ch = 64 ∨ ch = 43 then { l with worker := rc2p r c } else l) r c (charBits ch)

/-- Inner conversion loop of `readLevel`, over the columns `c < w` of row `r`. -/
def scanRow (w : Nat) (acc : Option level) (r : Nat) : Option level :=
  (List.range w).foldl (scanCell r) acc

/-- `readLevel` after the file has been read: `text` holds the contents of the line
buffer after each `fgets` (newline removed), of which `strdup` copies the string
and its terminating NUL; `maxRows` is the curses value
`MAXROWS` bounding the line array, `now` the value of `time(0)`.  The fields `top`
and `left` are not set by `readLevel` (`display` computes them) and are given as
0.  `MaxUndo` and `UndoStack` are the globals left by `initialize` or by the
previous level; `UndoTop` and `MoveCount` are reset. -/
def readLevel (maxRows : Nat) (MaxUndo : Int) (UndoStack : List Int) (n : Int)
    (text : List (List Nat)) (now : Int) : Option session :=
  if text.length > maxRows then none
  else
    let strs := text.map cstring
    let cols : Nat := strs.foldl (fun m cells => max m cells.length) 0
    let pic := strs.map fun str => str ++ [0]
    let result : level :=
      { levelNumber := n, cols := (cols : Int), pic := pic, top := 0, left := 0, worker := 0,
        startTime := now }
    ((List.range pic.length).foldl (scanRow cols) (some result)).bind fun l =>
      some { l := l, MaxUndo := MaxUndo, UndoStack := UndoStack, UndoTop := -1,
             MoveCount := 0 }

/-! ## Specification predicates -/

/-- The cell invariants of the data model: `WALL` excludes every other bit, and a
cell without `WALL` carries exactly one of `BOX`, `WORKER`, `SPACE`. -/
def cellOK (ch : Nat) : Bool :=
  if has ch WALL then ch == WALL
  else (has ch BOX && !has ch WORKER && !has ch SPACE) ||
       (!has ch BOX && has ch WORKER && !has ch SPACE) ||
       (!has ch BOX && !has ch WORKER && has ch SPACE)

/-- The cell `[r,c]` lies in the map: `get` returns its stored byte. -/
def InMap (l : level) (r c : Int) : Prop :=
  0 ≤ r ∧ 0 ≤ c ∧ r < l.rows ∧ c < (strlen (l.pic.getD r.toNat []) : Int)

/-- Every cell of the map satisfies the cell invariants. -/
def CellsOK (l : level) : Prop :=
  ∀ r c : Int, InMap l r c → cellOK (get l r c) = true

/-- The board has at most 64 rows and every line at most 64 columns. -/
def Within64 (l : level) : Prop :=
  l.pic.length ≤ 64 ∧ ∀ line ∈ l.pic, strlen line ≤ 64

/-- The tracked worker position decodes to a cell of the map that carries
`WORKER`. -/
def WorkerTracked (l : level) : Prop :=
  has (get l (p2rc l.worker).1 (p2rc l.worker).2) WORKER = true

/-- The worker stands at `[r,c]`: the tracked position is `rc2p r c`, within the
6-bit range of the codec, and that cell carries `WORKER`. -/
def WorkerAt (l : level) (r c : Int) : Prop :=
  l.worker = rc2p r c ∧ 0 ≤ r ∧ r < 64 ∧ 0 ≤ c ∧ c < 64 ∧ has (get l r c) WORKER = true

/-- The stores of `go` in `direction` stay inside the drawn map: the cell ahead
of the worker lies in the map when it reads `SPACE`, and when it reads `BOX` the
cell behind it lies in the map when that reads `SPACE`. -/
def StoresInMap (l : level) (direction : Int) : Prop :=
  (has (get l ((p2rc l.worker).1 + deltaRow direction)
      ((p2rc l.worker).2 + deltaCol direction)) SPACE = true →
    InMap l ((p2rc l.worker).1 + deltaRow direction)
      ((p2rc l.worker).2 + deltaCol direction)) ∧
  (has (get l ((p2rc l.worker).1 + deltaRow direction)
      ((p2rc l.worker).2 + deltaCol direction)) BOX = true →
    has (get l ((p2rc l.worker).1 + deltaRow direction + deltaRow direction)
      ((p2rc l.worker).2 + deltaCol direction + deltaCol direction)) SPACE = true →
    InMap l ((p2rc l.worker).1 + deltaRow direction + deltaRow direction)
      ((p2rc l.worker).2 + deltaCol direction + deltaCol direction))

/-- No byte lies behind the terminating NUL of a line: the buffer of a line ends
with its first NUL, as `strdup` allocates it, or holds no NUL at all (its
terminating NUL has been overwritten). -/
def NulLast (l : level) : Prop := ∀ line ∈ l.pic, line.length ≤ strlen line + 1

/-- The bytes of `l` that were cells of the map of `l0` or that differ from the
byte `l0` holds at the same place all satisfy the cell invariants. -/
def TouchedOK (l0 l : level) : Prop :=
  ∀ r c ch, peek l r c = some ch → (InMap l0 r c ∨ peek l0 r c ≠ some ch) → cellOK ch = true

/-- The undo stack is an allocated block of `MaxUndo` ints holding entries
`0 .. UndoTop`. -/
def StackOK (s : session) : Prop :=
  (s.UndoStack.length : Int) = s.MaxUndo ∧ 0 < s.MaxUndo ∧ -1 ≤ s.UndoTop ∧
    s.UndoTop < s.MaxUndo

/-- Every box among the scanned cells `0 ≤ r < rows`, `0 ≤ c < cols` is on a store:
no such cell has `BOX` set without `STORE` set. -/
def AllStored (l : level) : Prop :=
  ∀ r c : Int, 0 ≤ r → r < l.rows → 0 ≤ c → c < l.cols →
    ¬ (has (get l r c) BOX = true ∧ has (get l r c) STORE = false)

/-- The scanned cell `[r,c]` of `l` (`0 ≤ r < rows`, `0 ≤ c < cols`) carries `BOX`. -/
def scannedBox (l : level) (r c : Int) : Bool :=
  decide (0 ≤ r) && decide (r < l.rows) && decide (0 ≤ c) && decide (c < l.cols) &&
    has (get l r c) BOX

/-- The board `lk` is `l` with `HILITE` or-ed into the cells selected by `D` that
carry `BOX`; every other byte and every other field is the same. -/
def MarkedBy (l : level) (D : Int → Int → Bool) (lk : level) : Prop :=
  lk.levelNumber = l.levelNumber ∧ lk.cols = l.cols ∧ lk.top = l.top ∧ lk.left = l.left ∧
  lk.worker = l.worker ∧ lk.startTime = l.startTime ∧ lk.pic.length = l.pic.length ∧
  (∀ r c : Int, peek lk r c =
    (peek l r c).map fun ch => if D r c && has (get l r c) BOX then ch ||| HILITE else ch) ∧
  (∀ r c : Int, get lk r c =
    if D r c && has (get l r c) BOX then get l r c ||| HILITE else get l r c)

/-- The board `movePiece` produces from source byte `ch0` and destination byte
`ch1`: tracked position updated, both bytes stored. -/
def moved (l : level) (r0 c0 r1 c1 : Int) (ch0 ch1 : Nat) : level :=
  pokeF (pokeF (retrack l r0 c0 r1 c1) r0 c0 (vacated ch0)) r1 c1 (entered ch0 ch1)

/-- One call of `go` that succeeds: it returns 1. -/
def goOk (s : session) (direction : Int) : Option session :=
  (go s direction).bind fun x => if x.2 = 1 then some x.1 else none

/-- A sequence of `go` calls, one per direction, each of which returns 1. -/
def goSeq : session → List Int → Option session
  | s, [] => some s
  | s, d :: ds => (goOk s d).bind fun s1 => goSeq s1 ds

/-- Every `go` of the sequence of directions, started on `s`, stores inside the
drawn map. -/
def StepsInMap : session → List Int → Prop
  | _, [] => True
  | s, d :: ds => StoresInMap s.l d ∧
      match goOk s d with
      | some s1 => StepsInMap s1 ds
      | none => True

/-- One call of `undo` that succeeds: it returns 1. -/
def undoOk (s : session) : Option session :=
  (undo s).bind fun x => if x.2 = 1 then some x.1 else none

/-- `n` calls of `undo` in a row, each of which returns 1. -/
def undoSeq : session → Nat → Option session
  | s, 0 => some s
  | s, n + 1 => (undoSeq s n).bind undoOk

/-- One input of the play loop that changes the session: a move in a direction
(`go`) or an undo. -/
inductive Op where
  | move (direction : Int)
  | back
deriving DecidableEq, Repr

/-- One call of `go` or `undo`, whatever it returns. -/
def applyOp (s : session) : Op → Option session
  | Op.move d => (go s d).map Prod.fst
  | Op.back => (undo s).map Prod.fst

/-- A sequence of `go` and `undo` calls. -/
def applyOps : session → List Op → Option session
  | s, [] => some s
  | s, op :: ops => (applyOp s op).bind fun s1 => applyOps s1 ops

/-- The bit `flag` of the byte stored in cell `[r,c]`; `none` where the board has
no cell. -/
def flagAt (l : level) (flag : Nat) (r c : Int) : Option Bool :=
  (peek l r c).map fun ch => has ch flag

/-- Two bytes that are identical except for the `HILITE` bit; a NUL byte, which
ends a line and is no cell, only matches a NUL byte. -/
def sameButHiliteByte (x y : Nat) : Prop :=
  x ||| HILITE = y ||| HILITE ∧ (x = 0 ↔ y = 0)

/-- Two boards that are identical except for the `HILITE` bits of some cells: the
same fields, the same lines ending at the same places, and cell by cell the same
byte up to `HILITE`. -/
def SameButHilite (a b : level) : Prop :=
  a.levelNumber = b.levelNumber ∧ a.cols = b.cols ∧ a.top = b.top ∧ a.left = b.left ∧
  a.worker = b.worker ∧ a.startTime = b.startTime ∧ a.pic.length = b.pic.length ∧
  ∀ r c : Int,
    (peek a r c = none ∧ peek b r c = none) ∨
    (∃ x y, peek a r c = some x ∧ peek b r c = some y ∧ sameButHiliteByte x y)

/-- Two sessions with the same undo stack and counters whose boards are identical
except for `HILITE` bits. -/
def SameButHiliteSession (s t : session) : Prop :=
  SameButHilite s.l t.l ∧ s.MaxUndo = t.MaxUndo ∧ s.UndoStack = t.UndoStack ∧
  s.UndoTop = t.UndoTop ∧ s.MoveCount = t.MoveCount

/-- The number of cells of the drawn map that carry `BOX`: in every line, the
bytes in front of the first NUL that have the `BOX` bit set. -/
def boxCount (l : level) : Nat :=
  (l.pic.map fun line => (cstring line).countP fun ch => has ch BOX).sum

/-- Exactly one cell of the drawn map carries `WORKER`, and the tracked position
`l->worker` decodes (through `p2rc`) to that cell. -/
def WorkerUnique (l : level) : Prop :=
  ∀ r c : Int, has (get l r c) WORKER = true ↔ (r = (p2rc l.worker).1 ∧ c = (p2rc l.worker).2)

/-- One call of the play loop on the session: a move in a direction (`go`), an
undo, or the win check (`win`). -/
inductive Call where
  | move (direction : Int)
  | back
  | check
deriving DecidableEq, Repr

/-- One call of `go`, `undo` or `win`, whatever it returns. -/
def applyCall (s : session) : Call → Option session
  | Call.move d => (go s d).map Prod.fst
  | Call.back => (undo s).map Prod.fst
  | Call.check => (win s.l).map fun x => { s with l := x.1 }

/-- A sequence of `go`, `undo` and `win` calls. -/
def applyCalls : session → List Call → Option session
  | s, [] => some s
  | s, k :: rest => (applyCall s k).bind fun s1 => applyCalls s1 rest

/-- Every `go` of the sequence of calls, started on `s`, stores inside the drawn
map. -/
def CallsInMap : session → List Call → Prop
  | _, [] => True
  | s, k :: rest =>
      (match k with
        | Call.move d => StoresInMap s.l d
        | _ => True) ∧
      match applyCall s k with
      | some s1 => CallsInMap s1 rest
      | none => True

/-- The board part of `undo` for the popped entry `p`: the worker is moved back to
the position `p` decodes to and, when `p` carries `PULL`, the box is moved into
the cell the worker left. -/
def undoBoard (l : level) (p : Int) : Option level :=
  (movePiece l (p2rc l.worker).1 (p2rc l.worker).2 (p2rc p).1 (p2rc p).2).bind fun l1 =>
  if Int.land PULL p ≠ 0 then
    movePiece l1 ((p2rc l.worker).1 - ((p2rc p).1 - (p2rc l.worker).1))
      ((p2rc l.worker).2 - ((p2rc p).2 - (p2rc l.worker).2))
      (p2rc l.worker).1 (p2rc l.worker).2
  else some l1

/-- A well-formed board: the cell invariants hold, the map is within 64 × 64 and
the tracked position is `rc2p` of a cell that carries `WORKER`. -/
def WellFormed (l : level) : Prop :=
  CellsOK l ∧ Within64 l ∧ ∃ r c, WorkerAt l r c

/-- The entries `0 .. n-1` of the undo stack can be undone one after the other,
from the top, starting on `l`, and every board on the way is well-formed. -/
def Undoable (stack : List Int) : Nat → level → Prop
  | 0, l => WellFormed l
  | n + 1, l => WellFormed l ∧
      ∃ p l', stack[n]? = some p ∧ undoBoard l p = some l' ∧ Undoable stack n l'

/-- The invariant of play: up to `HILITE` bits the board is a well-formed board
on which the entries `0 .. UndoTop` of the undo stack can be undone from the top. -/
def Playable (t : session) : Prop :=
  -1 ≤ t.UndoTop ∧
    ∃ g, SameButHilite g t.l ∧ Undoable t.UndoStack (t.UndoTop + 1).toNat g

/-- A well-formed state at the start of play, as a level load leaves it: a
well-formed board and an empty undo stack. -/
def FreshState (s : session) : Prop :=
  WellFormed s.l ∧ s.UndoTop = -1

/-- At least one of `WALL`, `WORKER`, `BOX`, `STORE`, `SPACE` is set in the cell. -/
def hasGlyphBit (ch : Nat) : Bool :=
  has ch WALL || has ch WORKER || has ch BOX || has ch STORE || has ch SPACE

/-! ## Concrete boards used by the witnesses and counterexamples -/

/-- The board `@`, a cell carrying both `SPACE` and `BOX`, `#`, with the worker
tracked at `[0,0]` and an empty undo stack of ten slots. -/
def blockedProbe : session :=
  { l := { levelNumber := 0, cols := 3, pic := [[WORKER, SPACE ||| BOX, WALL, 0]], top := 0,
           left := 0, worker := rc2p 0 0, startTime := 0 },
    MaxUndo := 10, UndoStack := List.replicate 10 0, UndoTop := -1, MoveCount := 0 }

/-- The board `#@$#` with the worker tracked at `[0,1]`: the box ahead of an
eastbound worker has a wall behind it. -/
def boxAtWall : session :=
  { l := { levelNumber := 0, cols := 4, pic := [[WALL, WORKER, BOX, WALL, 0]], top := 0,
           left := 0, worker := rc2p 0 1, startTime := 0 },
    MaxUndo := 10, UndoStack := List.replicate 10 0, UndoTop := -1, MoveCount := 0 }

/-- The board `#@ .#` with the worker tracked at `[0,1]`: plain floor lies east
of the worker. -/
def floorAhead : session :=
  { l := { levelNumber := 1, cols := 5, pic := [[WALL, WORKER, SPACE, STORE ||| SPACE, WALL, 0]],
           top := 0, left := 0, worker := rc2p 0 1, startTime := 0 },
    MaxUndo := 10, UndoStack := List.replicate 10 0, UndoTop := -1, MoveCount := 0 }

/-- The level text of `floorAhead`: the single line `#@ .#`. -/
def floorText : List (List Nat) := [[35, 64, 32, 46, 35]]

/-- The board `#####`, `#@$.#`, `#####` with the worker tracked at `[1,1]`: a box
lies east of the worker and a free store behind it. -/
def boxAhead : session :=
  { l := { levelNumber := 1, cols := 5,
           pic := [[WALL, WALL, WALL, WALL, WALL, 0],
                   [WALL, WORKER, BOX, STORE ||| SPACE, WALL, 0],
                   [WALL, WALL, WALL, WALL, WALL, 0]],
           top := 0, left := 0, worker := rc2p 1 1, startTime := 0 },
    MaxUndo := 10, UndoStack := List.replicate 10 0, UndoTop := -1, MoveCount := 0 }

/-- The session `boxAhead` after the eastbound push: worker at `[1,2]`, box on the
store at `[1,3]`, one undo entry `rc2p 1 1 | PULL`. -/
def boxAheadPushed : session :=
  { l := { levelNumber := 1, cols := 5,
           pic := [[WALL, WALL, WALL, WALL, WALL, 0],
                   [WALL, SPACE, WORKER, STORE ||| BOX, WALL, 0],
                   [WALL, WALL, WALL, WALL, WALL, 0]],
           top := 0, left := 0, worker := rc2p 1 2, startTime := 0 },
    MaxUndo := 10, UndoStack := Int.lor (rc2p 1 1) PULL :: List.replicate 9 0, UndoTop := 0,
    MoveCount := 1 }

/-- A board of two lines: 63 floor cells, the worker at column 63 and a floor cell
at column 64; below it a line holding one box.  The worker is tracked at `[0,63]`. -/
def wideBoard : session :=
  { l := { levelNumber := 0, cols := 65,
           pic := [List.replicate 63 SPACE ++ [WORKER, SPACE, 0], [BOX, 0]],
           top := 0, left := 0, worker := rc2p 0 63, startTime := 0 },
    MaxUndo := 10, UndoStack := List.replicate 10 0, UndoTop := -1, MoveCount := 0 }

/-- The session `boxAhead` after the moves east (push) and west (slide): worker
at `[1,1]` again, box on the store, two undo entries. -/
def boxAheadThere : session :=
  { l := { levelNumber := 1, cols := 5,
           pic := [[WALL, WALL, WALL, WALL, WALL, 0],
                   [WALL, WORKER, SPACE, STORE ||| BOX, WALL, 0],
                   [WALL, WALL, WALL, WALL, WALL, 0]],
           top := 0, left := 0, worker := rc2p 1 1, startTime := 0 },
    MaxUndo := 10,
    UndoStack := Int.lor (rc2p 1 1) PULL :: rc2p 1 2 :: List.replicate 8 0, UndoTop := 1,
    MoveCount := 2 }

/-- The board of one line with two floor cells; the tracked position is `[0,0]`. -/
def twoFloor : level :=
  { levelNumber := 0, cols := 2, pic := [[SPACE, SPACE, 0]], top := 0, left := 0,
    worker := rc2p 0 0, startTime := 0 }

/-- A board of a single line: 63 floor cells, the worker at column 63 and a floor
cell at column 64.  The worker is tracked at `[0,63]`. -/
def wideLine : session :=
  { l := { levelNumber := 0, cols := 65,
           pic := [List.replicate 63 SPACE ++ [WORKER, SPACE, 0]],
           top := 0, left := 0, worker := rc2p 0 63, startTime := 0 },
    MaxUndo := 10, UndoStack := List.replicate 10 0, UndoTop := -1, MoveCount := 0 }

/-- The text of the scenario level: `#####`, `#@$.#`, `#####`. -/
def scenarioText : List (List Nat) :=
  [[35, 35, 35, 35, 35], [35, 64, 36, 46, 35], [35, 35, 35, 35, 35]]

/-- The board `boxAheadPushed` after `win`: the box on the store is highlighted. -/
def boxAheadWon : level :=
  { levelNumber := 1, cols := 5,
    pic := [[WALL, WALL, WALL, WALL, WALL, 0],
            [WALL, SPACE, WORKER, STORE ||| BOX ||| HILITE, WALL, 0],
            [WALL, WALL, WALL, WALL, WALL, 0]],
    top := 0, left := 0, worker := rc2p 1 2, startTime := 0 }

/-- The session `boxAheadPushed` with the board as `win` leaves it: the box on
the store highlighted. -/
def boxAheadWonSession : session :=
  { boxAheadPushed with l := boxAheadWon }

/-- The session reached from `boxAhead` by a sequence of calls (`boxAhead` itself
when a call has no result). -/
def boxAheadAfter (calls : List Call) : session :=
  (applyCalls boxAhead calls).getD boxAhead

/-- The ragged board `###`, `#@`, `###` with the worker tracked at `[1,1]`: the
position east of the worker is the terminating NUL of the middle line, outside
the drawn map and inside the buffer. -/
def raggedRow : session :=
  { l := { levelNumber := 1, cols := 3,
           pic := [[WALL, WALL, WALL, 0], [WALL, WORKER, 0], [WALL, WALL, WALL, 0]],
           top := 0, left := 0, worker := rc2p 1 1, startTime := 0 },
    MaxUndo := 10, UndoStack := List.replicate 10 0, UndoTop := -1, MoveCount := 0 }

/-- The session `go raggedRow EAST` leaves: the worker stored where the
terminating NUL of the middle line was. -/
def raggedRowStepped : session :=
  { l := { levelNumber := 1, cols := 3,
           pic := [[WALL, WALL, WALL, 0], [WALL, SPACE, WORKER], [WALL, WALL, WALL, 0]],
           top := 0, left := 0, worker := rc2p 1 2, startTime := 0 },
    MaxUndo := 10, UndoStack := [rc2p 1 1] ++ List.replicate 9 0, UndoTop := 0,
    MoveCount := 1 }

/-- The level text of `raggedRow`: `###`, `#@`, `###`. -/
def raggedText : List (List Nat) := [[35, 35, 35], [35, 64], [35, 35, 35]]

/-- The level text of two blanks, a map without a worker. -/
def blankText : List (List Nat) := [[32, 32]]

/-- The session `readLevel` builds from `blankText`: two floor cells, and the
tracked position left at its initial value 0, the floor cell `[0,0]`. -/
def noWorker : session :=
  { l := { levelNumber := 1, cols := 2, pic := [[SPACE, SPACE, 0]], top := 0, left := 0,
           worker := 0, startTime := 0 },
    MaxUndo := 10, UndoStack := List.replicate 10 0, UndoTop := -1, MoveCount := 0 }

/-- A board of two lines 65 columns wide with the worker at `[0,63]` and floor
everywhere else; the undo stack is empty. -/
def wideFloor : session :=
  { l := { levelNumber := 1, cols := 65,
           pic := [List.replicate 63 SPACE ++ [WORKER, SPACE, 0], List.replicate 65 SPACE ++ [0]],
           top := 0, left := 0, worker := rc2p 0 63, startTime := 0 },
    MaxUndo := 10, UndoStack := List.replicate 10 0, UndoTop := -1, MoveCount := 0 }

/-- The level text of `wideFloor`: 63 blanks, `@` and a blank, then 65 blanks. -/
def wideText : List (List Nat) :=
  [List.replicate 63 32 ++ [64, 32], List.replicate 65 32]

/-! ## Bit-level facts -/

theorem has_two_pow (ch k : Nat) : has ch (2 ^ k) = ch.testBit k := by
  unfold has
  cases h : ch.testBit k
  · have h0 : ch &&& 2 ^ k = 0 := by
      apply Nat.eq_of_testBit_eq
      intro i
      simp only [Nat.testBit_and, Nat.testBit_two_pow, Nat.zero_testBit]
      by_cases hi : k = i
      · subst hi; simp [h]
      · simp [hi]
    simp [h0]
  · have h1 : (ch &&& 2 ^ k).testBit k = true := by
      simp [Nat.testBit_and, Nat.testBit_two_pow, h]
    have hne : ch &&& 2 ^ k ≠ 0 := by
      intro h0; rw [h0] at h1; simp at h1
    simp [hne]

theorem has_WALL (ch : Nat) : has ch WALL = ch.testBit 0 := has_two_pow ch 0
theorem has_BOX (ch : Nat) : has ch BOX = ch.testBit 1 := has_two_pow ch 1
theorem has_STORE (ch : Nat) : has ch STORE = ch.testBit 2 := has_two_pow ch 2
theorem has_WORKER (ch : Nat) : has ch WORKER = ch.testBit 3 := has_two_pow ch 3
theorem has_SPACE (ch : Nat) : has ch SPACE = ch.testBit 4 := has_two_pow ch 4
theorem has_HILITE (ch : Nat) : has ch HILITE = ch.testBit 5 := has_two_pow ch 5

theorem tb_WALL (i : Nat) : WALL.testBit i = decide (i = 0) := by
  have h := @Nat.testBit_two_pow 0 i; simpa [WALL, eq_comm] using h
theorem tb_BOX (i : Nat) : BOX.testBit i = decide (i = 1) := by
  have h := @Nat.testBit_two_pow 1 i; simpa [BOX, eq_comm] using h
theorem tb_STORE (i : Nat) : STORE.testBit i = decide (i = 2) := by
  have h := @Nat.testBit_two_pow 2 i; simpa [STORE, eq_comm] using h
theorem tb_WORKER (i : Nat) : WORKER.testBit i = decide (i = 3) := by
  have h := @Nat.testBit_two_pow 3 i; simpa [WORKER, eq_comm] using h
theorem tb_SPACE (i : Nat) : SPACE.testBit i = decide (i = 4) := by
  have h := @Nat.testBit_two_pow 4 i; simpa [SPACE, eq_comm] using h
theorem tb_HILITE (i : Nat) : HILITE.testBit i = decide (i = 5) := by
  have h := @Nat.testBit_two_pow 5 i; simpa [HILITE, eq_comm] using h

theorem tb_clearBits (ch m i : Nat) :
    (clearBits ch m).testBit i = (ch.testBit i && !m.testBit i) := by
  simp only [clearBits, Nat.testBit_xor, Nat.testBit_and]
  cases ch.testBit i <;> cases m.testBit i <;> rfl

theorem tb_vacated (ch0 i : Nat) :
    (vacated ch0).testBit i =
      (decide (i = 4) || (ch0.testBit i && !(decide (i = 1) || decide (i = 3)))) := by
  simp only [vacated, Nat.testBit_or, tb_clearBits, tb_SPACE, tb_BOX, tb_WORKER]

theorem tb_entered (ch0 ch1 i : Nat) :
    (entered ch0 ch1).testBit i =
      ((ch1.testBit i && !(decide (i = 4) || decide (i = 1) || decide (i = 3))) ||
        (ch0.testBit i && (decide (i = 1) || decide (i = 3)))) := by
  simp only [entered, Nat.testBit_or, Nat.testBit_and, tb_clearBits, tb_SPACE, tb_BOX,
    tb_WORKER]

theorem tb_hilite (ch i : Nat) :
    (ch ||| HILITE).testBit i = (ch.testBit i || decide (i = 5)) := by
  simp only [Nat.testBit_or, tb_HILITE]

/-! ## Codec facts -/

theorem int_lor_ofNat (a b : Nat) : Int.lor (a : Int) (b : Int) = ((a ||| b : Nat) : Int) := rfl

theorem int_land_ofNat (a b : Nat) : Int.land (a : Int) (b : Int) = ((a &&& b : Nat) : Int) :=
  rfl

theorem int_shr_ofNat (a k : Nat) : Int.shiftRight (a : Int) k = ((a >>> k : Nat) : Int) := rfl

theorem int_shl6_ofNat (a : Nat) : (a : Int) <<< (6 : Int) = ((a <<< 6 : Nat) : Int) := by
  have h := Int.shiftLeft_eq_mul_pow (a : Int) 6
  simp only [Nat.cast_ofNat] at h
  rw [h, Nat.shiftLeft_eq]; push_cast; rfl

theorem rc2p_ofNat (r c : Nat) : rc2p (r : Int) (c : Int) = ((r <<< 6 ||| c : Nat) : Int) := by
  unfold rc2p; rw [int_shl6_ofNat, int_lor_ofNat]

theorem p2rc_ofNat (p : Nat) :
    p2rc (p : Int) = ((((p >>> 6) &&& 63 : Nat) : Int), ((p &&& 63 : Nat) : Int)) := by
  unfold p2rc
  rw [int_shr_ofNat]
  rfl

theorem PULL_eq : PULL = ((4096 : Nat) : Int) := by decide

theorem codec_nat : ∀ r < 64, ∀ c < 64,
    ((r <<< 6 ||| c) >>> 6) &&& 63 = r ∧ (r <<< 6 ||| c) &&& 63 = c ∧
      (r <<< 6 ||| c) < 4096 ∧ (r <<< 6 ||| c) &&& 4096 = 0 ∧
      ((r <<< 6 ||| c) ||| 4096) &&& 4096 = 4096 ∧
      4096 &&& ((r <<< 6 ||| c) ||| 4096) = 4096 ∧
      4096 &&& (r <<< 6 ||| c) = 0 ∧
      ((((r <<< 6 ||| c) ||| 4096) >>> 6) &&& 63 = r) ∧
      ((r <<< 6 ||| c) ||| 4096) &&& 63 = c := by
  decide

theorem p2rc_rc2p (r c : Int) (hr0 : 0 ≤ r) (hr : r < 64) (hc0 : 0 ≤ c) (hc : c < 64) :
    p2rc (rc2p r c) = (r, c) := by
  obtain ⟨a, rfl⟩ := Int.eq_ofNat_of_zero_le hr0
  obtain ⟨b, rfl⟩ := Int.eq_ofNat_of_zero_le hc0
  have ha : a < 64 := by omega
  have hb : b < 64 := by omega
  have h := codec_nat a ha b hb
  rw [rc2p_ofNat, p2rc_ofNat, h.1, h.2.1]

theorem p2rc_pull (r c : Int) (hr0 : 0 ≤ r) (hr : r < 64) (hc0 : 0 ≤ c) (hc : c < 64) :
    p2rc (Int.lor (rc2p r c) PULL) = (r, c) ∧ Int.land PULL (Int.lor (rc2p r c) PULL) ≠ 0 ∧
      Int.land PULL (rc2p r c) = 0 := by
  obtain ⟨a, rfl⟩ := Int.eq_ofNat_of_zero_le hr0
  obtain ⟨b, rfl⟩ := Int.eq_ofNat_of_zero_le hc0
  have ha : a < 64 := by omega
  have hb : b < 64 := by omega
  have h := codec_nat a ha b hb
  rw [rc2p_ofNat, PULL_eq, int_lor_ofNat, p2rc_ofNat, int_land_ofNat, int_land_ofNat]
  rw [h.2.2.2.2.2.1, h.2.2.2.2.2.2.1, h.2.2.2.2.2.2.2.1, h.2.2.2.2.2.2.2.2]
  simp

theorem p2rc_range_nat (p : Nat) :
    0 ≤ (p2rc (p : Int)).1 ∧ (p2rc (p : Int)).1 < 64 ∧
      0 ≤ (p2rc (p : Int)).2 ∧ (p2rc (p : Int)).2 < 64 := by
  rw [p2rc_ofNat]
  have h1 : (p >>> 6) &&& 63 ≤ 63 := Nat.and_le_right
  have h2 : p &&& 63 ≤ 63 := Nat.and_le_right
  refine ⟨?_, ?_, ?_, ?_⟩ <;> simp <;> omega

theorem rc2p_pull_clear (r c : Int) (hr0 : 0 ≤ r) (hr : r < 64) (hc0 : 0 ≤ c) (hc : c < 64) :
    Int.land (rc2p r c) PULL = 0 := by
  obtain ⟨a, rfl⟩ := Int.eq_ofNat_of_zero_le hr0
  obtain ⟨b, rfl⟩ := Int.eq_ofNat_of_zero_le hc0
  have h := codec_nat a (by omega) b (by omega)
  rw [rc2p_ofNat, PULL_eq, int_land_ofNat, h.2.2.2.1]; rfl

/-! ## Position codec: the claims -/

/-- C8: for every row and column in `[0,64)`, decoding the encoded position
yields exactly the row and the column: `p2rc (rc2p row col) = (row, col)`. -/
theorem C8_codec_roundtrip (row col : Int) (hr0 : 0 ≤ row) (hr : row < 64) (hc0 : 0 ≤ col)
    (hc : col < 64) : p2rc (rc2p row col) = (row, col) :=
  p2rc_rc2p row col hr0 hr hc0 hc

/-- Witness of C8 at row 63, column 17. -/
theorem C8_codec_roundtrip_witness : p2rc (rc2p 63 17) = (63, 17) :=
  C8_codec_roundtrip 63 17 (by decide) (by decide) (by decide) (by decide)

/-- C9: the pull marker does not collide with the row and column bits.  For every
row and column in `[0,64)` the encoded position lies in `[0,4096)` and has the
`PULL` bit clear; after tagging it with `PULL` the bit is set and the position
still decodes to the same row and column. -/
theorem C9_pull_marker_disjoint (row col : Int) (hr0 : 0 ≤ row) (hr : row < 64)
    (hc0 : 0 ≤ col) (hc : col < 64) :
    0 ≤ rc2p row col ∧ rc2p row col < 4096 ∧ Int.land (rc2p row col) PULL = 0 ∧
      Int.land (Int.lor (rc2p row col) PULL) PULL ≠ 0 ∧
      Int.land PULL (Int.lor (rc2p row col) PULL) ≠ 0 ∧
      p2rc (Int.lor (rc2p row col) PULL) = (row, col) := by
  obtain ⟨a, rfl⟩ := Int.eq_ofNat_of_zero_le hr0
  obtain ⟨b, rfl⟩ := Int.eq_ofNat_of_zero_le hc0
  have ha : a < 64 := by omega
  have hb : b < 64 := by omega
  have h := codec_nat a ha b hb
  have hp := p2rc_pull (a : Int) (b : Int) hr0 hr hc0 hc
  refine ⟨?_, ?_, ?_, ?_, hp.2.1, hp.1⟩
  · rw [rc2p_ofNat]; exact Int.ofNat_nonneg _
  · rw [rc2p_ofNat]; exact_mod_cast h.2.2.1
  · rw [rc2p_ofNat, PULL_eq, int_land_ofNat, h.2.2.2.1]; rfl
  · rw [rc2p_ofNat, PULL_eq, int_lor_ofNat, int_land_ofNat, h.2.2.2.2.1]; simp

/-- Witness of C9 at row 63, column 63, the largest encodable position. -/
theorem C9_pull_marker_disjoint_witness :
    0 ≤ rc2p 63 63 ∧ rc2p 63 63 < 4096 ∧ Int.land (rc2p 63 63) PULL = 0 ∧
      Int.land (Int.lor (rc2p 63 63) PULL) PULL ≠ 0 ∧
      Int.land PULL (Int.lor (rc2p 63 63) PULL) ≠ 0 ∧
      p2rc (Int.lor (rc2p 63 63) PULL) = (63, 63) :=
  C9_pull_marker_disjoint 63 63 (by decide) (by decide) (by decide) (by decide)

/-- C10: for every non-negative row and column with `row ≥ 64` or `col ≥ 64` the
encoding is silently corrupted: the position returned by `rc2p` does not decode
back to the row and the column. -/
theorem C10_codec_overflow_corrupts (row col : Int) (hr0 : 0 ≤ row) (hc0 : 0 ≤ col)
    (hbig : 64 ≤ row ∨ 64 ≤ col) : p2rc (rc2p row col) ≠ (row, col) := by
  obtain ⟨a, rfl⟩ := Int.eq_ofNat_of_zero_le hr0
  obtain ⟨b, rfl⟩ := Int.eq_ofNat_of_zero_le hc0
  rw [rc2p_ofNat]
  have h := p2rc_range_nat (a <<< 6 ||| b)
  intro heq
  rw [heq] at h
  simp only at h
  omega

/-- Witness of C10: row 64, column 0 encodes to the position of row 0, column 0
of the next 4096-block and decodes to `(0, 0)`. -/
theorem C10_codec_overflow_corrupts_witness : p2rc (rc2p 64 0) ≠ (64, 0) :=
  C10_codec_overflow_corrupts 64 0 (by decide) (by decide) (Or.inl (by decide))

/-! ## Board access facts -/

theorem cell_set (pic : List (List Nat)) (i j i' j' v x : Nat)
    (h : pic[i]?.bind (fun cells => cells[j]?) = some x) :
    (pic.set i ((pic.getD i []).set j v))[i']?.bind (fun cells => cells[j']?) =
      if i' = i ∧ j' = j then some v else pic[i']?.bind (fun cells => cells[j']?) := by
  cases hrow : pic[i]? with
  | none => rw [hrow] at h; simp at h
  | some row =>
    rw [hrow] at h
    simp only [Option.some_bind] at h
    have hi : i < pic.length := by
      rcases List.getElem?_eq_some.1 hrow with ⟨hlt, _⟩; exact hlt
    have hj : j < row.length := by
      rcases List.getElem?_eq_some.1 h with ⟨hlt, _⟩; exact hlt
    have hD : pic.getD i [] = row := by
      rw [List.getD_eq_getElem?_getD, hrow]; rfl
    rw [hD, List.getElem?_set]
    by_cases hii : i = i'
    · subst hii
      simp only [hi, if_true, Option.some_bind, true_and]
      rw [List.getElem?_set]
      by_cases hjj : j = j'
      · subst hjj; simp [hj]
      · have hjj' : ¬ j' = j := fun e => hjj e.symm
        simp [hjj, hjj', hrow]
    · have hii' : ¬ i' = i := fun e => hii e.symm
      simp [hii, hii']

theorem peek_nonneg {l : level} {r c : Int} {x : Nat} (h : peek l r c = some x) :
    0 ≤ r ∧ 0 ≤ c := by
  unfold peek at h
  by_cases hneg : r < 0 ∨ c < 0
  · simp [hneg] at h
  · omega

theorem peek_eq {l : level} {r c : Int} (hr : 0 ≤ r) (hc : 0 ≤ c) :
    peek l r c = l.pic[r.toNat]?.bind (fun cells => cells[c.toNat]?) := by
  unfold peek
  have hneg : ¬ (r < 0 ∨ c < 0) := by omega
  simp [hneg]

theorem peek_pokeF (l : level) (r c r' c' : Int) (v x : Nat) (h : peek l r c = some x) :
    peek (pokeF l r c v) r' c' = if r' = r ∧ c' = c then some v else peek l r' c' := by
  obtain ⟨hr, hc⟩ := peek_nonneg h
  by_cases hneg : r' < 0 ∨ c' < 0
  · have hne : ¬ (r' = r ∧ c' = c) := by omega
    simp [peek, hneg, hne]
  · have hr' : 0 ≤ r' := by omega
    have hc' : 0 ≤ c' := by omega
    rw [peek_eq hr' hc', peek_eq hr' hc']
    rw [peek_eq hr hc] at h
    simp only [pokeF]
    rw [cell_set l.pic r.toNat c.toNat r'.toNat c'.toNat v x h]
    have e1 : r'.toNat = r.toNat ↔ r' = r := by omega
    have e2 : c'.toNat = c.toNat ↔ c' = c := by omega
    simp only [e1, e2]

theorem pokeF_length (l : level) (r c : Int) (v : Nat) :
    (pokeF l r c v).pic.length = l.pic.length := by
  simp [pokeF]

theorem level_ext {a b : level} (h1 : a.levelNumber = b.levelNumber) (h2 : a.cols = b.cols)
    (h3 : a.top = b.top) (h4 : a.left = b.left) (h5 : a.worker = b.worker)
    (h6 : a.startTime = b.startTime) (hlen : a.pic.length = b.pic.length)
    (hcell : ∀ r c : Int, peek a r c = peek b r c) : a = b := by
  have hpic : a.pic = b.pic := by
    apply List.ext_getElem?
    intro i
    by_cases hi : i < a.pic.length
    · have hi' : i < b.pic.length := hlen ▸ hi
      rw [List.getElem?_eq_getElem hi, List.getElem?_eq_getElem hi']
      congr 1
      apply List.ext_getElem?
      intro j
      have h := hcell (i : Int) (j : Int)
      rw [peek_eq (Int.ofNat_nonneg i) (Int.ofNat_nonneg j),
        peek_eq (Int.ofNat_nonneg i) (Int.ofNat_nonneg j)] at h
      simpa [List.getElem?_eq_getElem hi, List.getElem?_eq_getElem hi'] using h
    · have hi' : ¬ i < b.pic.length := hlen ▸ hi
      rw [List.getElem?_eq_none (by omega), List.getElem?_eq_none (by omega)]
  cases a; cases b
  simp only [level.mk.injEq]
  simp only at h1 h2 h3 h4 h5 h6 hpic
  exact ⟨h1, h2, hpic, h3, h4, h5, h6⟩

/-! ## Blocked moves -/

/-- C3 (as amended): for every session and direction, if the cell ahead of the
worker has neither `SPACE` nor `BOX`, or it has `BOX` without `SPACE` and the cell
one step beyond it does not have `SPACE`, then `go` returns 0 and leaves the
board, the tracked worker position, the undo stack (block, `UndoTop`, `MaxUndo`)
and `MoveCount` unchanged. -/
theorem C3_blocked_go_unchanged (s : session) (direction : Int)
    (h : (has (get s.l ((p2rc s.l.worker).1 + deltaRow direction)
              ((p2rc s.l.worker).2 + deltaCol direction)) SPACE = false ∧
          has (get s.l ((p2rc s.l.worker).1 + deltaRow direction)
              ((p2rc s.l.worker).2 + deltaCol direction)) BOX = false) ∨
         (has (get s.l ((p2rc s.l.worker).1 + deltaRow direction)
              ((p2rc s.l.worker).2 + deltaCol direction)) SPACE = false ∧
          has (get s.l ((p2rc s.l.worker).1 + deltaRow direction)
              ((p2rc s.l.worker).2 + deltaCol direction)) BOX = true ∧
          has (get s.l ((p2rc s.l.worker).1 + deltaRow direction + deltaRow direction)
              ((p2rc s.l.worker).2 + deltaCol direction + deltaCol direction)) SPACE = false)) :
    go s direction = some (s, 0) := by
  unfold go
  rcases h with ⟨h1, h2⟩ | ⟨h1, h2, h3⟩
  · simp [h1, h2]
  · simp [h1, h2, h3]

/-- Witness of C3: on `#@$#` the eastbound worker faces a box with a wall behind
it; `go` returns 0 and the session is unchanged. -/
theorem C3_blocked_go_unchanged_witness : go boxAtWall EAST = some (boxAtWall, 0) :=
  C3_blocked_go_unchanged boxAtWall EAST (Or.inr (by decide))

/-- Counterexample to C3 as stated: the cell ahead carries `BOX` (together with
`SPACE`) and the cell beyond it is a wall without `SPACE`, yet `go` takes the
slide branch, moves the worker and returns 1. -/
theorem C3_counterexample :
    p2rc blockedProbe.l.worker = (0, 0) ∧
      has (get blockedProbe.l 0 1) BOX = true ∧
      has (get blockedProbe.l 0 2) SPACE = false ∧
      (go blockedProbe EAST).map Prod.snd = some 1 ∧
      (go blockedProbe EAST).map (fun x => x.1.l.pic) = some [[SPACE, WORKER, WALL, 0]] ∧
      go blockedProbe EAST ≠ some (blockedProbe, 0) := by
  decide

/-! ## Lines, `strlen` and `get` -/

theorem strlen_le_length (cells : List Nat) : strlen cells ≤ cells.length := by
  induction cells with
  | nil => simp [strlen]
  | cons ch rest ih =>
    simp only [strlen, List.length_cons]
    split <;> omega

theorem strlen_set (cells : List Nat) (j v : Nat) (hj : j < strlen cells) (hv : v ≠ 0) :
    strlen (cells.set j v) = strlen cells := by
  induction cells generalizing j with
  | nil => simp [strlen] at hj
  | cons ch rest ih =>
    by_cases h0 : ch = 0
    · simp [strlen, h0] at hj
    · cases j with
      | zero => simp [strlen, h0, hv]
      | succ k =>
        have hk : k < strlen rest := by
          simp [strlen, h0] at hj; exact hj
        simp [strlen, h0, ih k hk]

theorem getD_set_line (cells : List Nat) (j j' v : Nat) (hj : j < cells.length) :
    (cells.set j v).getD j' 0 = if j' = j then v else cells.getD j' 0 := by
  rw [List.getD_eq_getElem?_getD, List.getD_eq_getElem?_getD, List.getElem?_set]
  by_cases h : j = j'
  · subst h; simp [hj]
  · have h' : ¬ j' = j := fun e => h e.symm
    simp [h, h']

/-- The value `get` reads at natural coordinates. -/
theorem get_nat (l : level) (i j : Nat) :
    get l (i : Int) (j : Int) =
      if strlen (l.pic.getD i []) ≤ j then SPACE else (l.pic.getD i []).getD j 0 := by
  unfold get level.rows
  by_cases hi : i < l.pic.length
  · have h1 : ¬ ((i : Int) < 0 ∨ (j : Int) < 0 ∨ (i : Int) ≥ (l.pic.length : Int)) := by omega
    simp only [h1, if_false, Int.toNat_natCast]
    by_cases hj : strlen (l.pic.getD i []) ≤ j
    · have h2 : (j : Int) ≥ (strlen (l.pic.getD i []) : Int) := by omega
      simp [h2, hj]
    · have h2 : ¬ (j : Int) ≥ (strlen (l.pic.getD i []) : Int) := by omega
      simp [h2, hj]
  · have h1 : ((i : Int) < 0 ∨ (j : Int) < 0 ∨ (i : Int) ≥ (l.pic.length : Int)) := by omega
    have h3 : l.pic.getD i [] = [] := by
      rw [List.getD_eq_getElem?_getD, List.getElem?_eq_none (by omega)]; rfl
    rw [if_pos h1, h3]
    simp [strlen]

theorem get_neg (l : level) (r c : Int) (h : r < 0 ∨ c < 0) : get l r c = SPACE := by
  unfold get
  have h1 : r < 0 ∨ c < 0 ∨ r ≥ l.rows := by omega
  simp [h1]

theorem get_outside (l : level) (r c : Int) (h : ¬ InMap l r c) : get l r c = SPACE := by
  by_cases hneg : r < 0 ∨ c < 0
  · exact get_neg l r c hneg
  · obtain ⟨i, rfl⟩ := Int.eq_ofNat_of_zero_le (show 0 ≤ r by omega)
    obtain ⟨j, rfl⟩ := Int.eq_ofNat_of_zero_le (show 0 ≤ c by omega)
    rw [get_nat]
    by_cases hj : strlen (l.pic.getD i []) ≤ j
    · rw [if_pos hj]
    · exfalso
      apply h
      unfold InMap level.rows
      have hi : i < l.pic.length := by
        by_contra hcon
        have h3 : l.pic.getD i [] = [] := by
          rw [List.getD_eq_getElem?_getD, List.getElem?_eq_none (by omega)]; rfl
        rw [h3] at hj; simp [strlen] at hj
      simp only [Int.toNat_natCast]
      omega

theorem inMap_nat (l : level) (i j : Nat) :
    InMap l (i : Int) (j : Int) ↔ j < strlen (l.pic.getD i []) := by
  unfold InMap level.rows
  simp only [Int.toNat_natCast]
  constructor
  · intro h; omega
  · intro h
    have hi : i < l.pic.length := by
      by_contra hcon
      have h3 : l.pic.getD i [] = [] := by
        rw [List.getD_eq_getElem?_getD, List.getElem?_eq_none (by omega)]; rfl
      rw [h3] at h; simp [strlen] at h
    omega

theorem peek_inMap (l : level) (r c : Int) (h : InMap l r c) :
    peek l r c = some (get l r c) := by
  obtain ⟨i, rfl⟩ := Int.eq_ofNat_of_zero_le h.1
  obtain ⟨j, rfl⟩ := Int.eq_ofNat_of_zero_le h.2.1
  have hj := (inMap_nat l i j).1 h
  have hlen := strlen_le_length (l.pic.getD i [])
  rw [get_nat, peek_eq (Int.ofNat_nonneg i) (Int.ofNat_nonneg j)]
  have hj' : ¬ strlen (l.pic.getD i []) ≤ j := by omega
  simp only [hj', if_false, Int.toNat_natCast]
  have hi : i < l.pic.length := by
    by_contra hcon
    have h3 : l.pic.getD i [] = [] := by
      rw [List.getD_eq_getElem?_getD, List.getElem?_eq_none (by omega)]; rfl
    rw [h3] at hj; simp [strlen] at hj
  have hD : l.pic.getD i [] = l.pic[i] := by
    rw [List.getD_eq_getElem?_getD, List.getElem?_eq_getElem hi]; rfl
  rw [hD] at hlen hj ⊢
  rw [List.getElem?_eq_getElem hi]
  simp only [Option.some_bind]
  rw [List.getD_eq_getElem?_getD, List.getElem?_eq_getElem (by omega)]
  rfl

theorem has_SPACE_BOX : has SPACE BOX = false := by decide

theorem inMap_of_has_BOX (l : level) (r c : Int) (h : has (get l r c) BOX = true) :
    InMap l r c := by
  by_contra hcon
  rw [get_outside l r c hcon, has_SPACE_BOX] at h
  exact Bool.noConfusion h

theorem get_pokeF (l : level) (r c r' c' : Int) (v : Nat) (h : InMap l r c) (hv : v ≠ 0) :
    get (pokeF l r c v) r' c' = if r' = r ∧ c' = c then v else get l r' c' := by
  obtain ⟨i, rfl⟩ := Int.eq_ofNat_of_zero_le h.1
  obtain ⟨j, rfl⟩ := Int.eq_ofNat_of_zero_le h.2.1
  have hj := (inMap_nat l i j).1 h
  have hlen := strlen_le_length (l.pic.getD i [])
  by_cases hneg : r' < 0 ∨ c' < 0
  · have hne : ¬ (r' = (i : Int) ∧ c' = (j : Int)) := by omega
    rw [get_neg _ _ _ hneg, get_neg _ _ _ hneg]; simp [hne]
  · obtain ⟨i', rfl⟩ := Int.eq_ofNat_of_zero_le (show 0 ≤ r' by omega)
    obtain ⟨j', rfl⟩ := Int.eq_ofNat_of_zero_le (show 0 ≤ c' by omega)
    rw [get_nat, get_nat]
    simp only [pokeF, Int.toNat_natCast]
    have hi : i < l.pic.length := by
      by_contra hcon
      have h3 : l.pic.getD i [] = [] := by
        rw [List.getD_eq_getElem?_getD, List.getElem?_eq_none (by omega)]; rfl
      rw [h3] at hj; simp [strlen] at hj
    have e1 : ((i' : Int) = (i : Int)) ↔ i' = i := by omega
    have e2 : ((j' : Int) = (j : Int)) ↔ j' = j := by omega
    simp only [e1, e2]
    by_cases hii : i' = i
    · subst hii
      have hrow : (l.pic.set i' ((l.pic.getD i' []).set j v)).getD i' [] =
          (l.pic.getD i' []).set j v := by
        rw [List.getD_eq_getElem?_getD, List.getElem?_set_self hi]; rfl
      rw [hrow, strlen_set _ _ _ hj hv, getD_set_line _ _ _ _ (by omega)]
      by_cases hjj : j' = j
      · subst hjj
        have hnot : ¬ strlen (l.pic.getD i' []) ≤ j' := by omega
        rw [if_neg hnot]
        simp
      · simp [hjj]
    · have hrow : (l.pic.set i ((l.pic.getD i []).set j v)).getD i' [] = l.pic.getD i' [] := by
        rw [List.getD_eq_getElem?_getD, List.getElem?_set_ne (fun e => hii e.symm),
          ← List.getD_eq_getElem?_getD]
      rw [hrow]
      simp [hii]

/-! ## Glyph selection and `highlight` -/

theorem selectGlyph_isSome (ch : Nat)
    (h : has ch WALL = true ∨ has ch WORKER = true ∨ has ch BOX = true ∨
      has ch STORE = true ∨ has ch SPACE = true) : ∃ g, selectGlyph ch = some g := by
  unfold selectGlyph
  split_ifs with h1 h2 h3 h4 h5 h6 h7
  · exact ⟨_, rfl⟩
  · exact ⟨_, rfl⟩
  · exact ⟨_, rfl⟩
  · exact ⟨_, rfl⟩
  · exact ⟨_, rfl⟩
  · exact ⟨_, rfl⟩
  · exact ⟨_, rfl⟩
  · simp_all

theorem has_hilite_BOX (ch : Nat) : has (ch ||| HILITE) BOX = has ch BOX := by
  rw [has_BOX, has_BOX, tb_hilite]; simp

theorem hilite_ne_zero (ch : Nat) : ch ||| HILITE ≠ 0 := by
  intro h
  have h5 : (ch ||| HILITE).testBit 5 = true := by rw [tb_hilite]; simp
  rw [h] at h5; simp at h5

theorem hilite_idem (ch : Nat) : (ch ||| HILITE) ||| HILITE = ch ||| HILITE := by
  rw [Nat.or_assoc, Nat.or_self]

theorem highlight_box (l : level) (r c : Int) (h : has (get l r c) BOX = true) :
    highlight l r c = some (pokeF l r c (get l r c ||| HILITE)) := by
  have hin := inMap_of_has_BOX l r c h
  have hpeek := peek_inMap l r c hin
  unfold highlight
  have h1 : ¬ (r < 0 ∨ c < 0 ∨ r ≥ l.rows) := by
    have := hin.1; have := hin.2.1; have := hin.2.2.1; omega
  have h2 : ¬ (c ≥ (strlen (l.pic.getD r.toNat []) : Int)) := by
    have := hin.2.2.2; omega
  rw [if_neg h1]
  simp only [h2, if_false, hpeek, Option.some_bind, poke]
  unfold update
  rw [peek_pokeF l r c r c _ _ hpeek]
  simp only [and_self, if_true, Option.some_bind]
  obtain ⟨g, hg⟩ := selectGlyph_isSome (get l r c ||| HILITE)
    (Or.inr (Or.inr (Or.inl (by rw [has_hilite_BOX]; exact h))))
  rw [hg]; rfl

/-! ## The two passes of `win` -/

theorem markedBy_refl (l : level) : MarkedBy l (fun _ _ => false) l := by
  refine ⟨rfl, rfl, rfl, rfl, rfl, rfl, rfl, ?_, ?_⟩
  · intro r c; cases peek l r c <;> simp
  · intro r c; simp

theorem markedBy_congr (l lk : level) (D1 D2 : Int → Int → Bool)
    (h : MarkedBy l D1 lk) (hD : ∀ r c, D1 r c = D2 r c) : MarkedBy l D2 lk := by
  have e : D1 = D2 := funext fun r => funext fun c => hD r c
  rw [← e]; exact h

theorem markedBy_has_BOX (l lk : level) (D : Int → Int → Bool) (h : MarkedBy l D lk)
    (r c : Int) : has (get lk r c) BOX = has (get l r c) BOX := by
  rw [h.2.2.2.2.2.2.2.2 r c]
  split
  · exact has_hilite_BOX _
  · rfl

theorem markedBy_step (l lk : level) (D : Int → Int → Bool) (h : MarkedBy l D lk)
    (i j : Nat) :
    ∃ lk', hiliteStep i (some lk) j = some lk' ∧
      MarkedBy l (fun r c => D r c || (decide (r = (i : Int)) && decide (c = (j : Int)))) lk' := by
  have hbox := markedBy_has_BOX l lk D h (i : Int) (j : Int)
  obtain ⟨f1, f2, f3, f4, f5, f6, f7, hp, hg⟩ := h
  unfold hiliteStep
  simp only [Option.some_bind]
  cases hb : has (get lk (i : Int) (j : Int)) BOX
  · refine ⟨lk, by simp, f1, f2, f3, f4, f5, f6, f7, ?_, ?_⟩
    · intro r c
      rw [hp r c]
      by_cases hrc : r = (i : Int) ∧ c = (j : Int)
      · obtain ⟨rfl, rfl⟩ := hrc
        rw [hb] at hbox
        simp [← hbox]
      · have : (decide (r = (i : Int)) && decide (c = (j : Int))) = false := by
          simpa using hrc
        simp [this]
    · intro r c
      rw [hg r c]
      by_cases hrc : r = (i : Int) ∧ c = (j : Int)
      · obtain ⟨rfl, rfl⟩ := hrc
        rw [hb] at hbox
        simp [← hbox]
      · have : (decide (r = (i : Int)) && decide (c = (j : Int))) = false := by
          simpa using hrc
        simp [this]
  · have hbl : has (get l (i : Int) (j : Int)) BOX = true := by rw [← hbox]; exact hb
    have hin := inMap_of_has_BOX lk _ _ hb
    have hinl := inMap_of_has_BOX l _ _ hbl
    have hval : get lk (i : Int) (j : Int) ||| HILITE = get l (i : Int) (j : Int) ||| HILITE := by
      rw [hg]
      split
      · exact hilite_idem _
      · rfl
    refine ⟨pokeF lk i j (get lk i j ||| HILITE), ?_, f1, f2, f3, f4, f5, f6, ?_, ?_, ?_⟩
    · simp only [if_true]; exact highlight_box lk _ _ hb
    · rw [pokeF_length]; exact f7
    · intro r c
      rw [peek_pokeF lk _ _ r c _ _ (peek_inMap lk _ _ hin), hval]
      by_cases hrc : r = (i : Int) ∧ c = (j : Int)
      · obtain ⟨rfl, rfl⟩ := hrc
        rw [peek_inMap l _ _ hinl]
        simp [hbl]
      · have : (decide (r = (i : Int)) && decide (c = (j : Int))) = false := by
          simpa using hrc
        rw [if_neg hrc, hp r c]
        simp [this]
    · intro r c
      rw [get_pokeF lk _ _ r c _ hin (hilite_ne_zero _), hval]
      by_cases hrc : r = (i : Int) ∧ c = (j : Int)
      · obtain ⟨rfl, rfl⟩ := hrc
        simp [hbl]
      · have : (decide (r = (i : Int)) && decide (c = (j : Int))) = false := by
          simpa using hrc
        rw [if_neg hrc, hg r c]
        simp [this]

theorem markedBy_row (l : level) (i : Nat) (w : Nat) :
    ∀ (lk : level) (D : Int → Int → Bool), MarkedBy l D lk →
    ∃ lk', hiliteRow w (some lk) i = some lk' ∧
      MarkedBy l (fun r c => D r c ||
        (decide (r = (i : Int)) && decide (0 ≤ c) && decide (c < (w : Int)))) lk' := by
  unfold hiliteRow
  induction w with
  | zero =>
    intro lk D h
    refine ⟨lk, by simp, markedBy_congr l lk D _ h ?_⟩
    intro r c
    by_cases h0 : 0 ≤ c <;> simp [h0]
  | succ n ih =>
    intro lk D h
    obtain ⟨lk1, e1, m1⟩ := ih lk D h
    obtain ⟨lk2, e2, m2⟩ := markedBy_step l lk1 _ m1 i n
    refine ⟨lk2, ?_, markedBy_congr l lk2 _ _ m2 ?_⟩
    · rw [List.range_succ, List.foldl_append, e1]
      simpa using e2
    · intro r c
      by_cases hr : r = (i : Int) <;> by_cases h0 : 0 ≤ c <;> by_cases hn : c < (n : Int) <;>
        by_cases hn1 : c = (n : Int) <;> simp [hr, h0, hn, hn1] <;> omega

theorem markedBy_all (l : level) (w : Nat) (h : Nat) :
    ∃ lk, hiliteBoxes l h w = some lk ∧
      MarkedBy l (fun r c => decide (0 ≤ r) && decide (r < (h : Int)) && decide (0 ≤ c) &&
        decide (c < (w : Int))) lk := by
  unfold hiliteBoxes
  induction h with
  | zero =>
    refine ⟨l, by simp, markedBy_congr l l _ _ (markedBy_refl l) ?_⟩
    intro r c
    by_cases h0 : 0 ≤ r <;> simp [h0]
  | succ n ih =>
    obtain ⟨lk1, e1, m1⟩ := ih
    obtain ⟨lk2, e2, m2⟩ := markedBy_row l n w lk1 _ m1
    refine ⟨lk2, ?_, markedBy_congr l lk2 _ _ m2 ?_⟩
    · rw [List.range_succ, List.foldl_append, e1]
      simpa using e2
    · intro r c
      by_cases hr : r = (n : Int) <;> by_cases h0 : 0 ≤ r <;> by_cases hn : r < (n : Int) <;>
        by_cases hc0 : 0 ≤ c <;> by_cases hcw : c < (w : Int) <;>
        simp [hr, h0, hn, hc0, hcw] <;> omega

theorem anyUnstored_iff (l : level) :
    anyUnstored l l.rows.toNat l.cols.toNat = false ↔ AllStored l := by
  unfold anyUnstored AllStored unstored
  rw [Bool.eq_false_iff]
  simp only [ne_eq, List.any_eq_true, List.mem_range, not_exists, not_and, Bool.and_eq_true,
    Bool.not_eq_true', Bool.not_eq_true]
  constructor
  · intro h r c hr0 hr hc0 hc
    obtain ⟨i, rfl⟩ := Int.eq_ofNat_of_zero_le hr0
    obtain ⟨j, rfl⟩ := Int.eq_ofNat_of_zero_le hc0
    intro hb
    have := h i (by omega) j (by omega) hb
    simp [this]
  · intro h i hi j hj hb
    have := h (i : Int) (j : Int) (by omega) (by omega) (by omega) (by omega)
    simp only [hb, true_and] at this
    simpa using this

theorem win_unfold (l : level) :
    win l = if anyUnstored l l.rows.toNat l.cols.toNat then some (l, 0)
      else (hiliteBoxes l l.rows.toNat l.cols.toNat).bind fun l1 => some (l1, 1) := rfl

/-- C6: for every board, `win` returns 1 if and only if no scanned cell
(`0 ≤ r < rows`, `0 ≤ c < cols`) has `BOX` set without `STORE` set, and it returns
0 if and only if some scanned cell has; in particular it always returns, and on
a board without boxes it returns 1. -/
theorem C6_win_iff_all_boxes_stored (l : level) :
    ((∃ l', win l = some (l', 1)) ↔ AllStored l) ∧
      ((∃ l', win l = some (l', 0)) ↔ ¬ AllStored l) := by
  rw [win_unfold]
  cases h : anyUnstored l l.rows.toNat l.cols.toNat
  · have hall : AllStored l := (anyUnstored_iff l).1 h
    obtain ⟨lk, e, _⟩ := markedBy_all l l.cols.toNat l.rows.toNat
    simp [hall, e]
  · have hall : ¬ AllStored l := by
      intro hcon
      rw [(anyUnstored_iff l).2 hcon] at h
      exact Bool.noConfusion h
    simp [hall]

/-- C7: for every board, either some scanned box is unstored and `win` returns 0
leaving the board completely unchanged, or all are stored and `win` returns 1
with a board that differs from the original exactly by `HILITE` or-ed into the
scanned cells that carry `BOX`: every other stored byte, the line count and all
other fields are unchanged, and so is what `get` reads elsewhere. -/
theorem C7_win_frame (l : level) :
    (¬ AllStored l ∧ win l = some (l, 0)) ∨
    (AllStored l ∧ ∃ l', win l = some (l', 1) ∧
      l'.levelNumber = l.levelNumber ∧ l'.cols = l.cols ∧ l'.top = l.top ∧
      l'.left = l.left ∧ l'.worker = l.worker ∧ l'.startTime = l.startTime ∧
      l'.pic.length = l.pic.length ∧
      (∀ r c : Int, peek l' r c =
        (peek l r c).map fun ch => if scannedBox l r c then ch ||| HILITE else ch) ∧
      (∀ r c : Int, get l' r c =
        if scannedBox l r c then get l r c ||| HILITE else get l r c)) := by
  rw [win_unfold]
  cases h : anyUnstored l l.rows.toNat l.cols.toNat
  · right
    have hall : AllStored l := (anyUnstored_iff l).1 h
    obtain ⟨lk, e, m⟩ := markedBy_all l l.cols.toNat l.rows.toNat
    have hD : ∀ r c : Int,
        ((decide (0 ≤ r) && decide (r < (l.rows.toNat : Int)) && decide (0 ≤ c) &&
          decide (c < (l.cols.toNat : Int))) && has (get l r c) BOX) = scannedBox l r c := by
      intro r c
      unfold scannedBox
      have hrows : (l.rows.toNat : Int) = l.rows := by simp [level.rows]
      rw [hrows]
      by_cases hc0 : 0 ≤ c
      · have e1 : decide (c < (l.cols.toNat : Int)) = decide (c < l.cols) := by
          apply decide_eq_decide.2; omega
        rw [e1]
      · simp [hc0]
    obtain ⟨f1, f2, f3, f4, f5, f6, f7, hp, hg⟩ := m
    refine ⟨hall, lk, by simp [e], f1, f2, f3, f4, f5, f6, f7, ?_, ?_⟩
    · intro r c; rw [hp r c]; simp only [hD]
    · intro r c; rw [hg r c]; simp only [hD]
  · left
    have hall : ¬ AllStored l := by
      intro hcon
      rw [(anyUnstored_iff l).2 hcon] at h
      exact Bool.noConfusion h
    exact ⟨hall, by simp⟩

/-! ## Cell-level facts about `vacated` and `entered` -/

theorem cellOK_ne_zero (ch : Nat) (h : cellOK ch = true) : ch ≠ 0 := by
  intro h0; subst h0; revert h; decide

theorem cellOK_worker (ch : Nat) (h : cellOK ch = true) (hw : has ch WORKER = true) :
    has ch WALL = false ∧ has ch BOX = false ∧ has ch SPACE = false := by
  unfold cellOK at h
  cases hwall : has ch WALL
  · rw [hwall] at h
    cases hb : has ch BOX <;> cases hs : has ch SPACE <;> simp_all
  · rw [hwall] at h
    simp only [if_true, beq_iff_eq] at h
    rw [h] at hw; exact absurd hw (by decide)

theorem cellOK_box (ch : Nat) (h : cellOK ch = true) (hb : has ch BOX = true) :
    has ch WALL = false ∧ has ch WORKER = false ∧ has ch SPACE = false := by
  unfold cellOK at h
  cases hwall : has ch WALL
  · rw [hwall] at h
    cases hw : has ch WORKER <;> cases hs : has ch SPACE <;> simp_all
  · rw [hwall] at h
    simp only [if_true, beq_iff_eq] at h
    rw [h] at hb; exact absurd hb (by decide)

theorem cellOK_space (ch : Nat) (h : cellOK ch = true) (hs : has ch SPACE = true) :
    has ch WALL = false ∧ has ch WORKER = false ∧ has ch BOX = false := by
  unfold cellOK at h
  cases hwall : has ch WALL
  · rw [hwall] at h
    cases hw : has ch WORKER <;> cases hb : has ch BOX <;> simp_all
  · rw [hwall] at h
    simp only [if_true, beq_iff_eq] at h
    rw [h] at hs; exact absurd hs (by decide)

theorem has_vacated (ch0 : Nat) :
    has (vacated ch0) WALL = has ch0 WALL ∧ has (vacated ch0) BOX = false ∧
    has (vacated ch0) STORE = has ch0 STORE ∧ has (vacated ch0) WORKER = false ∧
    has (vacated ch0) SPACE = true ∧ has (vacated ch0) HILITE = has ch0 HILITE := by
  simp only [has_WALL, has_BOX, has_STORE, has_WORKER, has_SPACE, has_HILITE, tb_vacated]
  simp

theorem has_entered (ch0 ch1 : Nat) :
    has (entered ch0 ch1) WALL = has ch1 WALL ∧ has (entered ch0 ch1) BOX = has ch0 BOX ∧
    has (entered ch0 ch1) STORE = has ch1 STORE ∧
    has (entered ch0 ch1) WORKER = has ch0 WORKER ∧
    has (entered ch0 ch1) SPACE = false ∧ has (entered ch0 ch1) HILITE = has ch1 HILITE := by
  simp only [has_WALL, has_BOX, has_STORE, has_WORKER, has_SPACE, has_HILITE, tb_entered]
  simp

theorem cellOK_vacated (ch0 : Nat) (h : has ch0 WALL = false) : cellOK (vacated ch0) = true := by
  obtain ⟨h1, h2, _, h4, h5, _⟩ := has_vacated ch0
  unfold cellOK
  rw [h1, h, h2, h4, h5]; rfl

theorem cellOK_entered (ch0 ch1 : Nat) (h : has ch1 WALL = false)
    (hocc : (has ch0 BOX = true ∧ has ch0 WORKER = false) ∨
      (has ch0 BOX = false ∧ has ch0 WORKER = true)) : cellOK (entered ch0 ch1) = true := by
  obtain ⟨h1, h2, _, h4, h5, _⟩ := has_entered ch0 ch1
  unfold cellOK
  rw [h1, h, h2, h4, h5]
  rcases hocc with ⟨a, b⟩ | ⟨a, b⟩ <;> rw [a, b] <;> rfl

/-- Moving a piece back restores the byte of the cell it left, whatever it
crossed, when that cell carried no `SPACE`. -/
theorem entered_back (a x : Nat) (h : has a SPACE = false) :
    entered (entered a x) (vacated a) = a := by
  rw [has_SPACE] at h
  apply Nat.eq_of_testBit_eq
  intro i
  rw [tb_entered, tb_entered, tb_vacated]
  by_cases h4 : i = 4
  · subst h4; simp [h]
  by_cases h1 : i = 1
  · subst h1; simp
  by_cases h3 : i = 3
  · subst h3; simp
  simp [h4, h1, h3]

/-- Leaving a cell again restores its byte when it was plain floor (`SPACE`
without `BOX` or `WORKER`) before the piece entered. -/
theorem vacated_entered (a b : Nat) (h1 : has b SPACE = true) (h2 : has b BOX = false)
    (h3 : has b WORKER = false) : vacated (entered a b) = b := by
  rw [has_SPACE] at h1; rw [has_BOX] at h2; rw [has_WORKER] at h3
  apply Nat.eq_of_testBit_eq
  intro i
  rw [tb_vacated, tb_entered]
  by_cases h4 : i = 4
  · subst h4; simp [h1]
  by_cases h1' : i = 1
  · subst h1'; simp [h2]
  by_cases h3' : i = 3
  · subst h3'; simp [h3]
  simp [h4, h1', h3']

/-- Pulling a box back into the cell the worker has just left again restores the
byte the box cell had before the push. -/
theorem entered_pull (a b x : Nat) (h : has b SPACE = false) :
    entered (entered b x) (vacated (entered a (vacated b))) = b := by
  rw [has_SPACE] at h
  apply Nat.eq_of_testBit_eq
  intro i
  rw [tb_entered, tb_entered, tb_vacated, tb_entered, tb_vacated]
  by_cases h4 : i = 4
  · subst h4; simp [h]
  by_cases h1 : i = 1
  · subst h1; simp
  by_cases h3 : i = 3
  · subst h3; simp
  simp [h4, h1, h3]

theorem glyph_vacated (ch0 : Nat) : ∃ g, selectGlyph (vacated ch0) = some g :=
  selectGlyph_isSome _ (Or.inr (Or.inr (Or.inr (Or.inr (has_vacated ch0).2.2.2.2.1))))

theorem glyph_entered (ch0 ch1 : Nat) (h : has ch0 BOX = true ∨ has ch0 WORKER = true) :
    ∃ g, selectGlyph (entered ch0 ch1) = some g := by
  obtain ⟨_, h2, _, h4, _, _⟩ := has_entered ch0 ch1
  rcases h with h | h
  · exact selectGlyph_isSome _ (Or.inr (Or.inr (Or.inl (by rw [h2]; exact h))))
  · exact selectGlyph_isSome _ (Or.inr (Or.inl (by rw [h4]; exact h)))

/-! ## Boards whose cells satisfy the invariants -/

theorem strlen_eq_length (cells : List Nat) (h : ∀ x ∈ cells, x ≠ 0) :
    strlen cells = cells.length := by
  induction cells with
  | nil => rfl
  | cons ch rest ih =>
    have h0 : ch ≠ 0 := h ch (List.mem_cons_self _ _)
    have hrest : ∀ x ∈ rest, x ≠ 0 := fun x hx => h x (List.mem_cons_of_mem _ hx)
    simp [strlen, h0, ih hrest]

theorem get_of_peek (l : level) (r c : Int) (ch : Nat) (hin : InMap l r c)
    (h : peek l r c = some ch) : get l r c = ch := by
  rw [peek_inMap l r c hin] at h
  exact Option.some.inj h

theorem cellOK_of_peek (l : level) (hok : CellsOK l) (r c : Int) (ch : Nat) (hin : InMap l r c)
    (h : peek l r c = some ch) : cellOK ch = true := by
  rw [← get_of_peek l r c ch hin h]
  exact hok r c hin

/-! ## `retrack`, `moved` and `movePiece` -/

theorem peek_retrack (l : level) (r0 c0 r1 c1 r c : Int) :
    peek (retrack l r0 c0 r1 c1) r c = peek l r c := by
  unfold retrack; split <;> rfl

theorem pic_retrack (l : level) (r0 c0 r1 c1 : Int) :
    (retrack l r0 c0 r1 c1).pic = l.pic := by
  unfold retrack; split <;> rfl

theorem peek_moved (l : level) (r0 c0 r1 c1 r c : Int) (ch0 ch1 : Nat)
    (h0 : peek l r0 c0 = some ch0) (h1 : peek l r1 c1 = some ch1) :
    peek (moved l r0 c0 r1 c1 ch0 ch1) r c =
      if r = r1 ∧ c = c1 then some (entered ch0 ch1)
      else if r = r0 ∧ c = c0 then some (vacated ch0) else peek l r c := by
  unfold moved
  have h0' : peek (retrack l r0 c0 r1 c1) r0 c0 = some ch0 := by rw [peek_retrack]; exact h0
  have h1' : ∃ x, peek (pokeF (retrack l r0 c0 r1 c1) r0 c0 (vacated ch0)) r1 c1 = some x := by
    rw [peek_pokeF _ _ _ _ _ _ _ h0', peek_retrack, h1]
    split
    · exact ⟨_, rfl⟩
    · exact ⟨_, rfl⟩
  obtain ⟨x, hx⟩ := h1'
  rw [peek_pokeF _ _ _ _ _ _ _ hx, peek_pokeF _ _ _ _ _ _ _ h0', peek_retrack]

theorem moved_worker (l : level) (r0 c0 r1 c1 : Int) (ch0 ch1 : Nat) :
    (moved l r0 c0 r1 c1 ch0 ch1).worker =
      if r0 = (p2rc l.worker).1 ∧ c0 = (p2rc l.worker).2 then rc2p r1 c1 else l.worker := by
  unfold moved pokeF retrack
  split <;> rfl

theorem moved_fields (l : level) (r0 c0 r1 c1 : Int) (ch0 ch1 : Nat) :
    (moved l r0 c0 r1 c1 ch0 ch1).levelNumber = l.levelNumber ∧
    (moved l r0 c0 r1 c1 ch0 ch1).cols = l.cols ∧
    (moved l r0 c0 r1 c1 ch0 ch1).top = l.top ∧
    (moved l r0 c0 r1 c1 ch0 ch1).left = l.left ∧
    (moved l r0 c0 r1 c1 ch0 ch1).startTime = l.startTime ∧
    (moved l r0 c0 r1 c1 ch0 ch1).pic.length = l.pic.length := by
  unfold moved pokeF retrack
  split <;> simp

theorem movePiece_inv (l l' : level) (r0 c0 r1 c1 : Int)
    (h : movePiece l r0 c0 r1 c1 = some l') :
    ∃ ch0 ch1, peek l r0 c0 = some ch0 ∧ peek l r1 c1 = some ch1 ∧
      l' = moved l r0 c0 r1 c1 ch0 ch1 := by
  unfold movePiece at h
  simp only [peek_retrack] at h
  cases h0 : peek l r0 c0 with
  | none => rw [h0] at h; simp at h
  | some ch0 =>
    cases h1 : peek l r1 c1 with
    | none => rw [h0, h1] at h; simp at h
    | some ch1 =>
      rw [h0, h1] at h
      simp only [Option.some_bind] at h
      refine ⟨ch0, ch1, rfl, rfl, ?_⟩
      have h0' : peek (retrack l r0 c0 r1 c1) r0 c0 = some ch0 := by
        rw [peek_retrack]; exact h0
      simp only [poke, h0', Option.some_bind] at h
      cases hx : peek (pokeF (retrack l r0 c0 r1 c1) r0 c0 (vacated ch0)) r1 c1 with
      | none => rw [hx] at h; simp at h
      | some x =>
        rw [hx] at h
        simp only [Option.some_bind] at h
        cases hu0 : update (pokeF (pokeF (retrack l r0 c0 r1 c1) r0 c0 (vacated ch0)) r1 c1
            (entered ch0 ch1)) r0 c0 with
        | none => rw [hu0] at h; simp at h
        | some g0 =>
          rw [hu0] at h
          simp only [Option.some_bind] at h
          cases hu1 : update (pokeF (pokeF (retrack l r0 c0 r1 c1) r0 c0 (vacated ch0)) r1 c1
              (entered ch0 ch1)) r1 c1 with
          | none => rw [hu1] at h; simp at h
          | some g1 =>
            rw [hu1] at h
            simp only [Option.some_bind, Option.some.injEq] at h
            rw [← h]; rfl

theorem movePiece_distinct (l : level) (r0 c0 r1 c1 : Int) (ch0 ch1 : Nat)
    (h0 : peek l r0 c0 = some ch0) (h1 : peek l r1 c1 = some ch1)
    (hne : ¬ (r0 = r1 ∧ c0 = c1)) (hg : ∃ g, selectGlyph (entered ch0 ch1) = some g) :
    movePiece l r0 c0 r1 c1 = some (moved l r0 c0 r1 c1 ch0 ch1) := by
  have hm := peek_moved l r0 c0 r1 c1
  unfold movePiece
  simp only [peek_retrack, h0, h1, Option.some_bind]
  have h0' : peek (retrack l r0 c0 r1 c1) r0 c0 = some ch0 := by
    rw [peek_retrack]; exact h0
  have hx : peek (pokeF (retrack l r0 c0 r1 c1) r0 c0 (vacated ch0)) r1 c1 = some ch1 := by
    rw [peek_pokeF _ _ _ _ _ _ _ h0', peek_retrack, h1]
    have hne' : ¬ (r1 = r0 ∧ c1 = c0) := fun e => hne ⟨e.1.symm, e.2.symm⟩
    rw [if_neg hne']
  simp only [poke, h0', hx, Option.some_bind]
  have e0 := hm r0 c0 ch0 ch1 h0 h1
  have e1 := hm r1 c1 ch0 ch1 h0 h1
  rw [if_neg hne] at e0
  simp only [and_self, if_true] at e0 e1
  unfold moved at e0 e1
  unfold update
  rw [e0, e1]
  obtain ⟨g, hg⟩ := hg
  obtain ⟨g0, hg0⟩ := glyph_vacated ch0
  simp only [Option.some_bind, hg, hg0]
  rfl

/-! ## Cells of the map after `movePiece` -/

theorem has_ne_zero (ch flag : Nat) (h : has ch flag = true) : ch ≠ 0 := by
  intro h0
  subst h0
  simp [has] at h

theorem vacated_ne_zero (ch0 : Nat) : vacated ch0 ≠ 0 :=
  has_ne_zero _ SPACE (has_vacated ch0).2.2.2.2.1

theorem entered_ne_zero (ch0 ch1 : Nat) (h : has ch0 BOX = true ∨ has ch0 WORKER = true) :
    entered ch0 ch1 ≠ 0 := by
  rcases h with h | h
  · exact has_ne_zero _ BOX (by rw [(has_entered ch0 ch1).2.1]; exact h)
  · exact has_ne_zero _ WORKER (by rw [(has_entered ch0 ch1).2.2.2.1]; exact h)

theorem inMap_pokeF (l : level) (r c r' c' : Int) (v : Nat) (h : InMap l r c) (hv : v ≠ 0) :
    InMap (pokeF l r c v) r' c' ↔ InMap l r' c' := by
  obtain ⟨i, rfl⟩ := Int.eq_ofNat_of_zero_le h.1
  obtain ⟨j, rfl⟩ := Int.eq_ofNat_of_zero_le h.2.1
  have hj := (inMap_nat l i j).1 h
  by_cases hneg : r' < 0 ∨ c' < 0
  · constructor
    · intro h'; have := h'.1; have := h'.2.1; omega
    · intro h'; have := h'.1; have := h'.2.1; omega
  · obtain ⟨i', rfl⟩ := Int.eq_ofNat_of_zero_le (show 0 ≤ r' by omega)
    obtain ⟨j', rfl⟩ := Int.eq_ofNat_of_zero_le (show 0 ≤ c' by omega)
    rw [inMap_nat, inMap_nat]
    simp only [pokeF, Int.toNat_natCast]
    have hi : i < l.pic.length := by
      by_contra hcon
      have h3 : l.pic.getD i [] = [] := by
        rw [List.getD_eq_getElem?_getD, List.getElem?_eq_none (by omega)]; rfl
      rw [h3] at hj; simp [strlen] at hj
    by_cases hii : i' = i
    · subst hii
      have hrow : (l.pic.set i' ((l.pic.getD i' []).set j v)).getD i' [] =
          (l.pic.getD i' []).set j v := by
        rw [List.getD_eq_getElem?_getD, List.getElem?_set_self hi]; rfl
      rw [hrow, strlen_set _ _ _ hj hv]
    · have hrow : (l.pic.set i ((l.pic.getD i []).set j v)).getD i' [] = l.pic.getD i' [] := by
        rw [List.getD_eq_getElem?_getD, List.getElem?_set_ne (fun e => hii e.symm),
          ← List.getD_eq_getElem?_getD]
      rw [hrow]

theorem get_retrack (l : level) (r0 c0 r1 c1 r c : Int) :
    get (retrack l r0 c0 r1 c1) r c = get l r c := by
  unfold retrack; split <;> rfl

theorem inMap_retrack (l : level) (r0 c0 r1 c1 r c : Int) :
    InMap (retrack l r0 c0 r1 c1) r c ↔ InMap l r c := by
  unfold retrack; split <;> exact Iff.rfl

theorem get_moved (l : level) (r0 c0 r1 c1 : Int) (ch0 ch1 : Nat) (h0 : InMap l r0 c0)
    (h1 : InMap l r1 c1) (he : entered ch0 ch1 ≠ 0) (r c : Int) :
    get (moved l r0 c0 r1 c1 ch0 ch1) r c =
      if r = r1 ∧ c = c1 then entered ch0 ch1
      else if r = r0 ∧ c = c0 then vacated ch0 else get l r c := by
  unfold moved
  have h0' := (inMap_retrack l r0 c0 r1 c1 r0 c0).2 h0
  have h1' := (inMap_pokeF _ r0 c0 r1 c1 (vacated ch0) h0' (vacated_ne_zero ch0)).2
    ((inMap_retrack l r0 c0 r1 c1 r1 c1).2 h1)
  rw [get_pokeF _ _ _ _ _ _ h1' he, get_pokeF _ _ _ _ _ _ h0' (vacated_ne_zero ch0), get_retrack]

theorem inMap_moved (l : level) (r0 c0 r1 c1 : Int) (ch0 ch1 : Nat) (h0 : InMap l r0 c0)
    (h1 : InMap l r1 c1) (he : entered ch0 ch1 ≠ 0) (r c : Int) :
    InMap (moved l r0 c0 r1 c1 ch0 ch1) r c ↔ InMap l r c := by
  unfold moved
  have h0' := (inMap_retrack l r0 c0 r1 c1 r0 c0).2 h0
  have h1' := (inMap_pokeF _ r0 c0 r1 c1 (vacated ch0) h0' (vacated_ne_zero ch0)).2
    ((inMap_retrack l r0 c0 r1 c1 r1 c1).2 h1)
  rw [inMap_pokeF _ _ _ _ _ _ h1' he, inMap_pokeF _ _ _ _ _ _ h0' (vacated_ne_zero ch0),
    inMap_retrack]

theorem inMap_of_has_WORKER (l : level) (r c : Int) (h : has (get l r c) WORKER = true) :
    InMap l r c := by
  by_contra hcon
  rw [get_outside l r c hcon] at h
  exact absurd h (by decide)

/-! ## The undo stack -/

theorem reallocInts_length (xs : List Int) (n : Int) :
    (reallocInts xs n).length = n.toNat := by
  unfold reallocInts
  simp only [List.length_append, List.length_take, List.length_replicate]
  omega

theorem reallocInts_getElem? (xs : List Int) (n : Int) (i : Nat) (hi : i < xs.length)
    (hn : i < n.toNat) : (reallocInts xs n)[i]? = xs[i]? := by
  unfold reallocInts
  rw [List.getElem?_append_left (by simp only [List.length_take]; omega), List.getElem?_take,
    if_pos hn]

theorem pushMove_inv (s s' : session) (m : Int) (h : pushMove s m = some s') :
    s'.l = s.l ∧ s'.UndoTop = s.UndoTop + 1 ∧ s'.MoveCount = s.MoveCount ∧
    0 ≤ s'.UndoTop ∧ s'.UndoStack[s'.UndoTop.toNat]? = some m ∧
    (∀ i : Nat, (i : Int) ≤ s.UndoTop → i < s.UndoStack.length →
      s'.UndoStack[i]? = s.UndoStack[i]?) := by
  unfold pushMove at h
  simp only at h
  by_cases hgrow : s.UndoTop + 1 ≥ s.MaxUndo
  · simp only [hgrow, if_true] at h
    by_cases hbad : s.UndoTop + 1 < 0 ∨
        s.UndoTop + 1 ≥ ((reallocInts s.UndoStack (s.MaxUndo * 2)).length : Int)
    · simp [hbad] at h
    · simp only [hbad, if_false, Option.some.injEq] at h
      subst h
      rw [reallocInts_length] at hbad
      refine ⟨rfl, rfl, rfl, by simp only; omega, ?_, ?_⟩
      · simp only
        rw [List.getElem?_set_self (by rw [reallocInts_length]; omega)]
      · intro i hi hlen
        simp only
        rw [List.getElem?_set_ne (by omega), reallocInts_getElem? _ _ _ hlen (by omega)]
  · simp only [hgrow, if_false] at h
    by_cases hbad : s.UndoTop + 1 < 0 ∨ s.UndoTop + 1 ≥ (s.UndoStack.length : Int)
    · simp [hbad] at h
    · simp only [hbad, if_false, Option.some.injEq] at h
      subst h
      refine ⟨rfl, rfl, rfl, by simp only; omega, ?_, ?_⟩
      · simp only
        rw [List.getElem?_set_self (by omega)]
      · intro i hi hlen
        simp only
        rw [List.getElem?_set_ne (by omega)]

theorem pushMove_ok (s : session) (m : Int) (h : StackOK s) :
    ∃ s', pushMove s m = some s' ∧ StackOK s' := by
  obtain ⟨hlen, hpos, hlo, hhi⟩ := h
  unfold pushMove
  simp only
  by_cases hgrow : s.UndoTop + 1 ≥ s.MaxUndo
  · simp only [hgrow, if_true]
    have hbad : ¬ (s.UndoTop + 1 < 0 ∨
        s.UndoTop + 1 ≥ ((reallocInts s.UndoStack (s.MaxUndo * 2)).length : Int)) := by
      rw [reallocInts_length]; omega
    simp only [hbad, if_false]
    refine ⟨_, rfl, ?_⟩
    unfold StackOK
    simp only [List.length_set, reallocInts_length]
    omega
  · simp only [hgrow, if_false]
    have hbad : ¬ (s.UndoTop + 1 < 0 ∨ s.UndoTop + 1 ≥ (s.UndoStack.length : Int)) := by
      omega
    simp only [hbad, if_false]
    refine ⟨_, rfl, ?_⟩
    unfold StackOK
    simp only [List.length_set]
    omega

/-! ## The three outcomes of `go` -/

theorem delta_cases (d : Int) :
    (deltaRow d = -1 ∧ deltaCol d = 0) ∨ (deltaRow d = 0 ∧ deltaCol d = 1) ∨
    (deltaRow d = 1 ∧ deltaCol d = 0) ∨ (deltaRow d = 0 ∧ deltaCol d = -1) ∨
    (deltaRow d = 0 ∧ deltaCol d = 0) := by
  unfold deltaRow deltaCol NORTH EAST SOUTH WEST
  split_ifs <;> omega

theorem delta_valid (d : Int) (h : d = NORTH ∨ d = EAST ∨ d = SOUTH ∨ d = WEST) :
    ¬ (deltaRow d = 0 ∧ deltaCol d = 0) := by
  rcases h with h | h | h | h <;> subst h <;> decide

/-- Outcome of `go` read off its code: blocked, slide or push. -/
theorem go_inv (s s' : session) (d m : Int) (h : go s d = some (s', m)) :
    (m = 0 ∧ s' = s ∧
      has (get s.l ((p2rc s.l.worker).1 + deltaRow d) ((p2rc s.l.worker).2 + deltaCol d))
        SPACE = false ∧
      (has (get s.l ((p2rc s.l.worker).1 + deltaRow d) ((p2rc s.l.worker).2 + deltaCol d))
          BOX = false ∨
        has (get s.l ((p2rc s.l.worker).1 + deltaRow d + deltaRow d)
          ((p2rc s.l.worker).2 + deltaCol d + deltaCol d)) SPACE = false)) ∨
    (m = 1 ∧
      has (get s.l ((p2rc s.l.worker).1 + deltaRow d) ((p2rc s.l.worker).2 + deltaCol d))
        SPACE = true ∧
      ∃ l1 s1, movePiece s.l (p2rc s.l.worker).1 (p2rc s.l.worker).2
          ((p2rc s.l.worker).1 + deltaRow d) ((p2rc s.l.worker).2 + deltaCol d) = some l1 ∧
        pushMove { s with l := l1 } (rc2p (p2rc s.l.worker).1 (p2rc s.l.worker).2) = some s1 ∧
        s' = { s1 with MoveCount := s1.MoveCount + 1 }) ∨
    (m = 1 ∧
      has (get s.l ((p2rc s.l.worker).1 + deltaRow d) ((p2rc s.l.worker).2 + deltaCol d))
        SPACE = false ∧
      has (get s.l ((p2rc s.l.worker).1 + deltaRow d) ((p2rc s.l.worker).2 + deltaCol d))
        BOX = true ∧
      has (get s.l ((p2rc s.l.worker).1 + deltaRow d + deltaRow d)
        ((p2rc s.l.worker).2 + deltaCol d + deltaCol d)) SPACE = true ∧
      ∃ l1 l2 s1, movePiece s.l ((p2rc s.l.worker).1 + deltaRow d)
          ((p2rc s.l.worker).2 + deltaCol d) ((p2rc s.l.worker).1 + deltaRow d + deltaRow d)
          ((p2rc s.l.worker).2 + deltaCol d + deltaCol d) = some l1 ∧
        movePiece l1 (p2rc s.l.worker).1 (p2rc s.l.worker).2
          ((p2rc s.l.worker).1 + deltaRow d) ((p2rc s.l.worker).2 + deltaCol d) = some l2 ∧
        pushMove { s with l := l2 }
          (Int.lor (rc2p (p2rc s.l.worker).1 (p2rc s.l.worker).2) PULL) = some s1 ∧
        s' = { s1 with MoveCount := s1.MoveCount + 1 }) := by
  unfold go at h
  simp only at h
  cases hsp : has (get s.l ((p2rc s.l.worker).1 + deltaRow d)
      ((p2rc s.l.worker).2 + deltaCol d)) SPACE
  · rw [hsp] at h
    simp only [Bool.false_eq_true, if_false] at h
    cases hbx : has (get s.l ((p2rc s.l.worker).1 + deltaRow d)
        ((p2rc s.l.worker).2 + deltaCol d)) BOX
    · rw [hbx] at h
      simp only [Bool.false_eq_true, if_false, Option.some.injEq, Prod.mk.injEq] at h
      exact Or.inl ⟨h.2.symm, h.1.symm, rfl, Or.inl rfl⟩
    · rw [hbx] at h
      simp only [if_true] at h
      cases hsp2 : has (get s.l ((p2rc s.l.worker).1 + deltaRow d + deltaRow d)
          ((p2rc s.l.worker).2 + deltaCol d + deltaCol d)) SPACE
      · rw [hsp2] at h
        simp only [Bool.false_eq_true, if_false, Option.some.injEq, Prod.mk.injEq] at h
        exact Or.inl ⟨h.2.symm, h.1.symm, rfl, Or.inr rfl⟩
      · rw [hsp2] at h
        simp only [if_true] at h
        right; right
        cases hm1 : movePiece s.l ((p2rc s.l.worker).1 + deltaRow d)
            ((p2rc s.l.worker).2 + deltaCol d) ((p2rc s.l.worker).1 + deltaRow d + deltaRow d)
            ((p2rc s.l.worker).2 + deltaCol d + deltaCol d) with
        | none => rw [hm1] at h; simp at h
        | some l1 =>
          rw [hm1] at h
          simp only [Option.some_bind] at h
          cases hm2 : movePiece l1 (p2rc s.l.worker).1 (p2rc s.l.worker).2
              ((p2rc s.l.worker).1 + deltaRow d) ((p2rc s.l.worker).2 + deltaCol d) with
          | none => rw [hm2] at h; simp at h
          | some l2 =>
            rw [hm2] at h
            simp only [Option.some_bind] at h
            cases hpm : pushMove { s with l := l2 }
                (Int.lor (rc2p (p2rc s.l.worker).1 (p2rc s.l.worker).2) PULL) with
            | none => rw [hpm] at h; simp at h
            | some s1 =>
              rw [hpm] at h
              simp only [Option.some_bind, Option.some.injEq, Prod.mk.injEq] at h
              exact ⟨h.2.symm, rfl, rfl, rfl, l1, l2, s1, (by first | exact hm1 | rfl), hm2, hpm, h.1.symm⟩
  · rw [hsp] at h
    simp only [if_true] at h
    right; left
    cases hm1 : movePiece s.l (p2rc s.l.worker).1 (p2rc s.l.worker).2
        ((p2rc s.l.worker).1 + deltaRow d) ((p2rc s.l.worker).2 + deltaCol d) with
    | none => rw [hm1] at h; simp at h
    | some l1 =>
      rw [hm1] at h
      simp only [Option.some_bind] at h
      cases hpm : pushMove { s with l := l1 }
          (rc2p (p2rc s.l.worker).1 (p2rc s.l.worker).2) with
      | none => rw [hpm] at h; simp at h
      | some s1 =>
        rw [hpm] at h
        simp only [Option.some_bind, Option.some.injEq, Prod.mk.injEq] at h
        exact ⟨h.2.symm, rfl, l1, s1, (by first | exact hm1 | rfl), hpm, h.1.symm⟩

theorem go_slide (s s1 : session) (d : Int) (l1 : level)
    (hsp : has (get s.l ((p2rc s.l.worker).1 + deltaRow d) ((p2rc s.l.worker).2 + deltaCol d))
      SPACE = true)
    (hm : movePiece s.l (p2rc s.l.worker).1 (p2rc s.l.worker).2
      ((p2rc s.l.worker).1 + deltaRow d) ((p2rc s.l.worker).2 + deltaCol d) = some l1)
    (hp : pushMove { s with l := l1 } (rc2p (p2rc s.l.worker).1 (p2rc s.l.worker).2) = some s1) :
    go s d = some ({ s1 with MoveCount := s1.MoveCount + 1 }, 1) := by
  unfold go
  simp only [hsp, if_true, hm, Option.some_bind, hp]

theorem go_push (s s1 : session) (d : Int) (l1 l2 : level)
    (hsp : has (get s.l ((p2rc s.l.worker).1 + deltaRow d) ((p2rc s.l.worker).2 + deltaCol d))
      SPACE = false)
    (hbx : has (get s.l ((p2rc s.l.worker).1 + deltaRow d) ((p2rc s.l.worker).2 + deltaCol d))
      BOX = true)
    (hsp2 : has (get s.l ((p2rc s.l.worker).1 + deltaRow d + deltaRow d)
      ((p2rc s.l.worker).2 + deltaCol d + deltaCol d)) SPACE = true)
    (hm1 : movePiece s.l ((p2rc s.l.worker).1 + deltaRow d)
      ((p2rc s.l.worker).2 + deltaCol d) ((p2rc s.l.worker).1 + deltaRow d + deltaRow d)
      ((p2rc s.l.worker).2 + deltaCol d + deltaCol d) = some l1)
    (hm2 : movePiece l1 (p2rc s.l.worker).1 (p2rc s.l.worker).2
      ((p2rc s.l.worker).1 + deltaRow d) ((p2rc s.l.worker).2 + deltaCol d) = some l2)
    (hp : pushMove { s with l := l2 }
      (Int.lor (rc2p (p2rc s.l.worker).1 (p2rc s.l.worker).2) PULL) = some s1) :
    go s d = some ({ s1 with MoveCount := s1.MoveCount + 1 }, 1) := by
  unfold go
  simp only [hsp, Bool.false_eq_true, if_false, hbx, if_true, hsp2, hm1, Option.some_bind,
    hm2, hp]

theorem go_blocked (s : session) (d : Int)
    (hsp : has (get s.l ((p2rc s.l.worker).1 + deltaRow d) ((p2rc s.l.worker).2 + deltaCol d))
      SPACE = false)
    (h : has (get s.l ((p2rc s.l.worker).1 + deltaRow d) ((p2rc s.l.worker).2 + deltaCol d))
        BOX = false ∨
      has (get s.l ((p2rc s.l.worker).1 + deltaRow d + deltaRow d)
        ((p2rc s.l.worker).2 + deltaCol d + deltaCol d)) SPACE = false) :
    go s d = some (s, 0) := by
  unfold go
  cases hbx : has (get s.l ((p2rc s.l.worker).1 + deltaRow d)
      ((p2rc s.l.worker).2 + deltaCol d)) BOX
  · simp [hsp, hbx]
  · rcases h with h | h
    · rw [hbx] at h; cases h
    · simp [hsp, hbx, h]

theorem undo_eq (t : session) (p : Int) (h0 : 0 ≤ t.UndoTop)
    (hp : t.UndoStack[t.UndoTop.toNat]? = some p) :
    undo t =
      (movePiece t.l (p2rc t.l.worker).1 (p2rc t.l.worker).2 (p2rc p).1 (p2rc p).2).bind
        fun l1 =>
      (if Int.land PULL p ≠ 0 then
          movePiece l1 ((p2rc t.l.worker).1 - ((p2rc p).1 - (p2rc t.l.worker).1))
            ((p2rc t.l.worker).2 - ((p2rc p).2 - (p2rc t.l.worker).2))
            (p2rc t.l.worker).1 (p2rc t.l.worker).2
        else some l1).bind fun l2 =>
      some ({ t with UndoTop := t.UndoTop - 1, l := l2, MoveCount := t.MoveCount - 1 }, 1) := by
  unfold undo
  have hneg : ¬ t.UndoTop < 0 := by omega
  simp only [hneg, if_false, hp, Option.some_bind]

/-! ## Bounds from the 64 × 64 limit -/

theorem inMap_lt64 (l : level) (h64 : Within64 l) (r c : Int) (h : InMap l r c) :
    0 ≤ r ∧ r < 64 ∧ 0 ≤ c ∧ c < 64 := by
  obtain ⟨i, rfl⟩ := Int.eq_ofNat_of_zero_le h.1
  obtain ⟨j, rfl⟩ := Int.eq_ofNat_of_zero_le h.2.1
  have hj := (inMap_nat l i j).1 h
  have hi : i < l.pic.length := by
    have := h.2.2.1
    unfold level.rows at this
    omega
  have hD : l.pic.getD i [] = l.pic[i] := by
    rw [List.getD_eq_getElem?_getD, List.getElem?_eq_getElem hi]; rfl
  rw [hD] at hj
  have h1 := h64.1
  have h2 := h64.2 _ (List.getElem_mem hi)
  omega

theorem within64_of_inMap (l : level) (hrows : l.pic.length ≤ 64)
    (h : ∀ r c : Int, InMap l r c → c < 64) : Within64 l := by
  refine ⟨hrows, ?_⟩
  intro line hline
  obtain ⟨i, hi, e⟩ := List.getElem_of_mem hline
  have hD : l.pic.getD i [] = line := by
    rw [List.getD_eq_getElem?_getD, List.getElem?_eq_getElem hi, e]; rfl
  by_contra hcon
  have hin : InMap l (i : Int) (64 : Nat) := by
    rw [inMap_nat, hD]; omega
  have := h _ _ hin
  omega

theorem within64_moved (l : level) (h64 : Within64 l) (r0 c0 r1 c1 : Int) (ch0 ch1 : Nat)
    (h0 : InMap l r0 c0) (h1 : InMap l r1 c1) (he : entered ch0 ch1 ≠ 0) :
    Within64 (moved l r0 c0 r1 c1 ch0 ch1) := by
  apply within64_of_inMap
  · rw [(moved_fields l r0 c0 r1 c1 ch0 ch1).2.2.2.2.2]; exact h64.1
  · intro r c hin
    rw [inMap_moved l r0 c0 r1 c1 ch0 ch1 h0 h1 he] at hin
    exact (inMap_lt64 l h64 r c hin).2.2.2

theorem cellsOK_moved (l : level) (hok : CellsOK l) (r0 c0 r1 c1 : Int) (ch0 ch1 : Nat)
    (h0 : InMap l r0 c0) (h1 : InMap l r1 c1)
    (hw0 : has ch0 WALL = false)
    (hocc : (has ch0 BOX = true ∧ has ch0 WORKER = false) ∨
      (has ch0 BOX = false ∧ has ch0 WORKER = true))
    (hw1 : has ch1 WALL = false) : CellsOK (moved l r0 c0 r1 c1 ch0 ch1) := by
  have he : entered ch0 ch1 ≠ 0 := by
    rcases hocc with h | h
    · exact entered_ne_zero ch0 ch1 (Or.inl h.1)
    · exact entered_ne_zero ch0 ch1 (Or.inr h.2)
  intro r c hin
  rw [inMap_moved l r0 c0 r1 c1 ch0 ch1 h0 h1 he] at hin
  rw [get_moved l r0 c0 r1 c1 ch0 ch1 h0 h1 he]
  split
  · exact cellOK_entered ch0 ch1 hw1 hocc
  · split
    · exact cellOK_vacated ch0 hw0
    · exact hok r c hin
/-! ## Checking the predicates on concrete boards -/

theorem cellsOK_of_all (l : level)
    (h : (l.pic.all fun cells => (cstring cells).all cellOK) = true) : CellsOK l := by
  intro r c hin
  obtain ⟨i, rfl⟩ := Int.eq_ofNat_of_zero_le hin.1
  obtain ⟨j, rfl⟩ := Int.eq_ofNat_of_zero_le hin.2.1
  have hj := (inMap_nat l i j).1 hin
  have hi : i < l.pic.length := by
    have := hin.2.2.1
    unfold level.rows at this
    omega
  have hD : l.pic.getD i [] = l.pic[i] := by
    rw [List.getD_eq_getElem?_getD, List.getElem?_eq_getElem hi]; rfl
  rw [get_nat, if_neg (by omega), hD]
  rw [hD] at hj
  have hlen := strlen_le_length l.pic[i]
  rw [List.all_eq_true] at h
  have h2 := h _ (List.getElem_mem hi)
  rw [List.all_eq_true] at h2
  apply h2
  unfold cstring
  have hj' : j < (List.take (strlen l.pic[i]) l.pic[i]).length := by
    rw [List.length_take]; omega
  have e : (List.take (strlen l.pic[i]) l.pic[i])[j] = l.pic[i].getD j 0 := by
    rw [List.getElem_take, List.getD_eq_getElem?_getD, List.getElem?_eq_getElem (by omega)]
    rfl
  rw [← e]
  exact List.getElem_mem hj'

/-! ## Bytes written by a slide and by a push -/

theorem entered_floor (a b occ : Nat) (k : Nat) (hk : k = 1 ∨ k = 3)
    (hocc : ∀ i, occ.testBit i = decide (i = k))
    (ha : ∀ i, (i = 1 ∨ i = 3) → a.testBit i = decide (i = k))
    (hb1 : b.testBit 1 = false) (hb3 : b.testBit 3 = false) :
    entered a b = clearBits b SPACE ||| occ := by
  apply Nat.eq_of_testBit_eq
  intro i
  rw [tb_entered, Nat.testBit_or, tb_clearBits, tb_SPACE, hocc]
  by_cases h4 : i = 4
  · subst h4; rcases hk with rfl | rfl <;> simp
  by_cases h1 : i = 1
  · subst h1; rw [ha 1 (Or.inl rfl)]; simp [hb1]
  by_cases h3 : i = 3
  · subst h3; rw [ha 3 (Or.inr rfl)]; simp [hb3]
  have hik : ¬ i = k := by rcases hk with rfl | rfl <;> assumption
  simp [h4, h1, h3, hik]

theorem entered_by_worker (a b : Nat) (hw : has a WORKER = true) (hb : has a BOX = false)
    (hb1 : has b BOX = false) (hb3 : has b WORKER = false) :
    entered a b = clearBits b SPACE ||| WORKER := by
  rw [has_WORKER] at hw hb3; rw [has_BOX] at hb hb1
  apply entered_floor a b WORKER 3 (Or.inr rfl) tb_WORKER _ hb1 hb3
  intro i hi
  rcases hi with rfl | rfl
  · rw [hb]; rfl
  · rw [hw]; rfl

theorem entered_by_box (a b : Nat) (hw : has a WORKER = false) (hb : has a BOX = true)
    (hb1 : has b BOX = false) (hb3 : has b WORKER = false) :
    entered a b = clearBits b SPACE ||| BOX := by
  rw [has_WORKER] at hw hb3; rw [has_BOX] at hb hb1
  apply entered_floor a b BOX 1 (Or.inl rfl) tb_BOX _ hb1 hb3
  intro i hi
  rcases hi with rfl | rfl
  · rw [hb]; rfl
  · rw [hw]; rfl

theorem vacated_by (a occ : Nat) (k : Nat) (hk : k = 1 ∨ k = 3)
    (hocc : ∀ i, occ.testBit i = decide (i = k))
    (ha : ∀ i, (i = 1 ∨ i = 3) → a.testBit i = decide (i = k)) :
    vacated a = clearBits a occ ||| SPACE := by
  apply Nat.eq_of_testBit_eq
  intro i
  rw [tb_vacated, Nat.testBit_or, tb_clearBits, tb_SPACE, hocc]
  by_cases h4 : i = 4
  · subst h4; simp
  by_cases h1 : i = 1
  · subst h1; rw [ha 1 (Or.inl rfl)]; simp
  by_cases h3 : i = 3
  · subst h3; rw [ha 3 (Or.inr rfl)]; simp
  have hik : ¬ i = k := by rcases hk with rfl | rfl <;> assumption
  simp [h4, h1, h3, hik]

theorem vacated_by_worker (a : Nat) (hw : has a WORKER = true) (hb : has a BOX = false) :
    vacated a = clearBits a WORKER ||| SPACE := by
  rw [has_WORKER] at hw; rw [has_BOX] at hb
  apply vacated_by a WORKER 3 (Or.inr rfl) tb_WORKER
  intro i hi
  rcases hi with rfl | rfl
  · rw [hb]; rfl
  · rw [hw]; rfl

theorem entered_after_box (a b : Nat) (hw : has a WORKER = true) (hb : has a BOX = false)
    (hs : has b SPACE = false) :
    entered a (vacated b) = clearBits b BOX ||| WORKER := by
  rw [has_WORKER] at hw; rw [has_BOX] at hb; rw [has_SPACE] at hs
  apply Nat.eq_of_testBit_eq
  intro i
  rw [tb_entered, tb_vacated, Nat.testBit_or, tb_clearBits, tb_BOX, tb_WORKER]
  by_cases h4 : i = 4
  · subst h4; simp [hs]
  by_cases h1 : i = 1
  · subst h1; simp [hb]
  by_cases h3 : i = 3
  · subst h3; simp [hw]
  simp [h4, h1, h3]

theorem overlay_moved (l : level) (r0 c0 r1 c1 : Int) (ch0 ch1 : Nat)
    (h0 : InMap l r0 c0) (h1 : InMap l r1 c1) (e0 : get l r0 c0 = ch0) (e1 : get l r1 c1 = ch1)
    (he : entered ch0 ch1 ≠ 0) (r c : Int) :
    has (get (moved l r0 c0 r1 c1 ch0 ch1) r c) STORE = has (get l r c) STORE ∧
    has (get (moved l r0 c0 r1 c1 ch0 ch1) r c) HILITE = has (get l r c) HILITE ∧
    has (get (moved l r0 c0 r1 c1 ch0 ch1) r c) WALL = has (get l r c) WALL := by
  rw [get_moved l r0 c0 r1 c1 ch0 ch1 h0 h1 he]
  by_cases e1' : r = r1 ∧ c = c1
  · obtain ⟨rfl, rfl⟩ := e1'
    simp only [and_self, if_true, e1]
    obtain ⟨a1, _, a3, _, _, a6⟩ := has_entered ch0 ch1
    exact ⟨a3, a6, a1⟩
  · rw [if_neg e1']
    by_cases e0' : r = r0 ∧ c = c0
    · obtain ⟨rfl, rfl⟩ := e0'
      simp only [and_self, if_true, e0]
      obtain ⟨a1, _, a3, _, _, a6⟩ := has_vacated ch0
      exact ⟨a3, a6, a1⟩
    · rw [if_neg e0']
      exact ⟨rfl, rfl, rfl⟩

/-! ## Slide (C5) -/

theorem stackOK_setLevel (s : session) (l1 : level) (h : StackOK s) :
    StackOK { s with l := l1 } := h

/-- C5: on a well-formed session (cell invariants, map within 64 × 64, worker at
`[r,c]`, undo stack allocated) and for each of the four directions with unit
offset `(dr,dc)`, if the in-map cell `[r+dr,c+dc]` has `SPACE`, then `go` returns
1 and afterwards: `[r+dr,c+dc]` holds its old byte with `WORKER` in place of
`SPACE`, `[r,c]` holds its old byte with `SPACE` in place of `WORKER`, every other
stored byte is unchanged, the `STORE` and `HILITE` bits of every cell are
unchanged, the tracked position decodes to `[r+dr,c+dc]`, the entry pushed on top
of the undo stack is `rc2p r c` with the `PULL` bit clear, earlier entries are
kept, and `MoveCount` has increased by exactly 1. -/
theorem C5_slide_effect (s : session) (direction r c : Int)
    (hdir : direction = NORTH ∨ direction = EAST ∨ direction = SOUTH ∨ direction = WEST)
    (hok : CellsOK s.l) (h64 : Within64 s.l) (hw : WorkerAt s.l r c) (hst : StackOK s)
    (hin : InMap s.l (r + deltaRow direction) (c + deltaCol direction))
    (hsp : has (get s.l (r + deltaRow direction) (c + deltaCol direction)) SPACE = true) :
    ∃ s', go s direction = some (s', 1) ∧
      peek s'.l (r + deltaRow direction) (c + deltaCol direction) =
        some (clearBits (get s.l (r + deltaRow direction) (c + deltaCol direction)) SPACE
          ||| WORKER) ∧
      peek s'.l r c = some (clearBits (get s.l r c) WORKER ||| SPACE) ∧
      (∀ r' c' : Int, ¬ (r' = r ∧ c' = c) →
        ¬ (r' = r + deltaRow direction ∧ c' = c + deltaCol direction) →
        peek s'.l r' c' = peek s.l r' c') ∧
      (∀ r' c' : Int, has (get s'.l r' c') STORE = has (get s.l r' c') STORE ∧
        has (get s'.l r' c') HILITE = has (get s.l r' c') HILITE) ∧
      s'.l.pic.length = s.l.pic.length ∧ s'.l.cols = s.l.cols ∧
      p2rc s'.l.worker = (r + deltaRow direction, c + deltaCol direction) ∧
      s'.UndoTop = s.UndoTop + 1 ∧
      s'.UndoStack[s'.UndoTop.toNat]? = some (rc2p r c) ∧
      Int.land (rc2p r c) PULL = 0 ∧
      (∀ i : Nat, (i : Int) ≤ s.UndoTop → s'.UndoStack[i]? = s.UndoStack[i]?) ∧
      s'.MoveCount = s.MoveCount + 1 := by
  obtain ⟨hwk, hr0, hr, hc0, hc, hw0'⟩ := hw
  have hinw := inMap_of_has_WORKER s.l r c hw0'
  obtain ⟨ch0, hg0⟩ : ∃ ch0, get s.l r c = ch0 := ⟨_, rfl⟩
  have hp0 : peek s.l r c = some ch0 := by rw [← hg0]; exact peek_inMap s.l r c hinw
  have hw0 : has ch0 WORKER = true := by rw [← hg0]; exact hw0'
  have hdec : p2rc s.l.worker = (r, c) := by rw [hwk]; exact p2rc_rc2p r c hr0 hr hc0 hc
  have hr1 : (p2rc s.l.worker).1 = r := by rw [hdec]
  have hc1 : (p2rc s.l.worker).2 = c := by rw [hdec]
  have hp1 := peek_inMap s.l _ _ hin
  have hcw := cellOK_worker ch0 (cellOK_of_peek s.l hok r c ch0 hinw hp0) hw0
  have hcs := cellOK_space _ (hok _ _ hin) hsp
  have hne : ¬ (r = r + deltaRow direction ∧ c = c + deltaCol direction) := by
    have := delta_valid direction hdir
    omega
  have hmv := movePiece_distinct s.l r c _ _ ch0 _ hp0 hp1 hne (glyph_entered _ _ (Or.inr hw0))
  obtain ⟨s1, hpush, _⟩ := pushMove_ok
    { s with l := (moved s.l r c (r + deltaRow direction) (c + deltaCol direction) ch0
        (get s.l (r + deltaRow direction) (c + deltaCol direction))) }
    (rc2p r c) (stackOK_setLevel s _ hst)
  obtain ⟨q1, q2, q3, q4, q5, q6⟩ := pushMove_inv _ _ _ hpush
  have hgo := go_slide s s1 direction _ (by rw [hr1, hc1]; exact hsp)
    (by rw [hr1, hc1]; exact hmv) (by rw [hr1, hc1]; exact hpush)
  have hb64 := inMap_lt64 s.l h64 _ _ hin
  refine ⟨_, hgo, ?_, ?_, ?_, ?_, ?_, ?_, ?_, ?_, ?_, ?_, ?_, ?_⟩
  · simp only [q1]
    rw [peek_moved s.l r c _ _ _ _ ch0 _ hp0 hp1]
    simp only [and_self, if_true]
    rw [entered_by_worker ch0 _ hw0 hcw.2.1 hcs.2.2 hcs.2.1]
  · simp only [q1]
    rw [peek_moved s.l r c _ _ _ _ ch0 _ hp0 hp1, if_neg hne]
    simp only [and_self, if_true]
    rw [hg0, vacated_by_worker ch0 hw0 hcw.2.1]
  · intro r' c' h1 h2
    simp only [q1]
    rw [peek_moved s.l r c _ _ _ _ ch0 _ hp0 hp1, if_neg h2, if_neg h1]
  · intro r' c'
    simp only [q1]
    have h := overlay_moved s.l r c _ _ ch0 _ hinw hin hg0 rfl
      (entered_ne_zero _ _ (Or.inr hw0)) r' c'
    exact ⟨h.1, h.2.1⟩
  · simp only [q1]
    exact (moved_fields s.l r c _ _ ch0 _).2.2.2.2.2
  · simp only [q1]
    exact (moved_fields s.l r c _ _ ch0 _).2.1
  · simp only [q1]
    rw [moved_worker, hr1, hc1]
    simp only [and_self, if_true]
    exact p2rc_rc2p _ _ hb64.1 hb64.2.1 hb64.2.2.1 hb64.2.2.2
  · simp only [q2]
  · simp only [q5]
  · exact (rc2p_pull_clear r c hr0 hr hc0 hc)
  · intro i hi
    simp only
    apply q6 i hi
    show i < s.UndoStack.length
    have := hst.1; have := hst.2.2.2
    have hi' : (i : Int) ≤ s.UndoTop := hi
    omega
  · simp only [q3]

/-- Witness of C5: on `#@ .#` the worker at `[0,1]` slides east onto the floor
cell `[0,2]`. -/
theorem C5_slide_effect_witness :
    CellsOK floorAhead.l ∧ Within64 floorAhead.l ∧ WorkerAt floorAhead.l 0 1 ∧
      StackOK floorAhead ∧ InMap floorAhead.l (0 + deltaRow EAST) (1 + deltaCol EAST) ∧
      has (get floorAhead.l (0 + deltaRow EAST) (1 + deltaCol EAST)) SPACE = true ∧
      ∃ s', go floorAhead EAST = some (s', 1) ∧
        p2rc s'.l.worker = (0 + deltaRow EAST, 1 + deltaCol EAST) ∧
        s'.UndoStack[s'.UndoTop.toNat]? = some (rc2p 0 1) ∧
        s'.MoveCount = floorAhead.MoveCount + 1 :=
  have h1 : CellsOK floorAhead.l := cellsOK_of_all _ (by decide)
  have h2 : Within64 floorAhead.l := ⟨by decide, by decide⟩
  have h3 : WorkerAt floorAhead.l 0 1 :=
    ⟨by decide, by decide, by decide, by decide, by decide, by decide⟩
  have h4 : StackOK floorAhead := ⟨by decide, by decide, by decide, by decide⟩
  have h5 : InMap floorAhead.l (0 + deltaRow EAST) (1 + deltaCol EAST) :=
    ⟨by decide, by decide, by decide, by decide⟩
  have h6 : has (get floorAhead.l (0 + deltaRow EAST) (1 + deltaCol EAST)) SPACE = true := by
    decide
  ⟨h1, h2, h3, h4, h5, h6,
    (C5_slide_effect floorAhead EAST 0 1 (Or.inr (Or.inl rfl)) h1 h2 h3 h4 h5 h6).elim
      fun s' h => ⟨s', h.1, h.2.2.2.2.2.2.2.1, h.2.2.2.2.2.2.2.2.2.1,
        h.2.2.2.2.2.2.2.2.2.2.2.2⟩⟩

/-! ## Push (C4) -/

/-- C4: on a well-formed session (cell invariants, map within 64 × 64, worker at
`[r,c]`, undo stack allocated) and for each of the four directions with unit
offset `(dr,dc)`, if the in-map cell `[r+dr,c+dc]` has `BOX` and the in-map cell
`[r+2dr,c+2dc]` has `SPACE`, then `go` returns 1 and afterwards: `[r+2dr,c+2dc]`
holds its old byte with `BOX` in place of `SPACE`, `[r+dr,c+dc]` its old byte with
`WORKER` in place of `BOX`, `[r,c]` its old byte with `SPACE` in place of `WORKER`,
every other stored byte is unchanged, the `STORE` and `HILITE` bits of every cell
are unchanged, the tracked position decodes to `[r+dr,c+dc]`, the entry pushed on
top of the undo stack is `rc2p r c | PULL`, earlier entries are kept, and
`MoveCount` has increased by exactly 1. -/
theorem C4_push_effect (s : session) (direction r c : Int)
    (hdir : direction = NORTH ∨ direction = EAST ∨ direction = SOUTH ∨ direction = WEST)
    (hok : CellsOK s.l) (h64 : Within64 s.l) (hw : WorkerAt s.l r c) (hst : StackOK s)
    (hin1 : InMap s.l (r + deltaRow direction) (c + deltaCol direction))
    (hbx : has (get s.l (r + deltaRow direction) (c + deltaCol direction)) BOX = true)
    (hin2 : InMap s.l (r + deltaRow direction + deltaRow direction)
      (c + deltaCol direction + deltaCol direction))
    (hsp : has (get s.l (r + deltaRow direction + deltaRow direction)
      (c + deltaCol direction + deltaCol direction)) SPACE = true) :
    ∃ s', go s direction = some (s', 1) ∧
      peek s'.l (r + deltaRow direction + deltaRow direction)
          (c + deltaCol direction + deltaCol direction) =
        some (clearBits (get s.l (r + deltaRow direction + deltaRow direction)
          (c + deltaCol direction + deltaCol direction)) SPACE ||| BOX) ∧
      peek s'.l (r + deltaRow direction) (c + deltaCol direction) =
        some (clearBits (get s.l (r + deltaRow direction) (c + deltaCol direction)) BOX
          ||| WORKER) ∧
      peek s'.l r c = some (clearBits (get s.l r c) WORKER ||| SPACE) ∧
      (∀ r' c' : Int, ¬ (r' = r ∧ c' = c) →
        ¬ (r' = r + deltaRow direction ∧ c' = c + deltaCol direction) →
        ¬ (r' = r + deltaRow direction + deltaRow direction ∧
          c' = c + deltaCol direction + deltaCol direction) →
        peek s'.l r' c' = peek s.l r' c') ∧
      (∀ r' c' : Int, has (get s'.l r' c') STORE = has (get s.l r' c') STORE ∧
        has (get s'.l r' c') HILITE = has (get s.l r' c') HILITE) ∧
      s'.l.pic.length = s.l.pic.length ∧ s'.l.cols = s.l.cols ∧
      p2rc s'.l.worker = (r + deltaRow direction, c + deltaCol direction) ∧
      s'.UndoTop = s.UndoTop + 1 ∧
      s'.UndoStack[s'.UndoTop.toNat]? = some (Int.lor (rc2p r c) PULL) ∧
      (∀ i : Nat, (i : Int) ≤ s.UndoTop → s'.UndoStack[i]? = s.UndoStack[i]?) ∧
      s'.MoveCount = s.MoveCount + 1 := by
  obtain ⟨hwk, hr0, hr, hc0, hc, hw0'⟩ := hw
  have hinw := inMap_of_has_WORKER s.l r c hw0'
  obtain ⟨ch0, hg0⟩ : ∃ ch0, get s.l r c = ch0 := ⟨_, rfl⟩
  have hp0 : peek s.l r c = some ch0 := by rw [← hg0]; exact peek_inMap s.l r c hinw
  have hw0 : has ch0 WORKER = true := by rw [← hg0]; exact hw0'
  have hdec : p2rc s.l.worker = (r, c) := by rw [hwk]; exact p2rc_rc2p r c hr0 hr hc0 hc
  have hr1 : (p2rc s.l.worker).1 = r := by rw [hdec]
  have hc1 : (p2rc s.l.worker).2 = c := by rw [hdec]
  have hpg := peek_inMap s.l _ _ hin1
  have hpb := peek_inMap s.l _ _ hin2
  have hcw := cellOK_worker ch0 (cellOK_of_peek s.l hok r c ch0 hinw hp0) hw0
  have hcb := cellOK_box _ (hok _ _ hin1) hbx
  have hcs := cellOK_space _ (hok _ _ hin2) hsp
  have hdv := delta_valid direction hdir
  have hdc := delta_cases direction
  have hne1 : ¬ (r + deltaRow direction = r + deltaRow direction + deltaRow direction ∧
      c + deltaCol direction = c + deltaCol direction + deltaCol direction) := by omega
  have hne2 : ¬ (r = r + deltaRow direction ∧ c = c + deltaCol direction) := by omega
  have hne3 : ¬ (r = r + deltaRow direction + deltaRow direction ∧
      c = c + deltaCol direction + deltaCol direction) := by omega
  have hne4 : ¬ (r + deltaRow direction = r ∧ c + deltaCol direction = c) := by omega
  have hm1 := movePiece_distinct s.l _ _ _ _ _ _ hpg hpb hne1 (glyph_entered _ _ (Or.inl hbx))
  have hq0 := peek_moved s.l _ _ _ _ r c _ _ hpg hpb
  rw [if_neg hne3, if_neg hne2, hp0] at hq0
  have hqg := peek_moved s.l _ _ _ _ (r + deltaRow direction) (c + deltaCol direction) _ _
    hpg hpb
  rw [if_neg hne1] at hqg
  simp only [and_self, if_true] at hqg
  have hm2 := movePiece_distinct _ r c _ _ ch0 _ hq0 hqg hne2 (glyph_entered _ _ (Or.inr hw0))
  have he1 := entered_ne_zero (get s.l (r + deltaRow direction) (c + deltaCol direction))
    (get s.l (r + deltaRow direction + deltaRow direction)
      (c + deltaCol direction + deltaCol direction)) (Or.inl hbx)
  have hinw1 := (inMap_moved s.l _ _ _ _ _ _ hin1 hin2 he1 r c).2 hinw
  have hing1 := (inMap_moved s.l _ _ _ _ _ _ hin1 hin2 he1 (r + deltaRow direction)
    (c + deltaCol direction)).2 hin1
  have hw1 := moved_worker s.l (r + deltaRow direction) (c + deltaCol direction)
    (r + deltaRow direction + deltaRow direction) (c + deltaCol direction + deltaCol direction)
    (get s.l (r + deltaRow direction) (c + deltaCol direction))
    (get s.l (r + deltaRow direction + deltaRow direction)
      (c + deltaCol direction + deltaCol direction))
  rw [hr1, hc1, if_neg hne4] at hw1
  obtain ⟨s1, hpush, _⟩ := pushMove_ok
    { s with l := (moved (moved s.l (r + deltaRow direction) (c + deltaCol direction)
        (r + deltaRow direction + deltaRow direction)
        (c + deltaCol direction + deltaCol direction)
        (get s.l (r + deltaRow direction) (c + deltaCol direction))
        (get s.l (r + deltaRow direction + deltaRow direction)
          (c + deltaCol direction + deltaCol direction)))
        r c (r + deltaRow direction) (c + deltaCol direction) ch0
        (vacated (get s.l (r + deltaRow direction) (c + deltaCol direction)))) }
    (Int.lor (rc2p r c) PULL) (stackOK_setLevel s _ hst)
  obtain ⟨q1, q2, q3, q4, q5, q6⟩ := pushMove_inv _ _ _ hpush
  have hgo := go_push s s1 direction _ _ (by rw [hr1, hc1]; exact hcb.2.2)
    (by rw [hr1, hc1]; exact hbx) (by rw [hr1, hc1]; exact hsp)
    (by rw [hr1, hc1]; exact hm1) (by rw [hr1, hc1]; exact hm2)
    (by rw [hr1, hc1]; exact hpush)
  have hb64 := inMap_lt64 s.l h64 _ _ hin1
  refine ⟨_, hgo, ?_, ?_, ?_, ?_, ?_, ?_, ?_, ?_, ?_, ?_, ?_, ?_⟩
  · simp only [q1]
    rw [peek_moved _ r c _ _ _ _ ch0 _ hq0 hqg]
    have e1 : ¬ (r + deltaRow direction + deltaRow direction = r + deltaRow direction ∧
        c + deltaCol direction + deltaCol direction = c + deltaCol direction) := by omega
    have e2 : ¬ (r + deltaRow direction + deltaRow direction = r ∧
        c + deltaCol direction + deltaCol direction = c) := by omega
    rw [if_neg e1, if_neg e2, peek_moved s.l _ _ _ _ _ _ _ _ hpg hpb]
    simp only [and_self, if_true]
    rw [entered_by_box _ _ hcb.2.1 hbx hcs.2.2 hcs.2.1]
  · simp only [q1]
    rw [peek_moved _ r c _ _ _ _ ch0 _ hq0 hqg]
    simp only [and_self, if_true]
    rw [entered_after_box ch0 _ hw0 hcw.2.1 hcb.2.2]
  · simp only [q1]
    rw [peek_moved _ r c _ _ _ _ ch0 _ hq0 hqg, if_neg hne2]
    simp only [and_self, if_true]
    rw [hg0, vacated_by_worker ch0 hw0 hcw.2.1]
  · intro r' c' h1 h2 h3
    simp only [q1]
    rw [peek_moved _ r c _ _ _ _ ch0 _ hq0 hqg, if_neg h2, if_neg h1,
      peek_moved s.l _ _ _ _ _ _ _ _ hpg hpb, if_neg h3, if_neg h2]
  · intro r' c'
    simp only [q1]
    have ha := overlay_moved s.l _ _ _ _ _ _ hin1 hin2 rfl rfl he1 r' c'
    have hb := overlay_moved _ r c _ _ ch0 _ hinw1 hing1 (get_of_peek _ _ _ _ hinw1 hq0)
      (get_of_peek _ _ _ _ hing1 hqg) (entered_ne_zero _ _ (Or.inr hw0)) r' c'
    exact ⟨hb.1.trans ha.1, hb.2.1.trans ha.2.1⟩
  · simp only [q1]
    rw [(moved_fields _ r c _ _ ch0 _).2.2.2.2.2]
    exact (moved_fields s.l _ _ _ _ _ _).2.2.2.2.2
  · simp only [q1]
    rw [(moved_fields _ r c _ _ ch0 _).2.1]
    exact (moved_fields s.l _ _ _ _ _ _).2.1
  · simp only [q1]
    rw [moved_worker, hw1, hr1, hc1]
    simp only [and_self, if_true]
    exact p2rc_rc2p _ _ hb64.1 hb64.2.1 hb64.2.2.1 hb64.2.2.2
  · simp only [q2]
  · simp only [q5]
  · intro i hi
    simp only
    apply q6 i hi
    show i < s.UndoStack.length
    have := hst.1; have := hst.2.2.2
    have hi' : (i : Int) ≤ s.UndoTop := hi
    omega
  · simp only [q3]

/-- Witness of C4: on `#@$.#` the worker at `[1,1]` pushes the box east onto the
store. -/
theorem C4_push_effect_witness :
    CellsOK boxAhead.l ∧ Within64 boxAhead.l ∧ WorkerAt boxAhead.l 1 1 ∧ StackOK boxAhead ∧
      InMap boxAhead.l (1 + deltaRow EAST) (1 + deltaCol EAST) ∧
      has (get boxAhead.l (1 + deltaRow EAST) (1 + deltaCol EAST)) BOX = true ∧
      InMap boxAhead.l (1 + deltaRow EAST + deltaRow EAST)
        (1 + deltaCol EAST + deltaCol EAST) ∧
      has (get boxAhead.l (1 + deltaRow EAST + deltaRow EAST)
        (1 + deltaCol EAST + deltaCol EAST)) SPACE = true ∧
      ∃ s', go boxAhead EAST = some (s', 1) ∧
        p2rc s'.l.worker = (1 + deltaRow EAST, 1 + deltaCol EAST) ∧
        s'.UndoStack[s'.UndoTop.toNat]? = some (Int.lor (rc2p 1 1) PULL) ∧
        s'.MoveCount = boxAhead.MoveCount + 1 :=
  have h1 : CellsOK boxAhead.l := cellsOK_of_all _ (by decide)
  have h2 : Within64 boxAhead.l := ⟨by decide, by decide⟩
  have h3 : WorkerAt boxAhead.l 1 1 :=
    ⟨by decide, by decide, by decide, by decide, by decide, by decide⟩
  have h4 : StackOK boxAhead := ⟨by decide, by decide, by decide, by decide⟩
  have h5 : InMap boxAhead.l (1 + deltaRow EAST) (1 + deltaCol EAST) :=
    ⟨by decide, by decide, by decide, by decide⟩
  have h6 : has (get boxAhead.l (1 + deltaRow EAST) (1 + deltaCol EAST)) BOX = true := by
    decide
  have h7 : InMap boxAhead.l (1 + deltaRow EAST + deltaRow EAST)
      (1 + deltaCol EAST + deltaCol EAST) := ⟨by decide, by decide, by decide, by decide⟩
  have h8 : has (get boxAhead.l (1 + deltaRow EAST + deltaRow EAST)
      (1 + deltaCol EAST + deltaCol EAST)) SPACE = true := by decide
  ⟨h1, h2, h3, h4, h5, h6, h7, h8,
    (C4_push_effect boxAhead EAST 1 1 (Or.inr (Or.inl rfl)) h1 h2 h3 h4 h5 h6 h7 h8).elim
      fun s' h => ⟨s', h.1, h.2.2.2.2.2.2.2.2.1, h.2.2.2.2.2.2.2.2.2.2.1,
        h.2.2.2.2.2.2.2.2.2.2.2.2⟩⟩

/-! ## Cell invariants are preserved by `go` (C2) -/

theorem cellOK_facts (ch : Nat) (h : cellOK ch = true) :
    ¬ (has ch BOX = true ∧ has ch WORKER = true) ∧
    ¬ (has ch WALL = true ∧ (has ch BOX = true ∨ has ch WORKER = true ∨ has ch SPACE = true)) ∧
    (has ch WALL = true → ch = WALL) ∧
    (has ch WALL = false →
      (has ch BOX = true ∧ has ch WORKER = false ∧ has ch SPACE = false) ∨
      (has ch BOX = false ∧ has ch WORKER = true ∧ has ch SPACE = false) ∨
      (has ch BOX = false ∧ has ch WORKER = false ∧ has ch SPACE = true)) := by
  unfold cellOK at h
  cases hwall : has ch WALL
  · rw [hwall] at h
    cases hb : has ch BOX <;> cases hw : has ch WORKER <;> cases hs : has ch SPACE <;>
      simp_all
  · rw [hwall] at h
    simp only [if_true, beq_iff_eq] at h
    subst h
    decide

theorem strlen_stop (cells : List Nat) (h : strlen cells < cells.length) :
    cells[strlen cells]? = some 0 := by
  induction cells with
  | nil => simp at h
  | cons ch rest ih =>
    by_cases h0 : ch = 0
    · subst h0; simp [strlen]
    · simp only [strlen, if_neg h0, List.length_cons] at h ⊢
      rw [List.getElem?_cons_succ]
      exact ih (by omega)

theorem peek_outside_col (l : level) (hnl : NulLast l) (r c : Int) (ch : Nat)
    (hp : peek l r c = some ch) (hout : ¬ InMap l r c) :
    ch = 0 ∧ c = (strlen (l.pic.getD r.toNat []) : Int) := by
  obtain ⟨hr, hc⟩ := peek_nonneg hp
  obtain ⟨i, rfl⟩ := Int.eq_ofNat_of_zero_le hr
  obtain ⟨j, rfl⟩ := Int.eq_ofNat_of_zero_le hc
  rw [inMap_nat] at hout
  rw [peek_eq hr hc] at hp
  simp only [Int.toNat_natCast] at hp ⊢
  cases hrow : l.pic[i]? with
  | none => rw [hrow] at hp; simp at hp
  | some row =>
    rw [hrow] at hp
    simp only [Option.some_bind] at hp
    have hD : l.pic.getD i [] = row := by
      rw [List.getD_eq_getElem?_getD, hrow]; rfl
    rw [hD] at hout ⊢
    obtain ⟨hj, _⟩ := List.getElem?_eq_some.1 hp
    have hmem : row ∈ l.pic := by
      obtain ⟨hi, e⟩ := List.getElem?_eq_some.1 hrow
      rw [← e]; exact List.getElem_mem hi
    have hlen := hnl row hmem
    have hj' : j = strlen row := by omega
    rw [hj', strlen_stop row (by omega)] at hp
    simp only [Option.some.injEq] at hp
    exact ⟨hp.symm, by rw [hj']⟩

theorem peek_outside (l : level) (hnl : NulLast l) (r c : Int) (ch : Nat)
    (hp : peek l r c = some ch) (hout : ¬ InMap l r c) : ch = 0 :=
  (peek_outside_col l hnl r c ch hp hout).1

theorem strlen_getD_ne_zero (cells : List Nat) (j : Nat) (hj : j < strlen cells) :
    cells.getD j 0 ≠ 0 := by
  induction cells generalizing j with
  | nil => simp [strlen] at hj
  | cons ch rest ih =>
    by_cases h0 : ch = 0
    · subst h0; simp [strlen] at hj
    · simp only [strlen, if_neg h0] at hj
      cases j with
      | zero => simpa using h0
      | succ k =>
        rw [List.getD_cons_succ]
        exact ih k (by omega)

theorem get_ne_zero (l : level) (r c : Int) : get l r c ≠ 0 := by
  by_cases hin : InMap l r c
  · obtain ⟨i, rfl⟩ := Int.eq_ofNat_of_zero_le hin.1
    obtain ⟨j, rfl⟩ := Int.eq_ofNat_of_zero_le hin.2.1
    have hj := (inMap_nat l i j).1 hin
    rw [get_nat, if_neg (by omega)]
    exact strlen_getD_ne_zero _ j hj
  · rw [get_outside l r c hin]; decide

theorem touchedOK_refl (l : level) (hok : CellsOK l) : TouchedOK l l := by
  intro r c ch hp h
  rcases h with h | h
  · exact cellOK_of_peek l hok r c ch h hp
  · exact absurd hp h

theorem touchedOK_moved (l0 l : level) (r0 c0 r1 c1 : Int) (ch0 ch1 : Nat)
    (hq : TouchedOK l0 l) (h0 : peek l r0 c0 = some ch0) (h1 : peek l r1 c1 = some ch1)
    (he : cellOK (entered ch0 ch1) = true) (hv : cellOK (vacated ch0) = true) :
    TouchedOK l0 (moved l r0 c0 r1 c1 ch0 ch1) := by
  intro r c ch hp h
  rw [peek_moved l r0 c0 r1 c1 r c ch0 ch1 h0 h1] at hp
  split at hp
  · simp only [Option.some.injEq] at hp
    rw [← hp]; exact he
  · split at hp
    · simp only [Option.some.injEq] at hp
      rw [← hp]; exact hv
    · exact hq r c ch hp h

theorem cellsOK_of_touched (l0 l : level) (hnl : NulLast l0) (hq : TouchedOK l0 l) :
    CellsOK l := by
  intro r c hin
  have hp := peek_inMap l r c hin
  apply hq r c _ hp
  by_cases h0 : InMap l0 r c
  · exact Or.inl h0
  · right
    intro hp0
    exact get_ne_zero l r c (peek_outside l0 hnl r c _ hp0 h0)

theorem strlen_set_ge (cells : List Nat) (j v : Nat) (hv : v ≠ 0) :
    strlen cells ≤ strlen (cells.set j v) := by
  induction cells generalizing j with
  | nil => simp [strlen]
  | cons ch rest ih =>
    cases j with
    | zero =>
      simp only [List.set_cons_zero, strlen, if_neg hv]
      split <;> omega
    | succ k =>
      simp only [List.set_cons_succ, strlen]
      split
      · omega
      · have := ih k; omega

theorem nulLast_pokeF (l : level) (r c : Int) (v : Nat) (hv : v ≠ 0) (h : NulLast l) :
    NulLast (pokeF l r c v) := by
  intro line hline
  rcases List.mem_or_eq_of_mem_set hline with h1 | h1
  · exact h line h1
  · rw [h1, List.length_set]
    have hge := strlen_set_ge (l.pic.getD r.toNat []) c.toNat v hv
    by_cases hi : r.toNat < l.pic.length
    · have hD : l.pic.getD r.toNat [] = l.pic[r.toNat] := by
        rw [List.getD_eq_getElem?_getD, List.getElem?_eq_getElem hi]; rfl
      have := h _ (List.getElem_mem hi)
      rw [← hD] at this
      omega
    · have hD : l.pic.getD r.toNat [] = [] := by
        rw [List.getD_eq_getElem?_getD, List.getElem?_eq_none (by omega)]; rfl
      rw [hD]; simp

theorem nulLast_moved (l : level) (r0 c0 r1 c1 : Int) (ch0 ch1 : Nat) (h : NulLast l)
    (he : entered ch0 ch1 ≠ 0) : NulLast (moved l r0 c0 r1 c1 ch0 ch1) := by
  unfold moved
  apply nulLast_pokeF _ _ _ _ he
  apply nulLast_pokeF _ _ _ _ (vacated_ne_zero ch0)
  intro line hline
  rw [pic_retrack] at hline
  exact h line hline

/-- A byte outside the map that `movePiece` changes, moving a piece from a cell of
the map, was the terminating NUL of its line, and the line is left without
NUL. -/
theorem moved_offmap (l : level) (hnl : NulLast l) (r0 c0 r1 c1 : Int) (ch0 ch1 : Nat)
    (h0 : peek l r0 c0 = some ch0) (h1 : peek l r1 c1 = some ch1) (i0 : InMap l r0 c0)
    (he : entered ch0 ch1 ≠ 0) (r c : Int) (hout : ¬ InMap l r c)
    (hch : peek (moved l r0 c0 r1 c1 ch0 ch1) r c ≠ peek l r c) :
    peek l r c = some 0 ∧ ∀ c' : Int, peek (moved l r0 c0 r1 c1 ch0 ch1) r c' ≠ some 0 := by
  rw [peek_moved l r0 c0 r1 c1 r c ch0 ch1 h0 h1] at hch
  by_cases e1 : r = r1 ∧ c = c1
  · obtain ⟨rfl, rfl⟩ := e1
    have hz := peek_outside_col l hnl r c ch1 h1 hout
    refine ⟨by rw [h1, hz.1], ?_⟩
    intro c' hc'
    rw [peek_moved l r0 c0 r c r c' ch0 ch1 h0 h1] at hc'
    split at hc'
    · exact he (Option.some.inj hc')
    · split at hc'
      · exact vacated_ne_zero ch0 (Option.some.inj hc')
      · rename_i n1 n2
        have hout' : ¬ InMap l r c' := by
          intro hin
          exact get_ne_zero l r c' (get_of_peek l r c' 0 hin hc')
        have hz' := peek_outside_col l hnl r c' 0 hc' hout'
        exact n1 ⟨rfl, by rw [hz'.2, hz.2]⟩
  · rw [if_neg e1] at hch
    by_cases e0 : r = r0 ∧ c = c0
    · exact absurd (by rw [e0.1, e0.2]; exact i0) hout
    · rw [if_neg e0] at hch
      exact absurd rfl hch

/-- Every byte `go` leaves on the board that was a cell of the map before the call
or was written by the call satisfies the cell invariants; no line gets a byte
behind its terminating NUL; a changed byte outside the map was the terminating
NUL of its line, which is left without NUL; and when the stores are inside the
map, the map keeps its cells. -/
theorem go_touchedOK (s s' : session) (d m : Int) (hok : CellsOK s.l) (hw : WorkerTracked s.l)
    (hnl : NulLast s.l) (hgo : go s d = some (s', m)) :
    TouchedOK s.l s'.l ∧ NulLast s'.l ∧
    (∀ r c : Int, ¬ InMap s.l r c → peek s'.l r c ≠ peek s.l r c →
      peek s.l r c = some 0 ∧ ∀ c' : Int, peek s'.l r c' ≠ some 0) ∧
    (StoresInMap s.l d → ∀ r c : Int, InMap s'.l r c ↔ InMap s.l r c) := by
  have hinw := inMap_of_has_WORKER s.l _ _ hw
  have hpw := peek_inMap s.l _ _ hinw
  have hcw := cellOK_worker _ (hok _ _ hinw) hw
  have hfloor : ∀ r c ch, peek s.l r c = some ch → has (get s.l r c) SPACE = true →
      has ch WALL = false := by
    intro r c ch hp hsp
    by_cases hin : InMap s.l r c
    · rw [get_of_peek s.l r c ch hin hp] at hsp
      exact (cellOK_space ch (cellOK_of_peek s.l hok r c ch hin hp) hsp).1
    · rw [peek_outside s.l hnl r c ch hp hin]; decide
  rcases go_inv s s' d m hgo with ⟨_, hs, _⟩ | ⟨_, hsp, l1, s1, hm, hpush, hs⟩ |
    ⟨_, hsp, hbx, hsp2, l1, l2, s1, hm1, hm2, hpush, hs⟩
  · rw [hs]
    exact ⟨touchedOK_refl s.l hok, hnl, fun r c _ h => absurd rfl h, fun _ _ _ => Iff.rfl⟩
  · obtain ⟨q1, _⟩ := pushMove_inv _ _ _ hpush
    obtain ⟨ch0, ch1, hp0, hp1, hl1⟩ := movePiece_inv _ _ _ _ _ _ hm
    rw [hpw] at hp0
    simp only [Option.some.injEq] at hp0
    subst hp0
    rw [hs]
    simp only [q1, hl1]
    exact ⟨touchedOK_moved s.l s.l _ _ _ _ _ ch1 (touchedOK_refl s.l hok) hpw hp1
      (cellOK_entered _ ch1 (hfloor _ _ ch1 hp1 hsp) (Or.inr ⟨hcw.2.1, hw⟩))
      (cellOK_vacated _ hcw.1),
      nulLast_moved s.l _ _ _ _ _ ch1 hnl (entered_ne_zero _ ch1 (Or.inr hw)),
      fun r c hout hch => moved_offmap s.l hnl _ _ _ _ _ ch1 hpw hp1 hinw
        (entered_ne_zero _ ch1 (Or.inr hw)) r c hout hch,
      fun hst r c => inMap_moved s.l _ _ _ _ _ ch1 hinw (hst.1 hsp)
        (entered_ne_zero _ ch1 (Or.inr hw)) r c⟩
  · obtain ⟨q1, _⟩ := pushMove_inv _ _ _ hpush
    obtain ⟨chb, ch2, hpg, hpb, hl1⟩ := movePiece_inv _ _ _ _ _ _ hm1
    obtain ⟨x, y, hx, hy, hl2⟩ := movePiece_inv _ _ _ _ _ _ hm2
    have hing := inMap_of_has_BOX s.l _ _ hbx
    have hbx0 := hbx
    have hgb := get_of_peek s.l _ _ chb hing hpg
    rw [hgb] at hbx
    have hcb := cellOK_box chb (cellOK_of_peek s.l hok _ _ chb hing hpg) hbx
    have hw2 := hfloor _ _ ch2 hpb hsp2
    have hq1 : TouchedOK s.l l1 := by
      rw [hl1]
      exact touchedOK_moved s.l s.l _ _ _ _ chb ch2 (touchedOK_refl s.l hok) hpg hpb
        (cellOK_entered chb ch2 hw2 (Or.inl ⟨hbx, hcb.2.1⟩)) (cellOK_vacated chb hcb.1)
    have hx' := hx
    have hy' := hy
    rw [hl1, peek_moved s.l _ _ _ _ _ _ chb ch2 hpg hpb] at hx' hy'
    have hxw : has x WALL = false ∧ has x BOX = false ∧ has x WORKER = true := by
      split at hx'
      · rename_i e
        rw [← e.1, ← e.2] at hsp2
        rw [hcw.2.2] at hsp2; cases hsp2
      · split at hx'
        · rename_i e
          rw [← e.1, ← e.2, hpw] at hpg
          simp only [Option.some.injEq] at hpg
          rw [← hpg] at hbx
          rw [hcw.2.1] at hbx; cases hbx
        · rw [hpw] at hx'
          simp only [Option.some.injEq] at hx'
          rw [← hx']; exact ⟨hcw.1, hcw.2.1, hw⟩
    have hyw : has y WALL = false := by
      split at hy'
      · simp only [Option.some.injEq] at hy'
        rw [← hy', (has_entered chb ch2).1]; exact hw2
      · simp only [and_self, if_true, Option.some.injEq] at hy'
        rw [← hy', (has_vacated chb).1]; exact hcb.1
    rw [hs]
    simp only [q1, hl2]
    have hnl1 : NulLast l1 := by
      rw [hl1]
      exact nulLast_moved s.l _ _ _ _ chb ch2 hnl (entered_ne_zero chb ch2 (Or.inl hbx))
    have heb := entered_ne_zero chb ch2 (Or.inl hbx)
    have heg := entered_ne_zero x y (Or.inr hxw.2.2)
    refine ⟨touchedOK_moved s.l l1 _ _ _ _ x y hq1 hx hy
      (cellOK_entered x y hyw (Or.inr ⟨hxw.2.1, hxw.2.2⟩)) (cellOK_vacated x hxw.1),
      nulLast_moved l1 _ _ _ _ x y hnl1 heg, ?_, ?_⟩
    · intro r c hout hch
      have hstep : peek (moved l1 (p2rc s.l.worker).1 (p2rc s.l.worker).2
          ((p2rc s.l.worker).1 + deltaRow d) ((p2rc s.l.worker).2 + deltaCol d) x y) r c =
          peek l1 r c := by
        rw [peek_moved l1 _ _ _ _ r c x y hx hy]
        by_cases e1 : r = (p2rc s.l.worker).1 + deltaRow d ∧
            c = (p2rc s.l.worker).2 + deltaCol d
        · exact absurd (by rw [e1.1, e1.2]; exact hing) hout
        · rw [if_neg e1]
          by_cases e0 : r = (p2rc s.l.worker).1 ∧ c = (p2rc s.l.worker).2
          · exact absurd (by rw [e0.1, e0.2]; exact hinw) hout
          · rw [if_neg e0]
      rw [hstep, hl1] at hch
      obtain ⟨z0, hall⟩ := moved_offmap s.l hnl _ _ _ _ chb ch2 hpg hpb hing heb r c hout hch
      refine ⟨z0, ?_⟩
      intro c' hc'
      rw [peek_moved l1 _ _ _ _ r c' x y hx hy] at hc'
      split at hc'
      · exact heg (Option.some.inj hc')
      · split at hc'
        · exact vacated_ne_zero x (Option.some.inj hc')
        · rw [hl1] at hc'
          exact hall c' hc'
    · intro hst r c
      have hinb := hst.2 hbx0 hsp2
      have hinw1 := (inMap_moved s.l _ _ _ _ chb ch2 hing hinb heb _ _).2 hinw
      have hing1 := (inMap_moved s.l _ _ _ _ chb ch2 hing hinb heb _ _).2 hing
      rw [hl1] at hx hy ⊢
      rw [inMap_moved _ _ _ _ _ x y hinw1 hing1 heg r c,
        inMap_moved s.l _ _ _ _ chb ch2 hing hinb heb r c]

/-! ## Line buffers of a loaded level -/

theorem charBits_ne_zero (ch : Nat) (h : ch ≠ 0) : charBits ch ≠ 0 := by
  unfold charBits
  split
  · decide
  · split
    · split
      · decide
      · split <;> decide
    · split
      · decide
      · split
        · decide
        · split
          · decide
          · exact h

theorem set_same {α : Type} (xs : List α) (i : Nat) (x : α) (h : xs[i]? = some x) :
    xs.set i x = xs := by
  induction xs generalizing i with
  | nil => rfl
  | cons y ys ih =>
    cases i with
    | zero =>
      simp only [List.getElem?_cons_zero, Option.some.injEq] at h
      rw [h]; rfl
    | succ k =>
      simp only [List.getElem?_cons_succ] at h
      simp only [List.set_cons_succ, ih k h]

theorem pokeF_same (l : level) (r c : Int) (v : Nat) (h : peek l r c = some v) :
    (pokeF l r c v).pic = l.pic := by
  obtain ⟨hr, hc⟩ := peek_nonneg h
  rw [peek_eq hr hc] at h
  cases hrow : l.pic[r.toNat]? with
  | none => rw [hrow] at h; simp at h
  | some row =>
    rw [hrow] at h
    simp only [Option.some_bind] at h
    have hD : l.pic.getD r.toNat [] = row := by
      rw [List.getD_eq_getElem?_getD, hrow]; rfl
    unfold pokeF
    simp only [hD, set_same row c.toNat v h, set_same l.pic r.toNat row hrow]

theorem cstring_ne_zero (t : List Nat) : ∀ y ∈ cstring t, y ≠ 0 := by
  induction t with
  | nil => intro y hy; simp [cstring, strlen] at hy
  | cons ch rest ih =>
    intro y hy
    unfold cstring at hy ih
    by_cases h0 : ch = 0
    · subst h0; simp [strlen] at hy
    · simp only [strlen, if_neg h0, List.take_succ_cons, List.mem_cons] at hy
      rcases hy with hy | hy
      · rw [hy]; exact h0
      · exact ih y hy

theorem strlen_append_nul (xs : List Nat) (h : ∀ y ∈ xs, y ≠ 0) :
    strlen (xs ++ [0]) = xs.length := by
  induction xs with
  | nil => simp [strlen]
  | cons ch rest ih =>
    have h0 : ch ≠ 0 := h ch (List.mem_cons_self _ _)
    simp only [List.cons_append, strlen, if_neg h0, List.length_cons]
    have e := ih (fun y hy => h y (List.mem_cons_of_mem _ hy))
    show strlen (rest ++ [0]) + 1 = rest.length + 1
    rw [e]

theorem nulLast_scanCell (r : Nat) (acc : Option level) (c : Nat)
    (h : ∀ l, acc = some l → NulLast l) : ∀ l, scanCell r acc c = some l → NulLast l := by
  intro l2 h2
  unfold scanCell at h2
  cases hacc : acc with
  | none => rw [hacc] at h2; simp at h2
  | some l =>
    rw [hacc] at h2
    simp only [Option.some_bind] at h2
    have hl := h l hacc
    cases hp : peek l r c with
    | none => rw [hp] at h2; simp at h2
    | some ch =>
      rw [hp] at h2
      simp only [Option.some_bind] at h2
      have hl' : NulLast (if ch = 64 ∨ ch = 43 then { l with worker := rc2p r c } else l) := by
        split
        · exact hl
        · exact hl
      have hp' : peek (if ch = 64 ∨ ch = 43 then { l with worker := rc2p r c } else l) r c =
          some ch := by
        split
        · exact hp
        · exact hp
      unfold poke at h2
      rw [hp'] at h2
      simp only [Option.some.injEq] at h2
      rw [← h2]
      by_cases h0 : ch = 0
      · subst h0
        have e : charBits 0 = 0 := by decide
        rw [e]
        intro line hline
        rw [pokeF_same _ _ _ _ hp'] at hline
        exact hl' line hline
      · exact nulLast_pokeF _ _ _ _ (charBits_ne_zero ch h0) hl'

theorem foldl_some_inv {α β : Type} (P : α → Prop) (f : Option α → β → Option α)
    (hf : ∀ acc b, (∀ x, acc = some x → P x) → ∀ x, f acc b = some x → P x) (bs : List β) :
    ∀ acc, (∀ x, acc = some x → P x) → ∀ x, bs.foldl f acc = some x → P x := by
  induction bs with
  | nil => intro acc h x hx; exact h x hx
  | cons b rest ih =>
    intro acc h x hx
    exact ih (f acc b) (hf acc b h) x hx

/-- Every line buffer of a loaded level ends with its terminating NUL. -/
theorem nulLast_readLevel (maxRows : Nat) (MaxUndo : Int) (UndoStack : List Int) (n : Int)
    (text : List (List Nat)) (now : Int) (s : session)
    (h : readLevel maxRows MaxUndo UndoStack n text now = some s) : NulLast s.l := by
  unfold readLevel at h
  split at h
  · simp at h
  · simp only at h
    cases hf : (List.range ((text.map cstring).map fun str => str ++ [0]).length).foldl
        (scanRow ((text.map cstring).foldl (fun m cells => max m cells.length) 0))
        (some { levelNumber := n,
                cols := (((text.map cstring).foldl (fun m cells => max m cells.length) 0 : Nat)
                  : Int),
                pic := (text.map cstring).map fun str => str ++ [0], top := 0, left := 0,
                worker := 0, startTime := now }) with
    | none => rw [hf] at h; simp at h
    | some l =>
      rw [hf] at h
      simp only [Option.some_bind, Option.some.injEq] at h
      rw [← h]
      refine foldl_some_inv NulLast _ ?_ _ _ ?_ l hf
      · intro acc r hacc x hx
        exact foldl_some_inv NulLast (scanCell r) (fun a c ha => nulLast_scanCell r a c ha) _
          acc hacc x hx
      · intro x hx
        simp only [Option.some.injEq] at hx
        rw [← hx]
        intro line hline
        simp only [List.map_map, List.mem_map, Function.comp] at hline
        obtain ⟨t, _, rfl⟩ := hline
        have hz : ∀ y ∈ cstring t, y ≠ 0 := cstring_ne_zero t
        rw [List.length_append, strlen_append_nul _ hz]
        simp

/-- C2: for every direction and every session whose cells satisfy the cell
invariants, whose tracked worker position decodes to a cell carrying `WORKER`
and whose line buffers hold no byte behind their terminating NUL, every result
of `go` (whether it returned 1 or 0, and also when the worker or a box was
stored onto the terminating NUL just behind a line) keeps the invariants.  Every
stored byte that was a cell of the map before the call or was written by the
call has not both `BOX` and `WORKER`, has not `WALL` together with `BOX`,
`WORKER` or `SPACE`, is exactly `WALL` if it has `WALL`, and otherwise has exactly
one of `BOX`, `WORKER`, `SPACE`.  When the stores are inside the drawn map, the map
has the same cells afterwards and every cell satisfies the invariants.  A byte
outside the map that `go` changed was the terminating NUL of its line, and that
line is left without NUL.  No line buffer gets a byte behind its terminating
NUL. -/
theorem C2_go_preserves_cell_invariants (s s' : session) (direction m : Int)
    (hok : CellsOK s.l) (hw : WorkerTracked s.l) (hnl : NulLast s.l)
    (hgo : go s direction = some (s', m)) :
    (∀ r c ch, peek s'.l r c = some ch → (InMap s.l r c ∨ peek s.l r c ≠ some ch) →
      cellOK ch = true ∧
      ¬ (has ch BOX = true ∧ has ch WORKER = true) ∧
      ¬ (has ch WALL = true ∧
        (has ch BOX = true ∨ has ch WORKER = true ∨ has ch SPACE = true)) ∧
      (has ch WALL = true → ch = WALL) ∧
      (has ch WALL = false →
        (has ch BOX = true ∧ has ch WORKER = false ∧ has ch SPACE = false) ∨
        (has ch BOX = false ∧ has ch WORKER = true ∧ has ch SPACE = false) ∨
        (has ch BOX = false ∧ has ch WORKER = false ∧ has ch SPACE = true))) ∧
    (StoresInMap s.l direction →
      (∀ r c : Int, InMap s'.l r c ↔ InMap s.l r c) ∧ CellsOK s'.l) ∧
    (∀ r c : Int, ¬ InMap s.l r c → peek s'.l r c ≠ peek s.l r c →
      peek s.l r c = some 0 ∧ ∀ c' : Int, peek s'.l r c' ≠ some 0) ∧
    NulLast s'.l := by
  obtain ⟨hq, hnl', hoff, hkeep⟩ := go_touchedOK s s' direction m hok hw hnl hgo
  refine ⟨?_, fun hst => ⟨hkeep hst, cellsOK_of_touched s.l s'.l hnl hq⟩, hoff, hnl'⟩
  intro r c ch hp h
  have h1 := hq r c ch hp h
  exact ⟨h1, cellOK_facts ch h1⟩

/-- Witness of C2: the ragged level `###` / `#@` / `###` loads as a board with
the cell invariants, the worker tracked and every line ending with its NUL; the
eastbound step stores the worker onto the terminating NUL of the middle line;
the byte written there is `WORKER` and satisfies the invariants, and the middle
line is left without NUL. -/
theorem C2_go_preserves_cell_invariants_witness :
    readLevel 24 10 (List.replicate 10 0) 1 raggedText 0 = some raggedRow ∧
      CellsOK raggedRow.l ∧ WorkerTracked raggedRow.l ∧ NulLast raggedRow.l ∧
      go raggedRow EAST = some (raggedRowStepped, 1) ∧
      peek raggedRow.l 1 2 = some 0 ∧
      peek raggedRowStepped.l 1 2 = some WORKER ∧
      cellOK WORKER = true ∧ ∀ c' : Int, peek raggedRowStepped.l 1 c' ≠ some 0 :=
  have h1 : CellsOK raggedRow.l := cellsOK_of_all _ (by decide)
  have h2 : WorkerTracked raggedRow.l := by unfold WorkerTracked; decide
  have h3 : NulLast raggedRow.l := by unfold NulLast; decide
  have h4 : go raggedRow EAST = some (raggedRowStepped, 1) := by decide
  have h5 : peek raggedRowStepped.l 1 2 = some WORKER := by decide
  have h6 := C2_go_preserves_cell_invariants raggedRow raggedRowStepped EAST 1 h1 h2 h3 h4
  ⟨by decide, h1, h2, h3, h4, by decide, h5,
    (h6.1 1 2 WORKER h5 (Or.inr (by decide))).1,
    (h6.2.2.1 1 2 (by unfold InMap; decide) (by decide)).2⟩
/-! ## Undoing one move -/

theorem slide_back (l : level) (r c sr sc : Int) (ch0 ch1 : Nat)
    (hwk : l.worker = rc2p r c) (hr0 : 0 ≤ r) (hr : r < 64) (hc0 : 0 ≤ c) (hc : c < 64)
    (hs : 0 ≤ sr ∧ sr < 64 ∧ 0 ≤ sc ∧ sc < 64)
    (hne : ¬ (r = sr ∧ c = sc)) (hp0 : peek l r c = some ch0) (hp1 : peek l sr sc = some ch1)
    (hw0 : has ch0 WORKER = true) (hs0 : has ch0 SPACE = false)
    (h1s : has ch1 SPACE = true) (h1b : has ch1 BOX = false) (h1w : has ch1 WORKER = false) :
    (moved l r c sr sc ch0 ch1).worker = rc2p sr sc ∧
    movePiece (moved l r c sr sc ch0 ch1) sr sc r c = some l := by
  have hdec : p2rc l.worker = (r, c) := by rw [hwk]; exact p2rc_rc2p r c hr0 hr hc0 hc
  have hwk1 : (moved l r c sr sc ch0 ch1).worker = rc2p sr sc := by
    rw [moved_worker, hdec]; simp
  have hdec1 : p2rc (moved l r c sr sc ch0 ch1).worker = (sr, sc) := by
    rw [hwk1]; exact p2rc_rc2p sr sc hs.1 hs.2.1 hs.2.2.1 hs.2.2.2
  have hq1 : peek (moved l r c sr sc ch0 ch1) sr sc = some (entered ch0 ch1) := by
    rw [peek_moved l r c sr sc sr sc ch0 ch1 hp0 hp1]; simp
  have hq0 : peek (moved l r c sr sc ch0 ch1) r c = some (vacated ch0) := by
    rw [peek_moved l r c sr sc r c ch0 ch1 hp0 hp1, if_neg hne]; simp
  have hne' : ¬ (sr = r ∧ sc = c) := fun e => hne ⟨e.1.symm, e.2.symm⟩
  have hmv := movePiece_distinct _ sr sc r c _ _ hq1 hq0 hne'
    (glyph_entered _ _ (Or.inr (by rw [(has_entered ch0 ch1).2.2.2.1]; exact hw0)))
  refine ⟨hwk1, ?_⟩
  rw [hmv]
  congr 1
  have f1 := moved_fields l r c sr sc ch0 ch1
  have f2 := moved_fields (moved l r c sr sc ch0 ch1) sr sc r c (entered ch0 ch1) (vacated ch0)
  apply level_ext
  · exact f2.1.trans f1.1
  · exact f2.2.1.trans f1.2.1
  · exact f2.2.2.1.trans f1.2.2.1
  · exact f2.2.2.2.1.trans f1.2.2.2.1
  · rw [moved_worker, hdec1]; simp only [and_self, if_true]; exact hwk.symm
  · exact f2.2.2.2.2.1.trans f1.2.2.2.2.1
  · exact f2.2.2.2.2.2.trans f1.2.2.2.2.2
  · intro x y
    rw [peek_moved _ sr sc r c x y _ _ hq1 hq0]
    by_cases e : x = r ∧ y = c
    · obtain ⟨rfl, rfl⟩ := e
      simp only [and_self, if_true]
      rw [entered_back ch0 ch1 hs0, hp0]
    · rw [if_neg e]
      by_cases e1 : x = sr ∧ y = sc
      · obtain ⟨rfl, rfl⟩ := e1
        simp only [and_self, if_true]
        rw [vacated_entered ch0 ch1 h1s h1b h1w, hp1]
      · rw [if_neg e1, peek_moved l r c sr sc x y ch0 ch1 hp0 hp1, if_neg e1, if_neg e]

theorem push_back (l : level) (r c gr gc br bc : Int) (ch0 chb ch2 : Nat)
    (hwk : l.worker = rc2p r c) (hr0 : 0 ≤ r) (hr : r < 64) (hc0 : 0 ≤ c) (hc : c < 64)
    (hg : 0 ≤ gr ∧ gr < 64 ∧ 0 ≤ gc ∧ gc < 64)
    (hne1 : ¬ (gr = br ∧ gc = bc)) (hne2 : ¬ (r = gr ∧ c = gc)) (hne3 : ¬ (r = br ∧ c = bc))
    (hp0 : peek l r c = some ch0) (hpg : peek l gr gc = some chb)
    (hpb : peek l br bc = some ch2)
    (hw0 : has ch0 WORKER = true) (hs0 : has ch0 SPACE = false)
    (hbb : has chb BOX = true) (hbs : has chb SPACE = false)
    (h2s : has ch2 SPACE = true) (h2b : has ch2 BOX = false) (h2w : has ch2 WORKER = false) :
    (moved (moved l gr gc br bc chb ch2) r c gr gc ch0 (vacated chb)).worker = rc2p gr gc ∧
    peek (moved (moved l gr gc br bc chb ch2) r c gr gc ch0 (vacated chb)) gr gc =
      some (entered ch0 (vacated chb)) ∧
    ∃ l3, movePiece (moved (moved l gr gc br bc chb ch2) r c gr gc ch0 (vacated chb))
        gr gc r c = some l3 ∧
      movePiece l3 br bc gr gc = some l := by
  have hdec : p2rc l.worker = (r, c) := by rw [hwk]; exact p2rc_rc2p r c hr0 hr hc0 hc
  have hne2' : ¬ (gr = r ∧ gc = c) := fun e => hne2 ⟨e.1.symm, e.2.symm⟩
  have hne3' : ¬ (br = r ∧ bc = c) := fun e => hne3 ⟨e.1.symm, e.2.symm⟩
  have hne1' : ¬ (br = gr ∧ bc = gc) := fun e => hne1 ⟨e.1.symm, e.2.symm⟩
  -- after the box move
  have hwk1 : (moved l gr gc br bc chb ch2).worker = rc2p r c := by
    rw [moved_worker, hdec, if_neg hne2']; exact hwk
  have hdec1 : p2rc (moved l gr gc br bc chb ch2).worker = (r, c) := by
    rw [hwk1]; exact p2rc_rc2p r c hr0 hr hc0 hc
  have ha0 : peek (moved l gr gc br bc chb ch2) r c = some ch0 := by
    rw [peek_moved l gr gc br bc r c chb ch2 hpg hpb, if_neg hne3, if_neg hne2, hp0]
  have hag : peek (moved l gr gc br bc chb ch2) gr gc = some (vacated chb) := by
    rw [peek_moved l gr gc br bc gr gc chb ch2 hpg hpb, if_neg hne1]; simp
  have hab : peek (moved l gr gc br bc chb ch2) br bc = some (entered chb ch2) := by
    rw [peek_moved l gr gc br bc br bc chb ch2 hpg hpb]; simp
  -- after the worker move
  have hwk2 : (moved (moved l gr gc br bc chb ch2) r c gr gc ch0 (vacated chb)).worker =
      rc2p gr gc := by
    rw [moved_worker, hdec1]; simp
  have hdec2 : p2rc (moved (moved l gr gc br bc chb ch2) r c gr gc ch0 (vacated chb)).worker =
      (gr, gc) := by
    rw [hwk2]; exact p2rc_rc2p gr gc hg.1 hg.2.1 hg.2.2.1 hg.2.2.2
  have hbg : peek (moved (moved l gr gc br bc chb ch2) r c gr gc ch0 (vacated chb)) gr gc =
      some (entered ch0 (vacated chb)) := by
    rw [peek_moved _ r c gr gc gr gc ch0 _ ha0 hag]; simp
  have hb0 : peek (moved (moved l gr gc br bc chb ch2) r c gr gc ch0 (vacated chb)) r c =
      some (vacated ch0) := by
    rw [peek_moved _ r c gr gc r c ch0 _ ha0 hag, if_neg hne2]; simp
  have hbb' : peek (moved (moved l gr gc br bc chb ch2) r c gr gc ch0 (vacated chb)) br bc =
      some (entered chb ch2) := by
    rw [peek_moved _ r c gr gc br bc ch0 _ ha0 hag, if_neg hne1', if_neg hne3', hab]
  -- undo: the worker goes back
  have hmv3 := movePiece_distinct _ gr gc r c _ _ hbg hb0 hne2'
    (glyph_entered _ _ (Or.inr (by rw [(has_entered ch0 (vacated chb)).2.2.2.1]; exact hw0)))
  have hwk3 : (moved (moved (moved l gr gc br bc chb ch2) r c gr gc ch0 (vacated chb))
      gr gc r c (entered ch0 (vacated chb)) (vacated ch0)).worker = rc2p r c := by
    rw [moved_worker, hdec2]; simp
  have hdec3 : p2rc (moved (moved (moved l gr gc br bc chb ch2) r c gr gc ch0 (vacated chb))
      gr gc r c (entered ch0 (vacated chb)) (vacated ch0)).worker = (r, c) := by
    rw [hwk3]; exact p2rc_rc2p r c hr0 hr hc0 hc
  have hcb : peek (moved (moved (moved l gr gc br bc chb ch2) r c gr gc ch0 (vacated chb))
      gr gc r c (entered ch0 (vacated chb)) (vacated ch0)) br bc = some (entered chb ch2) := by
    rw [peek_moved _ gr gc r c br bc _ _ hbg hb0, if_neg hne3', if_neg hne1', hbb']
  have hcg : peek (moved (moved (moved l gr gc br bc chb ch2) r c gr gc ch0 (vacated chb))
      gr gc r c (entered ch0 (vacated chb)) (vacated ch0)) gr gc =
      some (vacated (entered ch0 (vacated chb))) := by
    rw [peek_moved _ gr gc r c gr gc _ _ hbg hb0, if_neg hne2']; simp
  -- undo: the box is pulled back
  have hmv4 := movePiece_distinct _ br bc gr gc _ _ hcb hcg hne1'
    (glyph_entered _ _ (Or.inl (by rw [(has_entered chb ch2).2.1]; exact hbb)))
  refine ⟨hwk2, hbg, _, hmv3, ?_⟩
  rw [hmv4]
  congr 1
  have f1 := moved_fields l gr gc br bc chb ch2
  have f2 := moved_fields (moved l gr gc br bc chb ch2) r c gr gc ch0 (vacated chb)
  have f3 := moved_fields (moved (moved l gr gc br bc chb ch2) r c gr gc ch0 (vacated chb))
    gr gc r c (entered ch0 (vacated chb)) (vacated ch0)
  have f4 := moved_fields (moved (moved (moved l gr gc br bc chb ch2) r c gr gc ch0
    (vacated chb)) gr gc r c (entered ch0 (vacated chb)) (vacated ch0)) br bc gr gc
    (entered chb ch2) (vacated (entered ch0 (vacated chb)))
  apply level_ext
  · exact f4.1.trans (f3.1.trans (f2.1.trans f1.1))
  · exact f4.2.1.trans (f3.2.1.trans (f2.2.1.trans f1.2.1))
  · exact f4.2.2.1.trans (f3.2.2.1.trans (f2.2.2.1.trans f1.2.2.1))
  · exact f4.2.2.2.1.trans (f3.2.2.2.1.trans (f2.2.2.2.1.trans f1.2.2.2.1))
  · rw [moved_worker, hdec3, if_neg hne3', hwk3]; exact hwk.symm
  · exact f4.2.2.2.2.1.trans (f3.2.2.2.2.1.trans (f2.2.2.2.2.1.trans f1.2.2.2.2.1))
  · exact f4.2.2.2.2.2.trans (f3.2.2.2.2.2.trans (f2.2.2.2.2.2.trans f1.2.2.2.2.2))
  · intro x y
    rw [peek_moved _ br bc gr gc x y _ _ hcb hcg]
    by_cases eg : x = gr ∧ y = gc
    · obtain ⟨rfl, rfl⟩ := eg
      simp only [and_self, if_true]
      rw [entered_pull ch0 chb ch2 hbs, hpg]
    · rw [if_neg eg]
      by_cases eb : x = br ∧ y = bc
      · obtain ⟨rfl, rfl⟩ := eb
        simp only [and_self, if_true]
        rw [vacated_entered chb ch2 h2s h2b h2w, hpb]
      · rw [if_neg eb, peek_moved _ gr gc r c x y _ _ hbg hb0]
        by_cases e0 : x = r ∧ y = c
        · obtain ⟨rfl, rfl⟩ := e0
          simp only [and_self, if_true]
          rw [entered_back ch0 (vacated chb) hs0, hp0]
        · rw [if_neg e0, if_neg eg, peek_moved _ r c gr gc x y ch0 _ ha0 hag, if_neg eg,
            if_neg e0, peek_moved l gr gc br bc x y chb ch2 hpg hpb, if_neg eb, if_neg eg]

theorem workerTracked_of_at (l : level) (r c : Int) (hw : WorkerAt l r c) :
    WorkerTracked l := by
  obtain ⟨hwk, hr0, hr, hc0, hc, hw0⟩ := hw
  have hdec : p2rc l.worker = (r, c) := by rw [hwk]; exact p2rc_rc2p r c hr0 hr hc0 hc
  unfold WorkerTracked
  rw [hdec]; exact hw0

/-- After a `go` that returned 1 on a well-formed board within 64 × 64 and stored
inside the map, the board is again well formed, the stack holds one more entry, and `undo` on any session
with that board, that top and that top entry brings back the board, `UndoTop`
and `MoveCount` of before the move. -/
theorem go_undo_step (s s1 : session) (d r c : Int) (hok : CellsOK s.l)
    (h64 : Within64 s.l) (hw : WorkerAt s.l r c) (hst : StoresInMap s.l d)
    (hgo : go s d = some (s1, 1)) :
    CellsOK s1.l ∧ Within64 s1.l ∧ (∃ r1 c1, WorkerAt s1.l r1 c1) ∧
    s1.UndoTop = s.UndoTop + 1 ∧ s1.MoveCount = s.MoveCount + 1 ∧ 0 ≤ s1.UndoTop ∧
    (∃ p, s1.UndoStack[s1.UndoTop.toNat]? = some p) ∧
    (∀ i : Nat, (i : Int) ≤ s.UndoTop → i < s.UndoStack.length →
      s1.UndoStack[i]? = s.UndoStack[i]?) ∧
    (∀ t : session, t.l = s1.l → t.UndoTop = s1.UndoTop → t.MoveCount = s1.MoveCount →
      t.UndoStack[s1.UndoTop.toNat]? = s1.UndoStack[s1.UndoTop.toNat]? →
      ∃ t', undo t = some (t', 1) ∧ t'.l = s.l ∧ t'.UndoTop = s.UndoTop ∧
        t'.MoveCount = s.MoveCount ∧ t'.UndoStack = t.UndoStack) := by
  obtain ⟨hwk, hr0, hr, hc0, hc, hw0'⟩ := hw
  have hinw := inMap_of_has_WORKER s.l r c hw0'
  obtain ⟨ch0, hg0⟩ : ∃ ch0, get s.l r c = ch0 := ⟨_, rfl⟩
  have hp0 : peek s.l r c = some ch0 := by rw [← hg0]; exact peek_inMap s.l r c hinw
  have hw0 : has ch0 WORKER = true := by rw [← hg0]; exact hw0'
  have hdec : p2rc s.l.worker = (r, c) := by rw [hwk]; exact p2rc_rc2p r c hr0 hr hc0 hc
  have hr1 : (p2rc s.l.worker).1 = r := by rw [hdec]
  have hc1 : (p2rc s.l.worker).2 = c := by rw [hdec]
  obtain ⟨hin1, hin2⟩ := hst
  rw [hr1, hc1] at hin1 hin2
  have hcw := cellOK_worker ch0 (cellOK_of_peek s.l hok r c ch0 hinw hp0) hw0
  rcases go_inv s s1 d 1 hgo with ⟨h01, _⟩ | ⟨_, hsp, l1, sp, hm, hpush, hs⟩ |
    ⟨_, hsp, hbx, hsp2, l1, l2, sp, hm1, hm2, hpush, hs⟩
  · exact absurd h01 (by decide)
  · -- slide
    rw [hr1, hc1] at hsp hm hpush
    obtain ⟨q1, q2, q3, q4, q5, q6⟩ := pushMove_inv _ _ _ hpush
    have q2' : sp.UndoTop = s.UndoTop + 1 := q2
    have q3' : sp.MoveCount = s.MoveCount := q3
    obtain ⟨x, ch1, hx, hp1, hl1⟩ := movePiece_inv _ _ _ _ _ _ hm
    rw [hp0] at hx
    simp only [Option.some.injEq] at hx
    subst hx
    have hina := hin1 hsp
    rw [get_of_peek s.l _ _ _ hina hp1] at hsp
    have hcs := cellOK_space ch1 (cellOK_of_peek s.l hok _ _ ch1 hina hp1) hsp
    have hea := entered_ne_zero ch0 ch1 (Or.inr hw0)
    have hok1 : CellsOK (moved s.l r c (r + deltaRow d) (c + deltaCol d) ch0 ch1) :=
      cellsOK_moved s.l hok _ _ _ _ ch0 ch1 hinw hina hcw.1 (Or.inr ⟨hcw.2.1, hw0⟩) hcs.1
    have hne : ¬ (r = r + deltaRow d ∧ c = c + deltaCol d) := by
      intro e
      rw [← e.1, ← e.2, hp0] at hp1
      simp only [Option.some.injEq] at hp1
      rw [← hp1, hcw.2.2] at hsp
      cases hsp
    have hb := inMap_lt64 s.l h64 _ _ hina
    obtain ⟨hwk1, hback⟩ := slide_back s.l r c _ _ ch0 ch1 hwk hr0 hr hc0 hc hb hne hp0 hp1
      hw0 hcw.2.2 hsp hcs.2.2 hcs.2.1
    have hl : s1.l = moved s.l r c (r + deltaRow d) (c + deltaCol d) ch0 ch1 := by
      rw [hs]; simp only [q1, hl1]
    have htop : s1.UndoTop = s.UndoTop + 1 := by rw [hs]; exact q2'
    have htop0 : 0 ≤ s.UndoTop + 1 := by rw [← q2']; exact q4
    have hent : s1.UndoStack[s1.UndoTop.toNat]? = some (rc2p r c) := by
      rw [hs]; simp only [q5]
    refine ⟨by rw [hl]; exact hok1, ?_, ⟨r + deltaRow d, c + deltaCol d, ?_⟩, htop, ?_, ?_,
      ⟨_, hent⟩, ?_, ?_⟩
    · rw [hl]; exact within64_moved s.l h64 _ _ _ _ _ _ hinw hina hea
    · rw [hl]
      refine ⟨hwk1, hb.1, hb.2.1, hb.2.2.1, hb.2.2.2, ?_⟩
      rw [get_moved s.l r c _ _ ch0 ch1 hinw hina hea]
      simp only [and_self, if_true]
      rw [(has_entered ch0 ch1).2.2.2.1]; exact hw0
    · rw [hs]; simp only [q3']
    · rw [htop]; exact htop0
    · intro i hi hlen
      rw [hs]
      exact q6 i hi hlen
    · intro t ht1 ht2 ht3 ht4
      have h0 : 0 ≤ t.UndoTop := by rw [ht2, htop]; omega
      have hp : t.UndoStack[t.UndoTop.toNat]? = some (rc2p r c) := by
        rw [ht2, ht4, hent]
      rw [undo_eq t _ h0 hp, ht1, hl, hwk1,
        p2rc_rc2p _ _ hb.1 hb.2.1 hb.2.2.1 hb.2.2.2, p2rc_rc2p r c hr0 hr hc0 hc]
      simp only [hback, Option.some_bind]
      have hpl := (p2rc_pull r c hr0 hr hc0 hc).2.2
      simp only [hpl, ne_eq, not_true_eq_false, if_false, Option.some_bind]
      refine ⟨_, rfl, rfl, ?_, ?_, rfl⟩
      · simp only [ht2, htop]; omega
      · simp only [ht3, hs, q3']; omega
  · -- push
    rw [hr1, hc1] at hsp hbx hsp2 hm1 hm2 hpush
    obtain ⟨q1, q2, q3, q4, q5, q6⟩ := pushMove_inv _ _ _ hpush
    have q2' : sp.UndoTop = s.UndoTop + 1 := q2
    have q3' : sp.MoveCount = s.MoveCount := q3
    obtain ⟨chb, ch2, hpg, hpb, hl1⟩ := movePiece_inv _ _ _ _ _ _ hm1
    obtain ⟨x, y, hx, hy, hl2⟩ := movePiece_inv _ _ _ _ _ _ hm2
    have hing := inMap_of_has_BOX s.l _ _ hbx
    have hinb := hin2 hbx hsp2
    rw [get_of_peek s.l _ _ _ hing hpg] at hbx hsp
    rw [get_of_peek s.l _ _ _ hinb hpb] at hsp2
    have hcb := cellOK_box chb (cellOK_of_peek s.l hok _ _ chb hing hpg) hbx
    have hcs := cellOK_space ch2 (cellOK_of_peek s.l hok _ _ ch2 hinb hpb) hsp2
    have heb := entered_ne_zero chb ch2 (Or.inl hbx)
    have heg := entered_ne_zero ch0 (vacated chb) (Or.inr hw0)
    have hinw1 := (inMap_moved s.l _ _ _ _ chb ch2 hing hinb heb r c).2 hinw
    have hing1 := (inMap_moved s.l _ _ _ _ chb ch2 hing hinb heb (r + deltaRow d)
      (c + deltaCol d)).2 hing
    have hok1 := cellsOK_moved s.l hok _ _ _ _ chb ch2 hing hinb hcb.1
      (Or.inl ⟨hbx, hcb.2.1⟩) hcs.1
    have hok2 := cellsOK_moved _ hok1 r c (r + deltaRow d) (c + deltaCol d) ch0 (vacated chb)
      hinw1 hing1 hcw.1 (Or.inr ⟨hcw.2.1, hw0⟩) (by rw [(has_vacated chb).1]; exact hcb.1)
    have hne2 : ¬ (r = r + deltaRow d ∧ c = c + deltaCol d) := by
      intro e
      rw [← e.1, ← e.2, hp0] at hpg
      simp only [Option.some.injEq] at hpg
      rw [← hpg, hcw.2.1] at hbx
      cases hbx
    have hdc := delta_cases d
    have hne1 : ¬ (r + deltaRow d = r + deltaRow d + deltaRow d ∧
        c + deltaCol d = c + deltaCol d + deltaCol d) := by omega
    have hne3 : ¬ (r = r + deltaRow d + deltaRow d ∧ c = c + deltaCol d + deltaCol d) := by
      omega
    have hx' := hx
    have hy' := hy
    rw [hl1, peek_moved s.l _ _ _ _ _ _ chb ch2 hpg hpb] at hx' hy'
    rw [if_neg hne3, if_neg hne2, hp0] at hx'
    rw [if_neg hne1] at hy'
    simp only [and_self, if_true, Option.some.injEq] at hx' hy'
    subst hx' hy'
    have hg := inMap_lt64 s.l h64 _ _ hing
    obtain ⟨hwk2, hpk2, l3, hb1, hb2⟩ := push_back s.l r c _ _ _ _ ch0 chb ch2 hwk hr0 hr hc0
      hc hg hne1 hne2 hne3 hp0 hpg hpb hw0 hcw.2.2 hbx hcb.2.2 hsp2 hcs.2.2 hcs.2.1
    have hl : s1.l = moved (moved s.l (r + deltaRow d) (c + deltaCol d)
        (r + deltaRow d + deltaRow d) (c + deltaCol d + deltaCol d) chb ch2) r c
        (r + deltaRow d) (c + deltaCol d) ch0 (vacated chb) := by
      rw [hs]; simp only [q1, hl2, hl1]
    have htop : s1.UndoTop = s.UndoTop + 1 := by rw [hs]; exact q2'
    have htop0 : 0 ≤ s.UndoTop + 1 := by rw [← q2']; exact q4
    have hent : s1.UndoStack[s1.UndoTop.toNat]? = some (Int.lor (rc2p r c) PULL) := by
      rw [hs]; simp only [q5]
    refine ⟨by rw [hl]; exact hok2, ?_, ⟨r + deltaRow d, c + deltaCol d, ?_⟩, htop, ?_, ?_,
      ⟨_, hent⟩, ?_, ?_⟩
    · rw [hl]
      exact within64_moved _ (within64_moved s.l h64 _ _ _ _ _ _ hing hinb heb) _ _ _ _ _ _
        hinw1 hing1 heg
    · rw [hl]
      refine ⟨hwk2, hg.1, hg.2.1, hg.2.2.1, hg.2.2.2, ?_⟩
      rw [get_moved _ r c _ _ ch0 (vacated chb) hinw1 hing1 heg]
      simp only [and_self, if_true]
      rw [(has_entered ch0 (vacated chb)).2.2.2.1]; exact hw0
    · rw [hs]; simp only [q3']
    · rw [htop]; exact htop0
    · intro i hi hlen
      rw [hs]
      exact q6 i hi hlen
    · intro t ht1 ht2 ht3 ht4
      have h0 : 0 ≤ t.UndoTop := by rw [ht2, htop]; omega
      have hp : t.UndoStack[t.UndoTop.toNat]? = some (Int.lor (rc2p r c) PULL) := by
        rw [ht2, ht4, hent]
      have hpl := p2rc_pull r c hr0 hr hc0 hc
      rw [undo_eq t _ h0 hp, ht1, hl, hwk2,
        p2rc_rc2p _ _ hg.1 hg.2.1 hg.2.2.1 hg.2.2.2, hpl.1]
      simp only [hb1, Option.some_bind, ne_eq, hpl.2.1, not_false_eq_true, if_true]
      have e1 : r + deltaRow d - (r - (r + deltaRow d)) = r + deltaRow d + deltaRow d := by
        omega
      have e2 : c + deltaCol d - (c - (c + deltaCol d)) = c + deltaCol d + deltaCol d := by
        omega
      rw [e1, e2, hb2]
      simp only [Option.some_bind]
      refine ⟨_, rfl, rfl, ?_, ?_, rfl⟩
      · simp only [ht2, htop]; omega
      · simp only [ht3, hs, q3']; omega

/-! ## Undoing a sequence of moves (C1) -/

theorem goOk_some (s s1 : session) (d : Int) (h : goOk s d = some s1) :
    go s d = some (s1, 1) := by
  unfold goOk at h
  cases hg : go s d with
  | none => rw [hg] at h; simp at h
  | some x =>
    rw [hg] at h
    simp only [Option.some_bind] at h
    by_cases h1 : x.2 = 1
    · simp only [h1, if_true, Option.some.injEq] at h
      rw [← h, ← h1]
    · simp [h1] at h

theorem undoOk_of (t t' : session) (h : undo t = some (t', 1)) : undoOk t = some t' := by
  unfold undoOk
  rw [h]
  simp

theorem goSeq_undoSeq (ds : List Int) :
    ∀ (s s' : session) (k : Int), CellsOK s.l → Within64 s.l → (∃ r c, WorkerAt s.l r c) →
      StepsInMap s ds → k ≤ s.UndoTop →
      (∀ i : Nat, k < (i : Int) → (i : Int) ≤ s.UndoTop → i < s.UndoStack.length) →
      goSeq s ds = some s' →
      ∃ s'', undoSeq s' ds.length = some s'' ∧ s''.l = s.l ∧ s''.UndoTop = s.UndoTop ∧
        s''.MoveCount = s.MoveCount ∧
        (∀ i : Nat, k < (i : Int) → (i : Int) ≤ s.UndoTop →
          s''.UndoStack[i]? = s.UndoStack[i]?) := by
  induction ds with
  | nil =>
    intro s s' k _ _ _ _ _ _ hgo
    simp only [goSeq, Option.some.injEq] at hgo
    subst hgo
    exact ⟨s, rfl, rfl, rfl, rfl, fun _ _ _ => rfl⟩
  | cons d ds ih =>
    intro s s' k hok h64 hw hsteps hk hinv hgo
    simp only [StepsInMap] at hsteps
    simp only [goSeq] at hgo
    cases hg : goOk s d with
    | none => rw [hg] at hgo; simp at hgo
    | some s1 =>
      rw [hg] at hgo hsteps
      simp only [Option.some_bind] at hgo
      obtain ⟨r, c, hwrc⟩ := hw
      obtain ⟨a1, a2, a3, a4, a5, a6, ⟨p, a7⟩, a8, a9⟩ :=
        go_undo_step s s1 d r c hok h64 hwrc hsteps.1 (goOk_some s s1 d hg)
      have htoplt : s1.UndoTop.toNat < s1.UndoStack.length := by
        obtain ⟨hlt, _⟩ := List.getElem?_eq_some.1 a7
        exact hlt
      have hinv1 : ∀ i : Nat, k < (i : Int) → (i : Int) ≤ s1.UndoTop →
          i < s1.UndoStack.length := by
        intro i hki hi
        by_cases hle : (i : Int) ≤ s.UndoTop
        · have hlen := hinv i hki hle
          have e := a8 i hle hlen
          rw [List.getElem?_eq_getElem hlen] at e
          obtain ⟨hlt, _⟩ := List.getElem?_eq_some.1 e
          exact hlt
        · have : i = s1.UndoTop.toNat := by omega
          rw [this]; exact htoplt
      obtain ⟨t, b1, b2, b3, b4, b5⟩ := ih s1 s' k a1 a2 a3 hsteps.2 (by omega) hinv1 hgo
      have hentry : t.UndoStack[s1.UndoTop.toNat]? = s1.UndoStack[s1.UndoTop.toNat]? := by
        apply b5
        · omega
        · omega
      obtain ⟨t', c1, c2, c3, c4, c5⟩ := a9 t b2 b3 b4 hentry
      refine ⟨t', ?_, c2, c3, c4, ?_⟩
      · show (undoSeq s' ds.length).bind undoOk = some t'
        rw [b1]
        exact undoOk_of t t' c1
      · intro i hki hi
        rw [c5, b5 i hki (by omega), a8 i hi (hinv i hki hi)]

/-- C1 (as amended): for every session whose board is well formed (cells satisfy
the cell invariants, map within 64 × 64, tracked position `rc2p r c` of a cell
carrying `WORKER`) and every sequence of directions in which each `go` call
returns 1 and stores inside the drawn map (the cell the worker enters and the
cell a pushed box enters are cells of the map), calling `undo` once per move
afterwards succeeds each time (returns 1) and restores the whole board, every
stored byte with all its flag bits and the tracked worker position, and returns
`UndoTop` and `MoveCount` to their original values. -/
theorem C1_undo_restores (s s' : session) (ds : List Int) (r c : Int) (hok : CellsOK s.l)
    (h64 : Within64 s.l) (hw : WorkerAt s.l r c) (hsteps : StepsInMap s ds)
    (hgo : goSeq s ds = some s') :
    ∃ s'', undoSeq s' ds.length = some s'' ∧ s''.l = s.l ∧ s''.UndoTop = s.UndoTop ∧
      s''.MoveCount = s.MoveCount := by
  obtain ⟨s'', h1, h2, h3, h4, _⟩ := goSeq_undoSeq ds s s' s.UndoTop hok h64 ⟨r, c, hw⟩
    hsteps (le_refl _) (fun i h1 h2 => absurd h2 (by omega)) hgo
  exact ⟨s'', h1, h2, h3, h4⟩

/-- Witness of C1: on `#@$.#` the moves east (a push) and west (a slide) both
return 1 and store inside the map, and two undos bring back the board, `UndoTop`
and `MoveCount`. -/
theorem C1_undo_restores_witness :
    CellsOK boxAhead.l ∧ Within64 boxAhead.l ∧ WorkerAt boxAhead.l 1 1 ∧
      StepsInMap boxAhead [EAST, WEST] ∧
      goSeq boxAhead [EAST, WEST] = some boxAheadThere ∧
      ∃ s'', undoSeq boxAheadThere [EAST, WEST].length = some s'' ∧ s''.l = boxAhead.l ∧
        s''.UndoTop = boxAhead.UndoTop ∧ s''.MoveCount = boxAhead.MoveCount :=
  have h1 : CellsOK boxAhead.l := cellsOK_of_all _ (by decide)
  have h2 : Within64 boxAhead.l := ⟨by decide, by decide⟩
  have h3 : WorkerAt boxAhead.l 1 1 :=
    ⟨by decide, by decide, by decide, by decide, by decide, by decide⟩
  have h4 : goSeq boxAhead [EAST, WEST] = some boxAheadThere := by decide
  have h5 : StepsInMap boxAhead [EAST, WEST] := by
    have e1 : goOk boxAhead EAST = some boxAheadPushed := by decide
    have e2 : goOk boxAheadPushed WEST = some boxAheadThere := by decide
    simp only [StepsInMap, e1, e2]
    unfold StoresInMap InMap
    decide
  ⟨h1, h2, h3, h5, h4,
    C1_undo_restores boxAhead boxAheadThere [EAST, WEST] 1 1 h1 h2 h3 h5 h4⟩

/-- Counterexample to C1 as stated: on a board 65 columns wide the worker slides
east from column 63 to column 64 and `go` returns 1; the tracked position then
decodes to `[1,0]`, so the following `undo`, which also returns 1, moves the box
of line 1 instead of the worker and the board is not restored. -/
theorem C1_counterexample :
    (goSeq wideBoard [EAST]).map (fun s1 => p2rc s1.l.worker) = some (1, 0) ∧
      ((goSeq wideBoard [EAST]).bind fun s1 => undoSeq s1 1).map
        (fun s2 => (s2.l.pic, s2.UndoTop, s2.MoveCount)) =
        some ([List.replicate 63 SPACE ++ [BOX, WORKER, 0], [SPACE, 0]], -1, 0) ∧
      ((goSeq wideBoard [EAST]).bind fun s1 => undoSeq s1 1).map
        (fun s2 => decide (s2.l = wideBoard.l)) = some false := by
  decide

/-- A step onto the terminating NUL of a line is not undone byte by byte: on the
ragged map `###` / `#@` / `###` the eastbound `go` returns 1 with the worker
stored where the NUL of the middle line was, outside the drawn map; the
following `undo` returns 1 and leaves `SPACE` there, so the line is left without
its terminating NUL. -/
theorem nul_step_not_undone :
    ¬ StoresInMap raggedRow.l EAST ∧
      go raggedRow EAST = some (raggedRowStepped, 1) ∧
      (undo raggedRowStepped).map (fun x => (x.1.l.pic, x.1.l.worker, x.2)) =
        some ([[WALL, WALL, WALL, 0], [WALL, WORKER, SPACE], [WALL, WALL, WALL, 0]],
          rc2p 1 1, 1) := by
  refine ⟨?_, by decide, by decide⟩
  intro h
  have h1 := h.1 (by decide)
  revert h1
  unfold InMap
  decide
/-! ## `get` (C13) -/

/-- C13: for every board and every integer row and column, `get` returns exactly
`SPACE` when `row < 0`, `col < 0`, `row ≥ rows` or `col` is at or past the length
(`strlen`) of line `row`; otherwise it returns the byte stored in that cell,
unchanged.  `get` is a function of the board alone: it has a value for every
argument and returns no new board. -/
theorem C13_get_reads_or_space (l : level) (row col : Int) :
    ((row < 0 ∨ col < 0 ∨ row ≥ l.rows ∨
        col ≥ (strlen (l.pic.getD row.toNat []) : Int)) → get l row col = SPACE) ∧
    (¬ (row < 0 ∨ col < 0 ∨ row ≥ l.rows ∨
        col ≥ (strlen (l.pic.getD row.toNat []) : Int)) →
      peek l row col = some (get l row col)) := by
  constructor
  · intro h
    apply get_outside
    intro hin
    have := hin.1; have := hin.2.1; have := hin.2.2.1; have := hin.2.2.2
    omega
  · intro h
    apply peek_inMap
    exact ⟨by omega, by omega, by omega, by omega⟩

/-! ## `movePiece` (C11, C12) -/

theorem movePiece_inMap (l : level) (r0 c0 r1 c1 : Int) (h0 : InMap l r0 c0)
    (h1 : InMap l r1 c1) (hne : ¬ (r0 = r1 ∧ c0 = c1))
    (hpaint : has (get l r0 c0) BOX = true ∨ has (get l r0 c0) WORKER = true ∨
      has (get l r1 c1) WALL = true ∨ has (get l r1 c1) STORE = true) :
    movePiece l r0 c0 r1 c1 = some (moved l r0 c0 r1 c1 (get l r0 c0) (get l r1 c1)) := by
  apply movePiece_distinct l r0 c0 r1 c1 _ _ (peek_inMap l r0 c0 h0) (peek_inMap l r1 c1 h1) hne
  obtain ⟨a1, a2, a3, a4, _, _⟩ := has_entered (get l r0 c0) (get l r1 c1)
  apply selectGlyph_isSome
  rcases hpaint with h | h | h | h
  · exact Or.inr (Or.inr (Or.inl (by rw [a2]; exact h)))
  · exact Or.inr (Or.inl (by rw [a4]; exact h))
  · exact Or.inl (by rw [a1]; exact h)
  · exact Or.inr (Or.inr (Or.inr (Or.inl (by rw [a3]; exact h))))

/-- C11 (as amended): for every board and every two distinct in-map cells
`[r0,c0]` and `[r1,c1]` (below 64 or not) such that the source carries
`BOX` or `WORKER` or the destination carries `WALL` or `STORE`, `movePiece` returns
and produces: source = `SPACE | (old source with BOX and WORKER cleared)`;
destination = `(old destination with SPACE, BOX, WORKER cleared) | (old source's
BOX/WORKER bits)`; every other stored byte, the line count and all other fields
unchanged; and the tracked worker position is `rc2p r1 c1` if it decoded to
`[r0,c0]` beforehand and is unchanged otherwise. -/
theorem C11_movePiece_effect (l : level) (r0 c0 r1 c1 : Int) (h0 : InMap l r0 c0)
    (h1 : InMap l r1 c1) (hne : ¬ (r0 = r1 ∧ c0 = c1))
    (hpaint : has (get l r0 c0) BOX = true ∨ has (get l r0 c0) WORKER = true ∨
      has (get l r1 c1) WALL = true ∨ has (get l r1 c1) STORE = true) :
    ∃ l', movePiece l r0 c0 r1 c1 = some l' ∧
      peek l' r0 c0 = some (SPACE ||| clearBits (get l r0 c0) (BOX ||| WORKER)) ∧
      peek l' r1 c1 = some (clearBits (get l r1 c1) (SPACE ||| BOX ||| WORKER) |||
        (get l r0 c0 &&& (BOX ||| WORKER))) ∧
      (∀ r c : Int, ¬ (r = r0 ∧ c = c0) → ¬ (r = r1 ∧ c = c1) → peek l' r c = peek l r c) ∧
      l'.worker = (if p2rc l.worker = (r0, c0) then rc2p r1 c1 else l.worker) ∧
      l'.pic.length = l.pic.length ∧ l'.cols = l.cols ∧ l'.levelNumber = l.levelNumber ∧
      l'.top = l.top ∧ l'.left = l.left ∧ l'.startTime = l.startTime := by
  have hp0 := peek_inMap l r0 c0 h0
  have hp1 := peek_inMap l r1 c1 h1
  have hm := peek_moved l r0 c0 r1 c1
  have hf := moved_fields l r0 c0 r1 c1 (get l r0 c0) (get l r1 c1)
  refine ⟨_, movePiece_inMap l r0 c0 r1 c1 h0 h1 hne hpaint, ?_, ?_, ?_, ?_, hf.2.2.2.2.2,
    hf.2.1, hf.1, hf.2.2.1, hf.2.2.2.1, hf.2.2.2.2.1⟩
  · rw [hm r0 c0 _ _ hp0 hp1, if_neg hne]
    simp only [and_self, if_true]
    rfl
  · rw [hm r1 c1 _ _ hp0 hp1]
    simp only [and_self, if_true]
    rfl
  · intro r c e0 e1
    rw [hm r c _ _ hp0 hp1, if_neg e1, if_neg e0]
  · rw [moved_worker]
    by_cases e : r0 = (p2rc l.worker).1 ∧ c0 = (p2rc l.worker).2
    · have e' : p2rc l.worker = (r0, c0) := by rw [e.1, e.2]
      rw [if_pos e, if_pos e']
    · have e' : ¬ p2rc l.worker = (r0, c0) := by
        intro h; apply e; rw [h]; exact ⟨rfl, rfl⟩
      rw [if_neg e, if_neg e']

/-- Witness of C11: on `#@ .#` the piece at `[0,1]` (the worker) is moved to the
floor cell `[0,2]`. -/
theorem C11_movePiece_effect_witness :
    InMap floorAhead.l 0 1 ∧ InMap floorAhead.l 0 2 ∧
      ∃ l', movePiece floorAhead.l 0 1 0 2 = some l' ∧
        peek l' 0 1 = some (SPACE ||| clearBits (get floorAhead.l 0 1) (BOX ||| WORKER)) ∧
        l'.worker = (if p2rc floorAhead.l.worker = (0, 1) then rc2p 0 2
          else floorAhead.l.worker) :=
  have h0 : InMap floorAhead.l 0 1 := ⟨by decide, by decide, by decide, by decide⟩
  have h1 : InMap floorAhead.l 0 2 := ⟨by decide, by decide, by decide, by decide⟩
  ⟨h0, h1,
    (C11_movePiece_effect floorAhead.l 0 1 0 2 h0 h1 (by decide)
      (Or.inr (Or.inl (by decide)))).elim
      fun l' h => ⟨l', h.1, h.2.1, h.2.2.2.2.1⟩⟩

/-- Counterexample to C11 as stated: both cells of the line of two floor cells are
in the map and distinct, but moving the (absent) piece of `[0,0]` to `[0,1]` stores
the byte 0 at the destination and the `assert` of `update` fails: `movePiece`
does not return. -/
theorem C11_counterexample :
    InMap twoFloor 0 0 ∧ InMap twoFloor 0 1 ∧
      entered (get twoFloor 0 0) (get twoFloor 0 1) = 0 ∧ selectGlyph 0 = none ∧
      movePiece twoFloor 0 0 0 1 = none :=
  ⟨⟨by decide, by decide, by decide, by decide⟩, ⟨by decide, by decide, by decide, by decide⟩,
    by decide, by decide, by decide⟩

/-- C12 (as amended): for every board and every two distinct in-map cells
`A = [r0,c0]` and `B = [r1,c1]` where `A` holds exactly one occupant among
`BOX`/`WORKER` (and no `SPACE`) and `B` holds `SPACE` (and no `BOX`/`WORKER`),
`movePiece` from `A` to `B` followed by `movePiece` from `B` to `A` both return and
restore every stored byte of the board, the flags of both cells with `STORE` and
`HILITE` included, and every field other than the tracked position; the tracked
worker position is restored as well when it is `rc2p r0 c0` with the coordinates
of `A` and `B` in `[0,64)`, or when it decodes to neither `A` nor `B`. -/
theorem C12_movePiece_round_trip (l : level) (r0 c0 r1 c1 : Int) (h0 : InMap l r0 c0)
    (h1 : InMap l r1 c1) (hne : ¬ (r0 = r1 ∧ c0 = c1))
    (hA : (has (get l r0 c0) BOX = true ∧ has (get l r0 c0) WORKER = false) ∨
      (has (get l r0 c0) BOX = false ∧ has (get l r0 c0) WORKER = true))
    (hAs : has (get l r0 c0) SPACE = false)
    (hB : has (get l r1 c1) SPACE = true ∧ has (get l r1 c1) BOX = false ∧
      has (get l r1 c1) WORKER = false) :
    ∃ l1 l2, movePiece l r0 c0 r1 c1 = some l1 ∧ movePiece l1 r1 c1 r0 c0 = some l2 ∧
      (∀ r c : Int, peek l2 r c = peek l r c) ∧
      { l2 with worker := l.worker } = l ∧
      (((l.worker = rc2p r0 c0 ∧ r0 < 64 ∧ c0 < 64 ∧ r1 < 64 ∧ c1 < 64) ∨
          (¬ p2rc l.worker = (r0, c0) ∧ ¬ p2rc l.worker = (r1, c1))) → l2 = l) := by
  have hp0 := peek_inMap l r0 c0 h0
  have hp1 := peek_inMap l r1 c1 h1
  have hne' : ¬ (r1 = r0 ∧ c1 = c0) := fun e => hne ⟨e.1.symm, e.2.symm⟩
  have hocc : has (get l r0 c0) BOX = true ∨ has (get l r0 c0) WORKER = true := by
    rcases hA with h | h
    · exact Or.inl h.1
    · exact Or.inr h.2
  have hm1 := movePiece_distinct l r0 c0 r1 c1 _ _ hp0 hp1 hne (glyph_entered _ _ hocc)
  have hq1 : peek (moved l r0 c0 r1 c1 (get l r0 c0) (get l r1 c1)) r1 c1 =
      some (entered (get l r0 c0) (get l r1 c1)) := by
    rw [peek_moved l r0 c0 r1 c1 r1 c1 _ _ hp0 hp1]; simp
  have hq0 : peek (moved l r0 c0 r1 c1 (get l r0 c0) (get l r1 c1)) r0 c0 =
      some (vacated (get l r0 c0)) := by
    rw [peek_moved l r0 c0 r1 c1 r0 c0 _ _ hp0 hp1, if_neg hne]; simp
  have hocc2 : has (entered (get l r0 c0) (get l r1 c1)) BOX = true ∨
      has (entered (get l r0 c0) (get l r1 c1)) WORKER = true := by
    obtain ⟨_, a2, _, a4, _, _⟩ := has_entered (get l r0 c0) (get l r1 c1)
    rw [a2, a4]; exact hocc
  have hm2 := movePiece_distinct _ r1 c1 r0 c0 _ _ hq1 hq0 hne' (glyph_entered _ _ hocc2)
  have hcells : ∀ r c : Int, peek (moved (moved l r0 c0 r1 c1 (get l r0 c0) (get l r1 c1))
      r1 c1 r0 c0 (entered (get l r0 c0) (get l r1 c1)) (vacated (get l r0 c0))) r c =
      peek l r c := by
    intro x y
    rw [peek_moved _ r1 c1 r0 c0 x y _ _ hq1 hq0]
    by_cases e : x = r0 ∧ y = c0
    · obtain ⟨rfl, rfl⟩ := e
      simp only [and_self, if_true]
      rw [entered_back _ _ hAs, hp0]
    · rw [if_neg e]
      by_cases e1 : x = r1 ∧ y = c1
      · obtain ⟨rfl, rfl⟩ := e1
        simp only [and_self, if_true]
        rw [vacated_entered _ _ hB.1 hB.2.1 hB.2.2, hp1]
      · rw [if_neg e1, peek_moved l r0 c0 r1 c1 x y _ _ hp0 hp1, if_neg e1, if_neg e]
  have f1 := moved_fields l r0 c0 r1 c1 (get l r0 c0) (get l r1 c1)
  have f2 := moved_fields (moved l r0 c0 r1 c1 (get l r0 c0) (get l r1 c1)) r1 c1 r0 c0
    (entered (get l r0 c0) (get l r1 c1)) (vacated (get l r0 c0))
  refine ⟨_, _, hm1, hm2, hcells, ?_, ?_⟩
  · apply level_ext
    · exact f2.1.trans f1.1
    · exact f2.2.1.trans f1.2.1
    · exact f2.2.2.1.trans f1.2.2.1
    · exact f2.2.2.2.1.trans f1.2.2.2.1
    · rfl
    · exact f2.2.2.2.2.1.trans f1.2.2.2.2.1
    · exact f2.2.2.2.2.2.trans f1.2.2.2.2.2
    · intro r c; exact hcells r c
  · intro hw
    apply level_ext
    · exact f2.1.trans f1.1
    · exact f2.2.1.trans f1.2.1
    · exact f2.2.2.1.trans f1.2.2.1
    · exact f2.2.2.2.1.trans f1.2.2.2.1
    · rw [moved_worker, moved_worker]
      rcases hw with ⟨hwk, b1, b2, b3, b4⟩ | ⟨n0, n1⟩
      · have hdec : p2rc l.worker = (r0, c0) := by
          rw [hwk]; exact p2rc_rc2p r0 c0 h0.1 b1 h0.2.1 b2
        have hdec1 : p2rc (rc2p r1 c1) = (r1, c1) := p2rc_rc2p r1 c1 h1.1 b3 h1.2.1 b4
        rw [hdec]
        simp only [and_self, if_true]
        rw [hdec1]
        simp only [and_self, if_true]
        exact hwk.symm
      · have e0 : ¬ (r0 = (p2rc l.worker).1 ∧ c0 = (p2rc l.worker).2) := by
          intro e; apply n0; rw [e.1, e.2]
        rw [if_neg e0]
        have e1 : ¬ (r1 = (p2rc l.worker).1 ∧ c1 = (p2rc l.worker).2) := by
          intro e; apply n1; rw [e.1, e.2]
        rw [if_neg e1]
    · exact f2.2.2.2.2.1.trans f1.2.2.2.2.1
    · exact f2.2.2.2.2.2.trans f1.2.2.2.2.2
    · intro r c; exact hcells r c

/-- Witness of C12: on `#@ .#` the worker of `[0,1]` is moved to the floor cell
`[0,2]` and back; the board and the tracked position `rc2p 0 1` are restored. -/
theorem C12_movePiece_round_trip_witness :
    InMap floorAhead.l 0 1 ∧ InMap floorAhead.l 0 2 ∧
      ∃ l1 l2, movePiece floorAhead.l 0 1 0 2 = some l1 ∧ movePiece l1 0 2 0 1 = some l2 ∧
        l2 = floorAhead.l :=
  have h0 : InMap floorAhead.l 0 1 := ⟨by decide, by decide, by decide, by decide⟩
  have h1 : InMap floorAhead.l 0 2 := ⟨by decide, by decide, by decide, by decide⟩
  ⟨h0, h1,
    (C12_movePiece_round_trip floorAhead.l 0 1 0 2 h0 h1 (by decide)
      (Or.inr ⟨by decide, by decide⟩) (by decide) ⟨by decide, by decide, by decide⟩).elim
      fun l1 h => h.elim fun l2 h2 => ⟨l1, l2, h2.1, h2.2.1,
        h2.2.2.2.2 (Or.inl ⟨by decide, by decide, by decide, by decide, by decide⟩)⟩⟩

/-- Counterexample to C12 as stated: on the board 65 columns wide the cells
`A = [0,63]` (the tracked worker) and `B = [0,64]` (floor) are distinct and in the
map; moving `A` to `B` and back restores every byte, but the tracked position,
63 before, is left at 64: after the first move it is `rc2p 0 64 = 64`, which decodes
to `[1,0]`, so the second move does not recognise the worker. -/
theorem C12_counterexample :
    InMap wideBoard.l 0 63 ∧ InMap wideBoard.l 0 64 ∧
      has (get wideBoard.l 0 63) WORKER = true ∧ has (get wideBoard.l 0 64) SPACE = true ∧
      wideBoard.l.worker = 63 ∧
      ((movePiece wideBoard.l 0 63 0 64).bind fun l1 => movePiece l1 0 64 0 63).map
        (fun l2 => (decide (l2.pic = wideBoard.l.pic), l2.worker)) = some (true, 64) :=
  ⟨⟨by decide, by decide, by decide, by decide⟩, ⟨by decide, by decide, by decide, by decide⟩,
    by decide, by decide, by decide, by decide⟩

/-! ## `undo` (C14) -/

/-- Outcome of `undo` read off its code. -/
theorem undo_inv (s s' : session) (m : Int) (h : undo s = some (s', m)) :
    (s.UndoTop < 0 ∧ m = 0 ∧ s' = s) ∨
    (0 ≤ s.UndoTop ∧ m = 1 ∧ s'.UndoTop = s.UndoTop - 1 ∧
      s'.MoveCount = s.MoveCount - 1 ∧ s'.UndoStack = s.UndoStack ∧
      s'.MaxUndo = s.MaxUndo ∧
      ∃ p l1, s.UndoStack[s.UndoTop.toNat]? = some p ∧
        movePiece s.l (p2rc s.l.worker).1 (p2rc s.l.worker).2 (p2rc p).1 (p2rc p).2 =
          some l1 ∧
        ((Int.land PULL p = 0 ∧ s'.l = l1) ∨
         (Int.land PULL p ≠ 0 ∧
          movePiece l1 ((p2rc s.l.worker).1 - ((p2rc p).1 - (p2rc s.l.worker).1))
            ((p2rc s.l.worker).2 - ((p2rc p).2 - (p2rc s.l.worker).2))
            (p2rc s.l.worker).1 (p2rc s.l.worker).2 = some s'.l))) := by
  by_cases hneg : s.UndoTop < 0
  · left
    unfold undo at h
    simp only [hneg, if_true, Option.some.injEq, Prod.mk.injEq] at h
    exact ⟨hneg, h.2.symm, h.1.symm⟩
  · right
    have h0 : 0 ≤ s.UndoTop := by omega
    cases hp : s.UndoStack[s.UndoTop.toNat]? with
    | none =>
      unfold undo at h
      simp [hneg, hp] at h
    | some p =>
      rw [undo_eq s p h0 hp] at h
      cases hm1 : movePiece s.l (p2rc s.l.worker).1 (p2rc s.l.worker).2 (p2rc p).1
          (p2rc p).2 with
      | none => rw [hm1] at h; simp at h
      | some l1 =>
        rw [hm1] at h
        simp only [Option.some_bind] at h
        by_cases hpull : Int.land PULL p = 0
        · simp only [hpull, ne_eq, not_true_eq_false, if_false, Option.some_bind,
            Option.some.injEq, Prod.mk.injEq] at h
          obtain ⟨hs, hm⟩ := h
          subst hs
          exact ⟨h0, hm.symm, rfl, rfl, rfl, rfl, p, l1, rfl, hm1, Or.inl ⟨hpull, rfl⟩⟩
        · simp only [ne_eq, hpull, not_false_eq_true, if_true] at h
          cases hm2 : movePiece l1 ((p2rc s.l.worker).1 - ((p2rc p).1 - (p2rc s.l.worker).1))
              ((p2rc s.l.worker).2 - ((p2rc p).2 - (p2rc s.l.worker).2))
              (p2rc s.l.worker).1 (p2rc s.l.worker).2 with
          | none => rw [hm2] at h; simp at h
          | some l2 =>
            rw [hm2] at h
            simp only [Option.some_bind, Option.some.injEq, Prod.mk.injEq] at h
            obtain ⟨hs, hm⟩ := h
            subst hs
            exact ⟨h0, hm.symm, rfl, rfl, rfl, rfl, p, l1, rfl, hm1, Or.inr ⟨hpull, hm2⟩⟩

/-- C14 (as amended): for every session, if the undo stack is empty
(`UndoTop < 0`) then `undo` returns 0 and leaves the board, the tracked worker
position, `UndoTop` and `MoveCount` unchanged; if the stack is non-empty and
`undo` returns, it returns 1, removes exactly the top entry (`UndoTop` one less,
the stack block untouched) and decrements `MoveCount` by exactly 1; and `undo`
does return 1, with that effect and with the board of before the move, in every
session left by a `go` that returned 1 on a well-formed board within 64 × 64 and
stored inside the drawn map (the cell the worker entered and the cell a pushed
box entered are cells of the map). -/
theorem C14_undo_empty_or_pop (s : session) :
    (s.UndoTop < 0 → undo s = some (s, 0)) ∧
    (0 ≤ s.UndoTop → ∀ s' m, undo s = some (s', m) →
      m = 1 ∧ s'.UndoTop = s.UndoTop - 1 ∧ s'.MoveCount = s.MoveCount - 1 ∧
      s'.UndoStack = s.UndoStack ∧ s'.MaxUndo = s.MaxUndo) ∧
    (∀ (s0 : session) (d r c : Int), CellsOK s0.l → Within64 s0.l → WorkerAt s0.l r c →
      StoresInMap s0.l d → go s0 d = some (s, 1) →
      0 ≤ s.UndoTop ∧ ∃ s', undo s = some (s', 1) ∧ s'.UndoTop = s.UndoTop - 1 ∧
        s'.MoveCount = s.MoveCount - 1 ∧ s'.UndoStack = s.UndoStack ∧ s'.l = s0.l) := by
  refine ⟨?_, ?_, ?_⟩
  · intro h
    unfold undo
    simp [h]
  · intro h0 s' m h
    rcases undo_inv s s' m h with ⟨hneg, _⟩ | ⟨_, a1, a2, a3, a4, a5, _⟩
    · omega
    · exact ⟨a1, a2, a3, a4, a5⟩
  · intro s0 d r c hok h64 hw hst hgo
    obtain ⟨_, _, _, b4, b5, b6, _, _, b9⟩ := go_undo_step s0 s d r c hok h64 hw hst hgo
    obtain ⟨t', c1, c2, c3, c4, c5⟩ := b9 s rfl rfl rfl rfl
    refine ⟨b6, t', c1, ?_, ?_, c5, c2⟩
    · rw [c3, b4]; omega
    · rw [c4, b5]; omega

/-- Counterexample to C14 as stated: on the single line 65 columns wide the slide
east from column 63 returns 1 and leaves one entry on the stack (`UndoTop = 0`),
with the tracked position 64 decoding to `[1,0]`; `undo` then reads `l->pic[1][0]`,
a line the board does not have, and does not return 1. -/
theorem C14_counterexample :
    (go wideLine EAST).map (fun x => (x.2, x.1.UndoTop, p2rc x.1.l.worker, x.1.l.pic.length)) =
        some (1, 0, (1, 0), 1) ∧
      ((go wideLine EAST).bind fun x => undo x.1) = none := by
  decide

/-- Witness of C14: on `#@$.#` the stack is empty and `undo` returns 0 with the
session as it is; after the push east, which stores inside the map, `undo`
returns 1, pops the entry and puts the board back. -/
theorem C14_undo_empty_or_pop_witness :
    boxAhead.UndoTop < 0 ∧ undo boxAhead = some (boxAhead, 0) ∧
      go boxAhead EAST = some (boxAheadPushed, 1) ∧ 0 ≤ boxAheadPushed.UndoTop ∧
      ∃ s', undo boxAheadPushed = some (s', 1) ∧
        s'.UndoTop = boxAheadPushed.UndoTop - 1 ∧
        s'.MoveCount = boxAheadPushed.MoveCount - 1 ∧ s'.l = boxAhead.l :=
  have hgo : go boxAhead EAST = some (boxAheadPushed, 1) := by decide
  have w := (C14_undo_empty_or_pop boxAheadPushed).2.2 boxAhead EAST 1 1
    (cellsOK_of_all _ (by decide)) ⟨by decide, by decide⟩
    ⟨by decide, by decide, by decide, by decide, by decide, by decide⟩
    (by unfold StoresInMap InMap; decide) hgo
  ⟨by decide, (C14_undo_empty_or_pop boxAhead).1 (by decide), hgo, w.1,
    w.2.elim fun s' h => ⟨s', h.1, h.2.1, h.2.2.1, h.2.2.2.2⟩⟩

/-! ## The move counter and the stack top (C15) -/

theorem go_counts (s s' : session) (d m : Int) (h : go s d = some (s', m)) :
    (m = 0 ∧ s' = s) ∨
    (m = 1 ∧ s'.UndoTop = s.UndoTop + 1 ∧ s'.MoveCount = s.MoveCount + 1) := by
  rcases go_inv s s' d m h with ⟨h0, hs, _⟩ | ⟨h1, _, l1, s1, _, hpush, hs⟩ |
    ⟨h1, _, _, _, l1, l2, s1, _, _, hpush, hs⟩
  · exact Or.inl ⟨h0, hs⟩
  · obtain ⟨_, q2, q3, _⟩ := pushMove_inv _ _ _ hpush
    have q2' : s1.UndoTop = s.UndoTop + 1 := q2
    have q3' : s1.MoveCount = s.MoveCount := q3
    refine Or.inr ⟨h1, ?_, ?_⟩
    · rw [hs]; exact q2'
    · rw [hs]; simp only [q3']
  · obtain ⟨_, q2, q3, _⟩ := pushMove_inv _ _ _ hpush
    have q2' : s1.UndoTop = s.UndoTop + 1 := q2
    have q3' : s1.MoveCount = s.MoveCount := q3
    refine Or.inr ⟨h1, ?_, ?_⟩
    · rw [hs]; exact q2'
    · rw [hs]; simp only [q3']

theorem go_lockstep (s s' : session) (d m : Int) (hinv : s.MoveCount = s.UndoTop + 1)
    (h : go s d = some (s', m)) : s'.MoveCount = s'.UndoTop + 1 := by
  rcases go_counts s s' d m h with ⟨_, hs⟩ | ⟨_, a, b⟩
  · rw [hs]; exact hinv
  · omega

theorem undo_lockstep (s s' : session) (m : Int) (hinv : s.MoveCount = s.UndoTop + 1)
    (h : undo s = some (s', m)) : s'.MoveCount = s'.UndoTop + 1 := by
  rcases undo_inv s s' m h with ⟨_, _, hs⟩ | ⟨_, _, a, b, _⟩
  · rw [hs]; exact hinv
  · omega

theorem applyOp_lockstep (s s' : session) (op : Op) (hinv : s.MoveCount = s.UndoTop + 1)
    (h : applyOp s op = some s') : s'.MoveCount = s'.UndoTop + 1 := by
  cases op with
  | move d =>
    simp only [applyOp, Option.map_eq_some'] at h
    obtain ⟨x, hx, rfl⟩ := h
    exact go_lockstep s x.1 d x.2 hinv hx
  | back =>
    simp only [applyOp, Option.map_eq_some'] at h
    obtain ⟨x, hx, rfl⟩ := h
    exact undo_lockstep s x.1 x.2 hinv hx

theorem applyOps_lockstep (ops : List Op) :
    ∀ s s' : session, s.MoveCount = s.UndoTop + 1 → applyOps s ops = some s' →
      s'.MoveCount = s'.UndoTop + 1 := by
  induction ops with
  | nil =>
    intro s s' hinv h
    simp only [applyOps, Option.some.injEq] at h
    rw [← h]; exact hinv
  | cons op ops ih =>
    intro s s' hinv h
    simp only [applyOps] at h
    cases h1 : applyOp s op with
    | none => rw [h1] at h; simp at h
    | some s1 =>
      rw [h1] at h
      simp only [Option.some_bind] at h
      exact ih s1 s' (applyOp_lockstep s s1 op hinv h1) h

theorem readLevel_reset (maxRows : Nat) (MaxUndo : Int) (UndoStack : List Int) (n : Int)
    (text : List (List Nat)) (now : Int) (s : session)
    (h : readLevel maxRows MaxUndo UndoStack n text now = some s) :
    s.UndoTop = -1 ∧ s.MoveCount = 0 := by
  unfold readLevel at h
  by_cases hbig : text.length > maxRows
  · simp [hbig] at h
  · simp only [hbig, if_false, Option.bind_eq_some] at h
    obtain ⟨l, _, hs⟩ := h
    simp only [Option.some.injEq] at hs
    rw [← hs]
    exact ⟨rfl, rfl⟩

/-- C15: the undo stack size equals the move counter in lock-step.
`MoveCount = UndoTop + 1` holds after the reset at the end of `readLevel`
(`UndoTop = -1`, `MoveCount = 0`); it is preserved by every `go` call (returning
1 or 0) and by every `undo` call (returning 1, or 0 on an empty stack); so it
holds in every session reached from a loaded level by any sequence of `go` and
`undo` calls. -/
theorem C15_movecount_lockstep :
    (∀ (maxRows : Nat) (MaxUndo : Int) (UndoStack : List Int) (n : Int)
        (text : List (List Nat)) (now : Int) (s : session),
        readLevel maxRows MaxUndo UndoStack n text now = some s →
        s.UndoTop = -1 ∧ s.MoveCount = 0 ∧ s.MoveCount = s.UndoTop + 1) ∧
    (∀ (s s' : session) (d m : Int), s.MoveCount = s.UndoTop + 1 →
        go s d = some (s', m) → s'.MoveCount = s'.UndoTop + 1) ∧
    (∀ (s s' : session) (m : Int), s.MoveCount = s.UndoTop + 1 →
        undo s = some (s', m) → s'.MoveCount = s'.UndoTop + 1) ∧
    (∀ (maxRows : Nat) (MaxUndo : Int) (UndoStack : List Int) (n : Int)
        (text : List (List Nat)) (now : Int) (s s' : session) (ops : List Op),
        readLevel maxRows MaxUndo UndoStack n text now = some s →
        applyOps s ops = some s' → s'.MoveCount = s'.UndoTop + 1) := by
  refine ⟨?_, go_lockstep, undo_lockstep, ?_⟩
  · intro maxRows MaxUndo UndoStack n text now s h
    obtain ⟨a, b⟩ := readLevel_reset maxRows MaxUndo UndoStack n text now s h
    exact ⟨a, b, by omega⟩
  · intro maxRows MaxUndo UndoStack n text now s s' ops h hops
    obtain ⟨a, b⟩ := readLevel_reset maxRows MaxUndo UndoStack n text now s h
    exact applyOps_lockstep ops s s' (by omega) hops

/-! ## The scenario of the three-line level (C18) -/

/-- C18: the level text `#####`, `#@$.#`, `#####` loads as walls, `WORKER` at
`[1,1]`, `BOX` at `[1,2]`, `STORE|SPACE` at `[1,3]`, tracked position `rc2p 1 1`,
empty undo stack and `MoveCount` 0.  On it `win` returns 0 before any move and
leaves the board as it is; `go` east returns 1 and leaves `[1,1] = SPACE`,
`[1,2] = WORKER`, `[1,3] = STORE|BOX`, tracked position `rc2p 1 2`, top undo entry
`rc2p 1 1 | PULL` and `MoveCount = 1`; `win` then returns 1 and sets `[1,3]` to
`STORE|BOX|HILITE`, every other cell staying as it was.  Every line is listed
with the terminating NUL of its buffer behind its five cells. -/
theorem C18_scenario_push_east_wins :
    readLevel 24 10 (List.replicate 10 0) 1 scenarioText 0 = some boxAhead ∧
    boxAhead.l.pic = [[WALL, WALL, WALL, WALL, WALL, 0],
                      [WALL, WORKER, BOX, STORE ||| SPACE, WALL, 0],
                      [WALL, WALL, WALL, WALL, WALL, 0]] ∧
    boxAhead.l.worker = rc2p 1 1 ∧ boxAhead.UndoTop = -1 ∧ boxAhead.MoveCount = 0 ∧
    win boxAhead.l = some (boxAhead.l, 0) ∧
    ∃ s1, go boxAhead EAST = some (s1, 1) ∧
      s1.l.pic = [[WALL, WALL, WALL, WALL, WALL, 0],
                  [WALL, SPACE, WORKER, STORE ||| BOX, WALL, 0],
                  [WALL, WALL, WALL, WALL, WALL, 0]] ∧
      s1.l.worker = rc2p 1 2 ∧ s1.UndoTop = 0 ∧
      s1.UndoStack[s1.UndoTop.toNat]? = some (Int.lor (rc2p 1 1) PULL) ∧
      s1.MoveCount = 1 ∧
      ∃ l2, win s1.l = some (l2, 1) ∧
        l2.pic = [[WALL, WALL, WALL, WALL, WALL, 0],
                  [WALL, SPACE, WORKER, STORE ||| BOX ||| HILITE, WALL, 0],
                  [WALL, WALL, WALL, WALL, WALL, 0]] ∧
        l2.worker = rc2p 1 2 := by
  refine ⟨by decide, by decide, by decide, by decide, by decide, by decide,
    boxAheadPushed, by decide, by decide, by decide, by decide, by decide, by decide,
    boxAheadWon, by decide, by decide, by decide⟩

/-- Witness of C15: the scenario level loads, and after a push east, two undo
calls (the second on an empty stack) and a blocked move west the counter still
equals the stack size. -/
theorem C15_movecount_lockstep_witness :
    readLevel 24 10 (List.replicate 10 0) 1 scenarioText 0 = some boxAhead ∧
      ∃ s', applyOps boxAhead [Op.move EAST, Op.back, Op.back, Op.move WEST] = some s' ∧
        s'.MoveCount = s'.UndoTop + 1 := by
  have hload : readLevel 24 10 (List.replicate 10 0) 1 scenarioText 0 = some boxAhead := by
    decide
  have hne : (applyOps boxAhead [Op.move EAST, Op.back, Op.back, Op.move WEST]).isSome
      = true := by decide
  obtain ⟨s', hs'⟩ := Option.isSome_iff_exists.1 hne
  exact ⟨hload, s', hs', C15_movecount_lockstep.2.2.2 _ _ _ _ _ _ _ _ _ hload hs'⟩

/-! ## `STORE` and `HILITE` are never changed by a move (C17) -/

theorem movePiece_overlay (l l' : level) (r0 c0 r1 c1 : Int)
    (h : movePiece l r0 c0 r1 c1 = some l') (r c : Int) :
    flagAt l' STORE r c = flagAt l STORE r c ∧ flagAt l' HILITE r c = flagAt l HILITE r c ∧
    flagAt l' WALL r c = flagAt l WALL r c := by
  obtain ⟨ch0, ch1, hp0, hp1, hl⟩ := movePiece_inv l l' r0 c0 r1 c1 h
  unfold flagAt
  rw [hl, peek_moved l r0 c0 r1 c1 r c ch0 ch1 hp0 hp1]
  by_cases e1 : r = r1 ∧ c = c1
  · obtain ⟨rfl, rfl⟩ := e1
    simp only [and_self, if_true, hp1, Option.map_some']
    obtain ⟨a1, _, a3, _, _, a6⟩ := has_entered ch0 ch1
    rw [a1, a3, a6]
    exact ⟨rfl, rfl, rfl⟩
  · rw [if_neg e1]
    by_cases e0 : r = r0 ∧ c = c0
    · obtain ⟨rfl, rfl⟩ := e0
      simp only [and_self, if_true, hp0, Option.map_some']
      obtain ⟨a1, _, a3, _, _, a6⟩ := has_vacated ch0
      rw [a1, a3, a6]
      exact ⟨rfl, rfl, rfl⟩
    · rw [if_neg e0]
      exact ⟨rfl, rfl, rfl⟩

theorem go_overlay (s s' : session) (d m : Int) (h : go s d = some (s', m)) (r c : Int) :
    flagAt s'.l STORE r c = flagAt s.l STORE r c ∧
    flagAt s'.l HILITE r c = flagAt s.l HILITE r c := by
  rcases go_inv s s' d m h with ⟨_, hs, _⟩ | ⟨_, _, l1, s1, hm, hpush, hs⟩ |
    ⟨_, _, _, _, l1, l2, s1, hm1, hm2, hpush, hs⟩
  · rw [hs]; exact ⟨rfl, rfl⟩
  · obtain ⟨q1, _⟩ := pushMove_inv _ _ _ hpush
    have q1' : s1.l = l1 := q1
    have e : s'.l = l1 := by rw [hs]; exact q1'
    rw [e]
    have a := movePiece_overlay _ _ _ _ _ _ hm r c
    exact ⟨a.1, a.2.1⟩
  · obtain ⟨q1, _⟩ := pushMove_inv _ _ _ hpush
    have q1' : s1.l = l2 := q1
    have e : s'.l = l2 := by rw [hs]; exact q1'
    rw [e]
    have a := movePiece_overlay _ _ _ _ _ _ hm1 r c
    have b := movePiece_overlay _ _ _ _ _ _ hm2 r c
    exact ⟨b.1.trans a.1, b.2.1.trans a.2.1⟩

theorem undo_overlay (s s' : session) (m : Int) (h : undo s = some (s', m)) (r c : Int) :
    flagAt s'.l STORE r c = flagAt s.l STORE r c ∧
    flagAt s'.l HILITE r c = flagAt s.l HILITE r c := by
  rcases undo_inv s s' m h with ⟨_, _, hs⟩ | ⟨_, _, _, _, _, _, p, l1, _, hm1, hrest⟩
  · rw [hs]; exact ⟨rfl, rfl⟩
  · have a := movePiece_overlay _ _ _ _ _ _ hm1 r c
    rcases hrest with ⟨_, e⟩ | ⟨_, hm2⟩
    · rw [e]; exact ⟨a.1, a.2.1⟩
    · have b := movePiece_overlay _ _ _ _ _ _ hm2 r c
      exact ⟨b.1.trans a.1, b.2.1.trans a.2.1⟩

theorem has_hilite_STORE (ch : Nat) : has (ch ||| HILITE) STORE = has ch STORE := by
  rw [has_STORE, has_STORE, tb_hilite]; simp

theorem win_inv (l l' : level) (v : Int) (h : win l = some (l', v)) :
    (v = 0 ∧ l' = l) ∨ (v = 1 ∧ ∃ D, MarkedBy l D l') := by
  rw [win_unfold] at h
  cases ha : anyUnstored l l.rows.toNat l.cols.toNat
  · rw [ha] at h
    obtain ⟨lk, e, mk⟩ := markedBy_all l l.cols.toNat l.rows.toNat
    rw [e] at h
    simp only [Bool.false_eq_true, if_false, Option.some_bind, Option.some.injEq,
      Prod.mk.injEq] at h
    right
    exact ⟨h.2.symm, _, h.1 ▸ mk⟩
  · rw [ha] at h
    simp only [if_true, Option.some.injEq, Prod.mk.injEq] at h
    exact Or.inl ⟨h.2.symm, h.1.symm⟩

theorem win_overlay (l l' : level) (v : Int) (h : win l = some (l', v)) (r c : Int) :
    flagAt l' STORE r c = flagAt l STORE r c := by
  rcases win_inv l l' v h with ⟨_, e⟩ | ⟨_, D, mk⟩
  · rw [e]
  · unfold flagAt
    rw [mk.2.2.2.2.2.2.2.1 r c]
    cases peek l r c with
    | none => rfl
    | some ch =>
      simp only [Option.map_some', Option.some.injEq]
      split
      · exact has_hilite_STORE ch
      · rfl

/-- C17: `STORE` is never cleared or newly set by gameplay.  For every board,
every direction and every cell, the `STORE` bit of the byte stored in that cell
is the same before and after `go`, before and after `undo`, and before and after
`win`, whatever they return; and `movePiece` preserves the `STORE` bit of its
source, of its destination and of every other cell for all inputs. -/
theorem C17_store_never_changes :
    (∀ (l l' : level) (r0 c0 r1 c1 : Int), movePiece l r0 c0 r1 c1 = some l' →
        ∀ r c : Int, flagAt l' STORE r c = flagAt l STORE r c) ∧
    (∀ (s s' : session) (d m : Int), go s d = some (s', m) →
        ∀ r c : Int, flagAt s'.l STORE r c = flagAt s.l STORE r c) ∧
    (∀ (s s' : session) (m : Int), undo s = some (s', m) →
        ∀ r c : Int, flagAt s'.l STORE r c = flagAt s.l STORE r c) ∧
    (∀ (l l' : level) (v : Int), win l = some (l', v) →
        ∀ r c : Int, flagAt l' STORE r c = flagAt l STORE r c) := by
  refine ⟨?_, ?_, ?_, ?_⟩
  · intro l l' r0 c0 r1 c1 h r c
    exact (movePiece_overlay l l' r0 c0 r1 c1 h r c).1
  · intro s s' d m h r c
    exact (go_overlay s s' d m h r c).1
  · intro s s' m h r c
    exact (undo_overlay s s' m h r c).1
  · intro l l' v h r c
    exact win_overlay l l' v h r c

/-- Witness of C17: on `#@$.#` the store `[1,3]` keeps its `STORE` bit through
the push east and through the winning `win`. -/
theorem C17_store_never_changes_witness :
    go boxAhead EAST = some (boxAheadPushed, 1) ∧
      flagAt boxAhead.l STORE 1 3 = some true ∧
      flagAt boxAheadPushed.l STORE 1 3 = flagAt boxAhead.l STORE 1 3 ∧
      win boxAheadPushed.l = some (boxAheadWon, 1) ∧
      flagAt boxAheadWon STORE 1 3 = flagAt boxAheadPushed.l STORE 1 3 :=
  have hgo : go boxAhead EAST = some (boxAheadPushed, 1) := by decide
  have hwin : win boxAheadPushed.l = some (boxAheadWon, 1) := by decide
  ⟨hgo, by decide, C17_store_never_changes.2.1 _ _ _ _ hgo 1 3, hwin,
    C17_store_never_changes.2.2.2 _ _ _ hwin 1 3⟩

/-! ## `HILITE` does not affect the move and win logic (C16) -/

theorem sameByte_tb (x y : Nat) (h : sameButHiliteByte x y) (i : Nat) (hi : i ≠ 5) :
    x.testBit i = y.testBit i := by
  have e := congrArg (fun z => Nat.testBit z i) h.1
  simp only [tb_hilite, hi, decide_False, Bool.or_false] at e
  exact e

theorem sameByte_has (x y : Nat) (h : sameButHiliteByte x y) :
    has x WALL = has y WALL ∧ has x BOX = has y BOX ∧ has x STORE = has y STORE ∧
    has x WORKER = has y WORKER ∧ has x SPACE = has y SPACE := by
  simp only [has_WALL, has_BOX, has_STORE, has_WORKER, has_SPACE]
  exact ⟨sameByte_tb x y h 0 (by decide), sameByte_tb x y h 1 (by decide),
    sameByte_tb x y h 2 (by decide), sameByte_tb x y h 3 (by decide),
    sameByte_tb x y h 4 (by decide)⟩

theorem sameByte_refl (x : Nat) : sameButHiliteByte x x := ⟨rfl, Iff.rfl⟩

theorem sameByte_symm (x y : Nat) (h : sameButHiliteByte x y) : sameButHiliteByte y x :=
  ⟨h.1.symm, h.2.symm⟩

theorem same_symm (a b : level) (h : SameButHilite a b) : SameButHilite b a := by
  obtain ⟨f1, f2, f3, f4, f5, f6, f7, hc⟩ := h
  refine ⟨f1.symm, f2.symm, f3.symm, f4.symm, f5.symm, f6.symm, f7.symm, ?_⟩
  intro r c
  rcases hc r c with ⟨h1, h2⟩ | ⟨x, y, h1, h2, h3⟩
  · exact Or.inl ⟨h2, h1⟩
  · exact Or.inr ⟨y, x, h2, h1, sameByte_symm x y h3⟩

theorem pair_and_eq (x : Nat) :
    (WORKER ||| STORE) &&& (x ||| HILITE) = (WORKER ||| STORE) &&& x ∧
    (BOX ||| STORE) &&& (x ||| HILITE) = (BOX ||| STORE) &&& x := by
  constructor
  · apply Nat.eq_of_testBit_eq
    intro i
    simp only [Nat.testBit_and, Nat.testBit_or, tb_WORKER, tb_STORE, tb_HILITE]
    by_cases h5 : i = 5
    · subst h5; simp
    · simp [h5]
  · apply Nat.eq_of_testBit_eq
    intro i
    simp only [Nat.testBit_and, Nat.testBit_or, tb_BOX, tb_STORE, tb_HILITE]
    by_cases h5 : i = 5
    · subst h5; simp
    · simp [h5]

theorem selectGlyph_hilite (x : Nat) : selectGlyph (x ||| HILITE) = selectGlyph x := by
  have hW : has (x ||| HILITE) WALL = has x WALL := by
    rw [has_WALL, has_WALL, tb_hilite]; simp
  have hK : has (x ||| HILITE) WORKER = has x WORKER := by
    rw [has_WORKER, has_WORKER, tb_hilite]; simp
  have hS : has (x ||| HILITE) SPACE = has x SPACE := by
    rw [has_SPACE, has_SPACE, tb_hilite]; simp
  unfold selectGlyph
  rw [hW, hK, hS, has_hilite_BOX, has_hilite_STORE, (pair_and_eq x).1, (pair_and_eq x).2]

theorem selectGlyph_same (x y : Nat) (h : sameButHiliteByte x y) :
    selectGlyph x = selectGlyph y := by
  rw [← selectGlyph_hilite x, ← selectGlyph_hilite y, h.1]

theorem selectGlyph_ne_zero (x : Nat) (g : Glyph) (h : selectGlyph x = some g) : x ≠ 0 := by
  intro h0
  have hz : selectGlyph 0 = none := by decide
  rw [h0, hz] at h
  cases h

theorem vacated_same (x y : Nat) (h : sameButHiliteByte x y) :
    sameButHiliteByte (vacated x) (vacated y) := by
  constructor
  · apply Nat.eq_of_testBit_eq
    intro i
    rw [tb_hilite, tb_hilite, tb_vacated, tb_vacated]
    by_cases h5 : i = 5
    · subst h5; simp
    · rw [sameByte_tb x y h i h5]
  · have hx : vacated x ≠ 0 := by
      intro e
      have := (has_vacated x).2.2.2.2.1
      rw [e] at this; revert this; decide
    have hy : vacated y ≠ 0 := by
      intro e
      have := (has_vacated y).2.2.2.2.1
      rw [e] at this; revert this; decide
    exact ⟨fun e => absurd e hx, fun e => absurd e hy⟩

theorem entered_same_or (x0 y0 x1 y1 : Nat) (h0 : sameButHiliteByte x0 y0)
    (h1 : sameButHiliteByte x1 y1) :
    entered x0 x1 ||| HILITE = entered y0 y1 ||| HILITE := by
  apply Nat.eq_of_testBit_eq
  intro i
  rw [tb_hilite, tb_hilite, tb_entered, tb_entered]
  by_cases h5 : i = 5
  · subst h5; simp
  · rw [sameByte_tb x0 y0 h0 i h5, sameByte_tb x1 y1 h1 i h5]

theorem strlen_congr (la : List Nat) :
    ∀ lb : List Nat,
      (∀ j : Nat, (la[j]? = none ↔ lb[j]? = none) ∧ (la[j]? = some 0 ↔ lb[j]? = some 0)) →
      strlen la = strlen lb := by
  induction la with
  | nil =>
    intro lb h
    cases lb with
    | nil => rfl
    | cons y ys =>
      have := (h 0).1
      simp at this
  | cons x xs ih =>
    intro lb h
    cases lb with
    | nil =>
      have := (h 0).1
      simp at this
    | cons y ys =>
      have h0 := (h 0).2
      simp only [List.getElem?_cons_zero, Option.some.injEq] at h0
      by_cases hx : x = 0
      · have hy : y = 0 := h0.1 hx
        simp [strlen, hx, hy]
      · have hy : ¬ y = 0 := fun e => hx (h0.2 e)
        have hrec := ih ys (fun j => by simpa using h (j + 1))
        simp [strlen, hx, hy, hrec]

theorem peek_getD (l : level) (i j : Nat) :
    peek l (i : Int) (j : Int) = (l.pic.getD i [])[j]? := by
  rw [peek_eq (Int.ofNat_nonneg i) (Int.ofNat_nonneg j)]
  simp only [Int.toNat_natCast]
  by_cases hi : i < l.pic.length
  · rw [List.getD_eq_getElem?_getD, List.getElem?_eq_getElem hi]; rfl
  · rw [List.getD_eq_getElem?_getD, List.getElem?_eq_none (by omega)]; rfl

theorem same_strlen (a b : level) (h : SameButHilite a b) (i : Nat) :
    strlen (a.pic.getD i []) = strlen (b.pic.getD i []) := by
  apply strlen_congr
  intro j
  rw [← peek_getD a i j, ← peek_getD b i j]
  rcases h.2.2.2.2.2.2.2 (i : Int) (j : Int) with ⟨h1, h2⟩ | ⟨x, y, h1, h2, h3⟩
  · rw [h1, h2]; simp
  · rw [h1, h2]
    simp only [Option.some.injEq]
    exact ⟨by simp, h3.2⟩

theorem same_get (a b : level) (h : SameButHilite a b) (r c : Int) :
    sameButHiliteByte (get a r c) (get b r c) := by
  by_cases hneg : r < 0 ∨ c < 0
  · rw [get_neg a r c hneg, get_neg b r c hneg]; exact sameByte_refl _
  · obtain ⟨i, rfl⟩ := Int.eq_ofNat_of_zero_le (show 0 ≤ r by omega)
    obtain ⟨j, rfl⟩ := Int.eq_ofNat_of_zero_le (show 0 ≤ c by omega)
    by_cases hin : InMap a (i : Int) (j : Int)
    · have hin' : InMap b (i : Int) (j : Int) := by
        rw [inMap_nat] at hin ⊢
        rw [← same_strlen a b h i]; exact hin
      have pa := peek_inMap a _ _ hin
      have pb := peek_inMap b _ _ hin'
      rcases h.2.2.2.2.2.2.2 (i : Int) (j : Int) with ⟨h1, _⟩ | ⟨x, y, h1, h2, h3⟩
      · rw [pa] at h1; cases h1
      · rw [pa] at h1; rw [pb] at h2
        simp only [Option.some.injEq] at h1 h2
        rw [h1, h2]; exact h3
    · have hin' : ¬ InMap b (i : Int) (j : Int) := by
        rw [inMap_nat] at hin ⊢
        rw [← same_strlen a b h i]; exact hin
      rw [get_outside a _ _ hin, get_outside b _ _ hin']
      exact sameByte_refl _

theorem update_same (a b : level) (h : SameButHilite a b) (r c : Int) :
    update a r c = update b r c := by
  unfold update
  rcases h.2.2.2.2.2.2.2 r c with ⟨h1, h2⟩ | ⟨x, y, h1, h2, h3⟩
  · rw [h1, h2]
  · rw [h1, h2]
    simp only [Option.some_bind]
    exact selectGlyph_same x y h3

theorem movePiece_eq (l : level) (r0 c0 r1 c1 : Int) (ch0 ch1 : Nat)
    (h0 : peek l r0 c0 = some ch0) (h1 : peek l r1 c1 = some ch1) :
    movePiece l r0 c0 r1 c1 =
      (update (moved l r0 c0 r1 c1 ch0 ch1) r0 c0).bind fun _ =>
      (update (moved l r0 c0 r1 c1 ch0 ch1) r1 c1).bind fun _ =>
        some (moved l r0 c0 r1 c1 ch0 ch1) := by
  unfold movePiece
  simp only [peek_retrack, h0, h1, Option.some_bind]
  have h0' : peek (retrack l r0 c0 r1 c1) r0 c0 = some ch0 := by
    rw [peek_retrack]; exact h0
  have hx : ∃ x, peek (pokeF (retrack l r0 c0 r1 c1) r0 c0 (vacated ch0)) r1 c1 = some x := by
    rw [peek_pokeF _ _ _ _ _ _ _ h0', peek_retrack, h1]
    split
    · exact ⟨_, rfl⟩
    · exact ⟨_, rfl⟩
  obtain ⟨x, hx⟩ := hx
  simp only [poke, h0', hx, Option.some_bind]
  rfl

theorem moved_same (a b : level) (h : SameButHilite a b) (r0 c0 r1 c1 : Int)
    (x0 x1 y0 y1 : Nat) (pa0 : peek a r0 c0 = some x0) (pa1 : peek a r1 c1 = some x1)
    (pb0 : peek b r0 c0 = some y0) (pb1 : peek b r1 c1 = some y1)
    (s0 : sameButHiliteByte x0 y0) (s1 : sameButHiliteByte x1 y1)
    (nx : entered x0 x1 ≠ 0) (ny : entered y0 y1 ≠ 0) :
    SameButHilite (moved a r0 c0 r1 c1 x0 x1) (moved b r0 c0 r1 c1 y0 y1) := by
  have fa := moved_fields a r0 c0 r1 c1 x0 x1
  have fb := moved_fields b r0 c0 r1 c1 y0 y1
  obtain ⟨f1, f2, f3, f4, f5, f6, f7, hc⟩ := h
  refine ⟨by rw [fa.1, fb.1]; exact f1, by rw [fa.2.1, fb.2.1]; exact f2,
    by rw [fa.2.2.1, fb.2.2.1]; exact f3, by rw [fa.2.2.2.1, fb.2.2.2.1]; exact f4, ?_,
    by rw [fa.2.2.2.2.1, fb.2.2.2.2.1]; exact f6,
    by rw [fa.2.2.2.2.2, fb.2.2.2.2.2]; exact f7, ?_⟩
  · rw [moved_worker, moved_worker, f5]
  · intro r c
    rw [peek_moved a r0 c0 r1 c1 r c x0 x1 pa0 pa1, peek_moved b r0 c0 r1 c1 r c y0 y1 pb0 pb1]
    by_cases e1 : r = r1 ∧ c = c1
    · rw [if_pos e1, if_pos e1]
      exact Or.inr ⟨_, _, rfl, rfl, entered_same_or x0 y0 x1 y1 s0 s1,
        ⟨fun e => absurd e nx, fun e => absurd e ny⟩⟩
    · rw [if_neg e1, if_neg e1]
      by_cases e0 : r = r0 ∧ c = c0
      · rw [if_pos e0, if_pos e0]
        exact Or.inr ⟨_, _, rfl, rfl, vacated_same x0 y0 s0⟩
      · rw [if_neg e0, if_neg e0]
        exact hc r c

theorem movePiece_sim (a b : level) (h : SameButHilite a b) (r0 c0 r1 c1 : Int) (ma : level)
    (hm : movePiece a r0 c0 r1 c1 = some ma) :
    ∃ mb, movePiece b r0 c0 r1 c1 = some mb ∧ SameButHilite ma mb := by
  obtain ⟨x0, x1, pa0, pa1, hma⟩ := movePiece_inv a ma r0 c0 r1 c1 hm
  have hc := h.2.2.2.2.2.2.2
  rcases hc r0 c0 with ⟨h1, _⟩ | ⟨x0', y0, h1, pb0, s0⟩
  · rw [pa0] at h1; cases h1
  rcases hc r1 c1 with ⟨h1', _⟩ | ⟨x1', y1, h1', pb1, s1⟩
  · rw [pa1] at h1'; cases h1'
  rw [pa0] at h1; rw [pa1] at h1'
  simp only [Option.some.injEq] at h1 h1'
  subst h1 h1'
  rw [movePiece_eq a r0 c0 r1 c1 x0 x1 pa0 pa1] at hm
  cases hu0 : update (moved a r0 c0 r1 c1 x0 x1) r0 c0 with
  | none => rw [hu0] at hm; simp at hm
  | some g0 =>
    cases hu1 : update (moved a r0 c0 r1 c1 x0 x1) r1 c1 with
    | none => rw [hu0, hu1] at hm; simp at hm
    | some g1 =>
      have hg1 : selectGlyph (entered x0 x1) = some g1 := by
        unfold update at hu1
        rw [peek_moved a r0 c0 r1 c1 r1 c1 x0 x1 pa0 pa1] at hu1
        simpa using hu1
      have nx : entered x0 x1 ≠ 0 := selectGlyph_ne_zero _ g1 hg1
      have hg1' : selectGlyph (entered y0 y1) = some g1 := by
        rw [← selectGlyph_hilite, ← entered_same_or x0 y0 x1 y1 s0 s1, selectGlyph_hilite]
        exact hg1
      have ny : entered y0 y1 ≠ 0 := selectGlyph_ne_zero _ g1 hg1'
      have hsame := moved_same a b h r0 c0 r1 c1 x0 x1 y0 y1 pa0 pa1 pb0 pb1 s0 s1 nx ny
      refine ⟨moved b r0 c0 r1 c1 y0 y1, ?_, by rw [hma]; exact hsame⟩
      rw [movePiece_eq b r0 c0 r1 c1 y0 y1 pb0 pb1, ← update_same _ _ hsame r0 c0,
        ← update_same _ _ hsame r1 c1, hu0, hu1]
      rfl

theorem pushMove_level (s s' : session) (m : Int) (l2 : level)
    (h : pushMove s m = some s') :
    pushMove { s with l := l2 } m = some { s' with l := l2 } := by
  unfold pushMove at h ⊢
  simp only at h ⊢
  by_cases hgrow : s.UndoTop + 1 ≥ s.MaxUndo
  · simp only [hgrow, if_true] at h ⊢
    by_cases hbad : s.UndoTop + 1 < 0 ∨
        s.UndoTop + 1 ≥ ((reallocInts s.UndoStack (s.MaxUndo * 2)).length : Int)
    · simp [hbad] at h
    · simp only [hbad, if_false, Option.some.injEq] at h ⊢
      rw [← h]
  · simp only [hgrow, if_false] at h ⊢
    by_cases hbad : s.UndoTop + 1 < 0 ∨ s.UndoTop + 1 ≥ (s.UndoStack.length : Int)
    · simp [hbad] at h
    · simp only [hbad, if_false, Option.some.injEq] at h ⊢
      rw [← h]

theorem session_setLevel_eq (s t : session) (x : level) (h1 : s.MaxUndo = t.MaxUndo)
    (h2 : s.UndoStack = t.UndoStack) (h3 : s.UndoTop = t.UndoTop)
    (h4 : s.MoveCount = t.MoveCount) : { t with l := x } = { s with l := x } := by
  cases s; cases t
  simp only at h1 h2 h3 h4
  simp [h1, h2, h3, h4]

theorem go_sim (s t s' : session) (d m : Int) (hrel : SameButHiliteSession s t)
    (h : go s d = some (s', m)) :
    ∃ t', go t d = some (t', m) ∧ SameButHiliteSession s' t' := by
  obtain ⟨hl, g1, g2, g3, g4⟩ := hrel
  have hw : t.l.worker = s.l.worker := hl.2.2.2.2.1.symm
  have hgA := sameByte_has _ _ (same_get s.l t.l hl ((p2rc s.l.worker).1 + deltaRow d)
    ((p2rc s.l.worker).2 + deltaCol d))
  have hgB := sameByte_has _ _ (same_get s.l t.l hl
    ((p2rc s.l.worker).1 + deltaRow d + deltaRow d)
    ((p2rc s.l.worker).2 + deltaCol d + deltaCol d))
  rcases go_inv s s' d m h with ⟨h0, hs, hsp, hblk⟩ | ⟨h1, hsp, l1, sp, hm, hpush, hs⟩ |
    ⟨h1, hsp, hbx, hsp2, l1, l2, sp, hm1, hm2, hpush, hs⟩
  · refine ⟨t, ?_, by rw [hs]; exact ⟨hl, g1, g2, g3, g4⟩⟩
    rw [h0]
    apply go_blocked
    · rw [hw, ← hgA.2.2.2.2]; exact hsp
    · rw [hw, ← hgA.2.1, ← hgB.2.2.2.2]; exact hblk
  · obtain ⟨mb, hmb, hsame⟩ := movePiece_sim s.l t.l hl _ _ _ _ l1 hm
    have hpush' := pushMove_level _ _ _ mb hpush
    have e : ({ t with l := mb } : session) = { ({ s with l := l1 } : session) with l := mb } :=
      session_setLevel_eq s t mb g1 g2 g3 g4
    obtain ⟨q1, _⟩ := pushMove_inv _ _ _ hpush
    have q1' : sp.l = l1 := q1
    have hgo := go_slide t { sp with l := mb } d mb
      (by rw [hw, ← hgA.2.2.2.2]; exact hsp) (by rw [hw]; exact hmb)
      (by rw [hw, e]; exact hpush')
    refine ⟨_, by rw [h1]; exact hgo, ?_⟩
    rw [hs]
    refine ⟨?_, rfl, rfl, rfl, rfl⟩
    show SameButHilite sp.l mb
    rw [q1']; exact hsame
  · obtain ⟨mb1, hmb1, hsame1⟩ := movePiece_sim s.l t.l hl _ _ _ _ l1 hm1
    obtain ⟨mb2, hmb2, hsame2⟩ := movePiece_sim l1 mb1 hsame1 _ _ _ _ l2 hm2
    have hpush' := pushMove_level _ _ _ mb2 hpush
    have e : ({ t with l := mb2 } : session) =
        { ({ s with l := l2 } : session) with l := mb2 } :=
      session_setLevel_eq s t mb2 g1 g2 g3 g4
    obtain ⟨q1, _⟩ := pushMove_inv _ _ _ hpush
    have q1' : sp.l = l2 := q1
    have hgo := go_push t { sp with l := mb2 } d mb1 mb2
      (by rw [hw, ← hgA.2.2.2.2]; exact hsp) (by rw [hw, ← hgA.2.1]; exact hbx)
      (by rw [hw, ← hgB.2.2.2.2]; exact hsp2) (by rw [hw]; exact hmb1)
      (by rw [hw]; exact hmb2) (by rw [hw, e]; exact hpush')
    refine ⟨_, by rw [h1]; exact hgo, ?_⟩
    rw [hs]
    refine ⟨?_, rfl, rfl, rfl, rfl⟩
    show SameButHilite sp.l mb2
    rw [q1']; exact hsame2

theorem sameSession_symm (s t : session) (h : SameButHiliteSession s t) :
    SameButHiliteSession t s :=
  ⟨same_symm _ _ h.1, h.2.1.symm, h.2.2.1.symm, h.2.2.2.1.symm, h.2.2.2.2.symm⟩

theorem anyUnstored_same (a b : level) (h : SameButHilite a b) :
    anyUnstored a a.rows.toNat a.cols.toNat = anyUnstored b b.rows.toNat b.cols.toNat := by
  have hrows : a.rows.toNat = b.rows.toNat := by
    simp only [level.rows, Int.toNat_natCast]; exact h.2.2.2.2.2.2.1
  have hcols : a.cols.toNat = b.cols.toNat := by rw [h.2.1]
  unfold anyUnstored
  rw [hrows, hcols]
  have hf : (fun r : Nat => (List.range b.cols.toNat).any fun c : Nat =>
      unstored (get a (r : Int) (c : Int))) =
      (fun r : Nat => (List.range b.cols.toNat).any fun c : Nat =>
        unstored (get b (r : Int) (c : Int))) := by
    funext r
    congr 1
    funext c
    have hb := sameByte_has _ _ (same_get a b h (r : Int) (c : Int))
    unfold unstored
    rw [hb.2.1, hb.2.2.1]
  rw [hf]

theorem win_value (l : level) :
    ∃ l', win l = some (l', if anyUnstored l l.rows.toNat l.cols.toNat = true then 0 else 1) := by
  rw [win_unfold]
  cases ha : anyUnstored l l.rows.toNat l.cols.toNat
  · obtain ⟨lk, e, _⟩ := markedBy_all l l.cols.toNat l.rows.toNat
    exact ⟨lk, by simp [e]⟩
  · exact ⟨l, by simp⟩

theorem same_of_pic (a b : level) (f1 : a.levelNumber = b.levelNumber) (f2 : a.cols = b.cols)
    (f3 : a.top = b.top) (f4 : a.left = b.left) (f5 : a.worker = b.worker)
    (f6 : a.startTime = b.startTime)
    (h1 : a.pic.map (List.map fun x => x ||| HILITE) = b.pic.map (List.map fun x => x ||| HILITE))
    (h2 : a.pic.map (List.map fun x => decide (x = 0)) =
      b.pic.map (List.map fun x => decide (x = 0))) : SameButHilite a b := by
  have hlen : a.pic.length = b.pic.length := by
    have := congrArg List.length h1
    simpa using this
  refine ⟨f1, f2, f3, f4, f5, f6, hlen, ?_⟩
  intro r c
  by_cases hneg : r < 0 ∨ c < 0
  · left; simp [peek, hneg]
  · have hr : 0 ≤ r := by omega
    have hc : 0 ≤ c := by omega
    rw [peek_eq hr hc, peek_eq hr hc]
    have e1 := congrArg (fun p => p[r.toNat]?) h1
    have e2 := congrArg (fun p => p[r.toNat]?) h2
    simp only [List.getElem?_map] at e1 e2
    cases ha : a.pic[r.toNat]? with
    | none =>
      rw [ha] at e1
      cases hb : b.pic[r.toNat]? with
      | none => left; simp
      | some rb => rw [hb] at e1; simp at e1
    | some ra =>
      rw [ha] at e1 e2
      cases hb : b.pic[r.toNat]? with
      | none => rw [hb] at e1; simp at e1
      | some rb =>
        rw [hb] at e1 e2
        simp only [Option.map_some', Option.some.injEq] at e1 e2
        have d1 := congrArg (fun p => p[c.toNat]?) e1
        have d2 := congrArg (fun p => p[c.toNat]?) e2
        simp only [List.getElem?_map] at d1 d2
        simp only [Option.some_bind]
        cases hx : ra[c.toNat]? with
        | none =>
          rw [hx] at d1
          cases hy : rb[c.toNat]? with
          | none => left; exact ⟨rfl, rfl⟩
          | some y => rw [hy] at d1; simp at d1
        | some x =>
          rw [hx] at d1 d2
          cases hy : rb[c.toNat]? with
          | none => rw [hy] at d1; simp at d1
          | some y =>
            rw [hy] at d1 d2
            simp only [Option.map_some', Option.some.injEq, decide_eq_decide] at d1 d2
            right
            exact ⟨x, y, rfl, rfl, d1, d2⟩

/-- C16: `HILITE` does not affect the move and win logic.  For every direction
and every two sessions with the same undo stack and counters whose boards are
identical except for the `HILITE` bits of some cells (same lines, same bytes up
to `HILITE`), `go` behaves alike on both: either it has no result on either, or
it returns the same value on both, leaves the same undo stack, `UndoTop`,
`MoveCount` and tracked worker position, and two boards that are again identical
except for `HILITE` bits, each cell keeping the `HILITE` bit it had in its own
session; and `win` returns the same value on both. -/
theorem C16_hilite_noninterference (s t : session) (direction : Int)
    (hrel : SameButHiliteSession s t) :
    ((go s direction = none ∧ go t direction = none) ∨
      (∃ s' t' m, go s direction = some (s', m) ∧ go t direction = some (t', m) ∧
        SameButHiliteSession s' t' ∧ s'.UndoStack = t'.UndoStack ∧
        s'.UndoTop = t'.UndoTop ∧ s'.MoveCount = t'.MoveCount ∧
        s'.l.worker = t'.l.worker ∧
        (∀ r c : Int, flagAt s'.l HILITE r c = flagAt s.l HILITE r c ∧
          flagAt t'.l HILITE r c = flagAt t.l HILITE r c))) ∧
    (∃ ls lt v, win s.l = some (ls, v) ∧ win t.l = some (lt, v)) := by
  constructor
  · cases hs : go s direction with
    | none =>
      cases ht : go t direction with
      | none => exact Or.inl ⟨rfl, rfl⟩
      | some y =>
        obtain ⟨s', hs', _⟩ := go_sim t s y.1 direction y.2 (sameSession_symm s t hrel) ht
        rw [hs] at hs'; cases hs'
    | some x =>
      obtain ⟨t', ht', hrel'⟩ := go_sim s t x.1 direction x.2 hrel hs
      right
      refine ⟨x.1, t', x.2, rfl, ht', hrel', hrel'.2.2.1, hrel'.2.2.2.1, hrel'.2.2.2.2,
        hrel'.1.2.2.2.2.1, ?_⟩
      intro r c
      exact ⟨(go_overlay s x.1 direction x.2 hs r c).2,
        (go_overlay t t' direction x.2 ht' r c).2⟩
  · obtain ⟨ls, hls⟩ := win_value s.l
    obtain ⟨lt, hlt⟩ := win_value t.l
    rw [← anyUnstored_same s.l t.l hrel.1] at hlt
    exact ⟨ls, lt, _, hls, hlt⟩

/-- Witness of C16: the session after the push on `#@$.#` and the same session
with the stored box highlighted; both slide west alike. -/
theorem C16_hilite_noninterference_witness :
    SameButHiliteSession boxAheadPushed boxAheadWonSession ∧
      (∃ s' t' m, go boxAheadPushed WEST = some (s', m) ∧
        go boxAheadWonSession WEST = some (t', m) ∧ SameButHiliteSession s' t') ∧
      (∃ ls lt v, win boxAheadPushed.l = some (ls, v) ∧
        win boxAheadWonSession.l = some (lt, v)) :=
  have h : SameButHiliteSession boxAheadPushed boxAheadWonSession :=
    ⟨same_of_pic _ _ (by decide) (by decide) (by decide) (by decide) (by decide) (by decide)
      (by decide) (by decide), by decide, by decide, by decide, by decide⟩
  have hgo : go boxAheadPushed WEST ≠ none := by decide
  ⟨h,
    (C16_hilite_noninterference boxAheadPushed boxAheadWonSession WEST h).1.elim
      (fun hn => absurd hn.1 hgo)
      (fun hs => hs.elim fun s' h1 => h1.elim fun t' h2 => h2.elim fun m h3 =>
        ⟨s', t', m, h3.1, h3.2.1, h3.2.2.1⟩),
    (C16_hilite_noninterference boxAheadPushed boxAheadWonSession WEST h).2⟩

/-! ## When `go` returns; a move off the top of the map -/

theorem go_slide_returns (s : session) (d : Int) (x : Nat) (hst : StackOK s)
    (hw : WorkerTracked s.l) (hdv : ¬ (deltaRow d = 0 ∧ deltaCol d = 0))
    (hsp : has (get s.l ((p2rc s.l.worker).1 + deltaRow d) ((p2rc s.l.worker).2 + deltaCol d))
      SPACE = true)
    (hx : peek s.l ((p2rc s.l.worker).1 + deltaRow d) ((p2rc s.l.worker).2 + deltaCol d) =
      some x) :
    ∃ s', go s d = some (s', 1) := by
  have hinw := inMap_of_has_WORKER s.l _ _ hw
  obtain ⟨ch0, hg0⟩ : ∃ ch0, get s.l (p2rc s.l.worker).1 (p2rc s.l.worker).2 = ch0 := ⟨_, rfl⟩
  have hp0 : peek s.l (p2rc s.l.worker).1 (p2rc s.l.worker).2 = some ch0 := by
    rw [← hg0]; exact peek_inMap s.l _ _ hinw
  have hh : has ch0 WORKER = true := by rw [← hg0]; exact hw
  have hne : ¬ ((p2rc s.l.worker).1 = (p2rc s.l.worker).1 + deltaRow d ∧
      (p2rc s.l.worker).2 = (p2rc s.l.worker).2 + deltaCol d) := by
    intro e; apply hdv; constructor <;> omega
  have hglyph : ∃ g, selectGlyph (entered ch0 x) = some g := by
    apply selectGlyph_isSome
    exact Or.inr (Or.inl (by rw [(has_entered ch0 x).2.2.2.1]; exact hh))
  have hm := movePiece_distinct s.l _ _ _ _ ch0 x hp0 hx hne hglyph
  obtain ⟨s1, hpush, _⟩ := pushMove_ok { s with l := (moved s.l (p2rc s.l.worker).1
    (p2rc s.l.worker).2 ((p2rc s.l.worker).1 + deltaRow d)
    ((p2rc s.l.worker).2 + deltaCol d) ch0 x) }
    (rc2p (p2rc s.l.worker).1 (p2rc s.l.worker).2) (stackOK_setLevel s _ hst)
  exact ⟨_, go_slide s s1 d _ hsp hm hpush⟩

theorem go_push_returns (s : session) (d : Int) (y : Nat) (hst : StackOK s)
    (hw : WorkerTracked s.l) (hdv : ¬ (deltaRow d = 0 ∧ deltaCol d = 0))
    (hsp : has (get s.l ((p2rc s.l.worker).1 + deltaRow d) ((p2rc s.l.worker).2 + deltaCol d))
      SPACE = false)
    (hbx : has (get s.l ((p2rc s.l.worker).1 + deltaRow d) ((p2rc s.l.worker).2 + deltaCol d))
      BOX = true)
    (hsp2 : has (get s.l ((p2rc s.l.worker).1 + deltaRow d + deltaRow d)
      ((p2rc s.l.worker).2 + deltaCol d + deltaCol d)) SPACE = true)
    (hy : peek s.l ((p2rc s.l.worker).1 + deltaRow d + deltaRow d)
      ((p2rc s.l.worker).2 + deltaCol d + deltaCol d) = some y) :
    ∃ s', go s d = some (s', 1) := by
  have hinw := inMap_of_has_WORKER s.l _ _ hw
  obtain ⟨ch0, hg0⟩ : ∃ ch0, get s.l (p2rc s.l.worker).1 (p2rc s.l.worker).2 = ch0 := ⟨_, rfl⟩
  have hp0 : peek s.l (p2rc s.l.worker).1 (p2rc s.l.worker).2 = some ch0 := by
    rw [← hg0]; exact peek_inMap s.l _ _ hinw
  have hh : has ch0 WORKER = true := by rw [← hg0]; exact hw
  have hin := inMap_of_has_BOX s.l _ _ hbx
  have hpg := peek_inMap s.l _ _ hin
  have hne1 : ¬ ((p2rc s.l.worker).1 + deltaRow d = (p2rc s.l.worker).1 + deltaRow d + deltaRow d ∧
      (p2rc s.l.worker).2 + deltaCol d = (p2rc s.l.worker).2 + deltaCol d + deltaCol d) := by
    intro e; apply hdv; constructor <;> omega
  have hne2 : ¬ ((p2rc s.l.worker).1 = (p2rc s.l.worker).1 + deltaRow d ∧
      (p2rc s.l.worker).2 = (p2rc s.l.worker).2 + deltaCol d) := by
    intro e; apply hdv; constructor <;> omega
  have hne3 : ¬ ((p2rc s.l.worker).1 = (p2rc s.l.worker).1 + deltaRow d + deltaRow d ∧
      (p2rc s.l.worker).2 = (p2rc s.l.worker).2 + deltaCol d + deltaCol d) := by
    intro e; apply hdv; constructor <;> omega
  have hglyph1 : ∃ g, selectGlyph (entered (get s.l ((p2rc s.l.worker).1 + deltaRow d)
      ((p2rc s.l.worker).2 + deltaCol d)) y) = some g := by
    apply selectGlyph_isSome
    exact Or.inr (Or.inr (Or.inl (by rw [(has_entered _ y).2.1]; exact hbx)))
  have hm1 := movePiece_distinct s.l _ _ _ _ _ y hpg hy hne1 hglyph1
  have hq0 := peek_moved s.l ((p2rc s.l.worker).1 + deltaRow d)
    ((p2rc s.l.worker).2 + deltaCol d) ((p2rc s.l.worker).1 + deltaRow d + deltaRow d)
    ((p2rc s.l.worker).2 + deltaCol d + deltaCol d) (p2rc s.l.worker).1 (p2rc s.l.worker).2
    _ y hpg hy
  rw [if_neg hne3, if_neg hne2, hp0] at hq0
  have hqg := peek_moved s.l ((p2rc s.l.worker).1 + deltaRow d)
    ((p2rc s.l.worker).2 + deltaCol d) ((p2rc s.l.worker).1 + deltaRow d + deltaRow d)
    ((p2rc s.l.worker).2 + deltaCol d + deltaCol d) ((p2rc s.l.worker).1 + deltaRow d)
    ((p2rc s.l.worker).2 + deltaCol d) _ y hpg hy
  rw [if_neg hne1, if_pos ⟨rfl, rfl⟩] at hqg
  have hglyph2 : ∃ g, selectGlyph (entered ch0 (vacated (get s.l
      ((p2rc s.l.worker).1 + deltaRow d) ((p2rc s.l.worker).2 + deltaCol d)))) = some g := by
    apply selectGlyph_isSome
    exact Or.inr (Or.inl (by rw [(has_entered ch0 _).2.2.2.1]; exact hh))
  have hm2 := movePiece_distinct _ _ _ _ _ ch0 _ hq0 hqg hne2 hglyph2
  obtain ⟨s1, hpush, _⟩ := pushMove_ok { s with l := (moved (moved s.l
    ((p2rc s.l.worker).1 + deltaRow d) ((p2rc s.l.worker).2 + deltaCol d)
    ((p2rc s.l.worker).1 + deltaRow d + deltaRow d)
    ((p2rc s.l.worker).2 + deltaCol d + deltaCol d)
    (get s.l ((p2rc s.l.worker).1 + deltaRow d) ((p2rc s.l.worker).2 + deltaCol d)) y)
    (p2rc s.l.worker).1 (p2rc s.l.worker).2 ((p2rc s.l.worker).1 + deltaRow d)
    ((p2rc s.l.worker).2 + deltaCol d) ch0 (vacated (get s.l
      ((p2rc s.l.worker).1 + deltaRow d) ((p2rc s.l.worker).2 + deltaCol d)))) }
    (Int.lor (rc2p (p2rc s.l.worker).1 (p2rc s.l.worker).2) PULL) (stackOK_setLevel s _ hst)
  exact ⟨_, go_push s s1 d _ _ hsp hbx hsp2 hm1 hm2 hpush⟩

theorem ldiff_eq (a b : Nat) : Nat.ldiff a b = a ^^^ (a &&& b) := by
  apply Nat.eq_of_testBit_eq
  intro i
  rw [Nat.testBit_ldiff, Nat.testBit_xor, Nat.testBit_and]
  cases a.testBit i <;> cases b.testBit i <;> rfl

theorem decode_above_top : p2rc (rc2p (-1) 1) = (63, 1) := by
  have e1 : rc2p (-1) 1 = Int.negSucc (Nat.ldiff 63 1) := rfl
  have l1 : Nat.ldiff 63 1 = 62 := by rw [ldiff_eq]; decide
  have e2 : p2rc (Int.negSucc 62) =
      (((Nat.ldiff 63 (62 >>> 6) : Nat) : Int), ((Nat.ldiff 63 62 : Nat) : Int)) := rfl
  have l2 : Nat.ldiff 63 (62 >>> 6) = 63 := by rw [ldiff_eq]; decide
  have l3 : Nat.ldiff 63 62 = 1 := by rw [ldiff_eq]; decide
  rw [e1, l1, e2, l2, l3]
  rfl

/-- C19 at the one-line level `#@ .#`, first move north: the cell north of the
worker at `[0,1]` is outside the drawn map and `get` reads it as `SPACE`, so `go`
takes the sliding branch; `movePiece` sets the tracked position to `rc2p (-1) 1`,
which decodes to `[63,1]` and not to `[-1,1]`, and then accesses `l->pic[-1][1]`,
outside the array of lines: `go` has no result, where the claim has it return 1
with the worker tracked at the off-map coordinate. -/
theorem C19_offmap_step_faults :
    readLevel 24 10 (List.replicate 10 0) 1 floorText 0 = some floorAhead ∧
      p2rc floorAhead.l.worker = (0, 1) ∧ ¬ InMap floorAhead.l (-1) 1 ∧
      get floorAhead.l (-1) 1 = SPACE ∧
      p2rc (retrack floorAhead.l 0 1 (-1) 1).worker = (63, 1) ∧
      peek (retrack floorAhead.l 0 1 (-1) 1) (-1) 1 = none ∧
      movePiece floorAhead.l 0 1 (-1) 1 = none ∧
      go floorAhead NORTH = none := by
  refine ⟨by decide, by decide, by unfold InMap; decide, by decide, ?_, by decide, by decide,
    by decide⟩
  have e : (retrack floorAhead.l 0 1 (-1) 1).worker = rc2p (-1) 1 := rfl
  rw [e]
  exact decode_above_top
/-! ## Counting boxes -/

theorem sum_map_set {α : Type} (f : α → Nat) (xs : List α) (i : Nat) (old x : α)
    (h : xs[i]? = some old) : ((xs.set i x).map f).sum + f old = (xs.map f).sum + f x := by
  induction xs generalizing i with
  | nil => simp at h
  | cons y ys ih =>
    cases i with
    | zero =>
      simp only [List.getElem?_cons_zero, Option.some.injEq] at h
      subst h
      simp only [List.set_cons_zero, List.map_cons, List.sum_cons]
      omega
    | succ k =>
      simp only [List.getElem?_cons_succ] at h
      have := ih k h
      simp only [List.set_cons_succ, List.map_cons, List.sum_cons]
      omega

theorem countP_eq_sum (p : Nat → Bool) (xs : List Nat) :
    xs.countP p = (xs.map fun x => if p x = true then 1 else 0).sum := by
  induction xs with
  | nil => rfl
  | cons y ys ih =>
    rw [List.countP_cons, ih, List.map_cons, List.sum_cons]
    omega

theorem cstring_set (row : List Nat) (j v : Nat) (hj : j < strlen row) (hv : v ≠ 0) :
    cstring (row.set j v) = (cstring row).set j v := by
  unfold cstring
  rw [strlen_set row j v hj hv, List.set_take]

theorem cstring_getElem? (row : List Nat) (j : Nat) (hj : j < strlen row) :
    (cstring row)[j]? = some (row.getD j 0) := by
  unfold cstring
  have hlen := strlen_le_length row
  rw [List.getElem?_take_of_lt hj, List.getD_eq_getElem?_getD,
    List.getElem?_eq_getElem (by omega)]
  rfl

/-- A store of a non-zero byte into a cell of the map changes the number of boxes
by the `BOX` bits of the old and the new byte. -/
theorem boxCount_pokeF (l : level) (r c : Int) (v : Nat) (hin : InMap l r c) (hv : v ≠ 0) :
    boxCount (pokeF l r c v) + (if has (get l r c) BOX = true then 1 else 0) =
      boxCount l + (if has v BOX = true then 1 else 0) := by
  obtain ⟨i, rfl⟩ := Int.eq_ofNat_of_zero_le hin.1
  obtain ⟨j, rfl⟩ := Int.eq_ofNat_of_zero_le hin.2.1
  have hj := (inMap_nat l i j).1 hin
  have hi : i < l.pic.length := by
    have := hin.2.2.1
    unfold level.rows at this
    omega
  have hrow : l.pic[i]? = some (l.pic.getD i []) := by
    rw [List.getD_eq_getElem?_getD, List.getElem?_eq_getElem hi]; rfl
  have hnot : ¬ strlen (l.pic.getD i []) ≤ j := by omega
  rw [get_nat, if_neg hnot]
  unfold boxCount pokeF
  simp only [Int.toNat_natCast]
  have inner := sum_map_set (fun ch => if has ch BOX = true then 1 else 0)
    (cstring (l.pic.getD i [])) j ((l.pic.getD i []).getD j 0) v
    (cstring_getElem? _ j hj)
  have outer := sum_map_set
    (fun line : List Nat => (cstring line).countP fun ch => has ch BOX)
    l.pic i (l.pic.getD i []) ((l.pic.getD i []).set j v) hrow
  simp only at inner outer
  rw [cstring_set _ j v hj hv, countP_eq_sum (fun ch => has ch BOX) (cstring (l.pic.getD i [])),
    countP_eq_sum (fun ch => has ch BOX) ((cstring (l.pic.getD i [])).set j v)] at outer
  omega

theorem boxCount_retrack (l : level) (r0 c0 r1 c1 : Int) :
    boxCount (retrack l r0 c0 r1 c1) = boxCount l := by
  unfold boxCount
  rw [pic_retrack]

theorem boxCount_moved (l : level) (r0 c0 r1 c1 : Int) (ch0 ch1 : Nat)
    (i0 : InMap l r0 c0) (i1 : InMap l r1 c1)
    (h0 : peek l r0 c0 = some ch0) (h1 : peek l r1 c1 = some ch1)
    (hne : ¬ (r1 = r0 ∧ c1 = c0)) (hb : has ch1 BOX = false)
    (he : entered ch0 ch1 ≠ 0) :
    boxCount (moved l r0 c0 r1 c1 ch0 ch1) = boxCount l := by
  have g0 := get_of_peek l r0 c0 ch0 i0 h0
  have g1 := get_of_peek l r1 c1 ch1 i1 h1
  have i0' := (inMap_retrack l r0 c0 r1 c1 r0 c0).2 i0
  have i1' := (inMap_pokeF _ r0 c0 r1 c1 (vacated ch0) i0' (vacated_ne_zero ch0)).2
    ((inMap_retrack l r0 c0 r1 c1 r1 c1).2 i1)
  have e1 := boxCount_pokeF (retrack l r0 c0 r1 c1) r0 c0 (vacated ch0) i0'
    (vacated_ne_zero ch0)
  have e2 := boxCount_pokeF (pokeF (retrack l r0 c0 r1 c1) r0 c0 (vacated ch0)) r1 c1
    (entered ch0 ch1) i1' he
  rw [get_retrack, g0, boxCount_retrack, (has_vacated ch0).2.1] at e1
  rw [get_pokeF _ _ _ _ _ _ i0' (vacated_ne_zero ch0), if_neg hne, get_retrack, g1,
    (has_entered ch0 ch1).2.1, hb] at e2
  unfold moved
  simp only [Bool.false_eq_true, if_false] at e1 e2
  omega

theorem box_moved (l : level) (r0 c0 r1 c1 : Int) (ch0 ch1 : Nat)
    (i0 : InMap l r0 c0) (i1 : InMap l r1 c1) (he : entered ch0 ch1 ≠ 0) (r c : Int) :
    has (get (moved l r0 c0 r1 c1 ch0 ch1) r c) BOX =
      if r = r1 ∧ c = c1 then has ch0 BOX
      else if r = r0 ∧ c = c0 then false else has (get l r c) BOX := by
  rw [get_moved l r0 c0 r1 c1 ch0 ch1 i0 i1 he]
  by_cases e1 : r = r1 ∧ c = c1
  · rw [if_pos e1, if_pos e1, (has_entered ch0 ch1).2.1]
  · rw [if_neg e1, if_neg e1]
    by_cases e2 : r = r0 ∧ c = c0
    · rw [if_pos e2, if_pos e2, (has_vacated ch0).2.1]
    · rw [if_neg e2, if_neg e2]

theorem peek_differs (l : level) (r0 c0 r1 c1 : Int) (a b : Nat) (h0 : peek l r0 c0 = some a)
    (h1 : peek l r1 c1 = some b) (hab : a ≠ b) : ¬ (r0 = r1 ∧ c0 = c1) := by
  intro e
  rw [e.1, e.2, h1] at h0
  exact hab (Option.some.inj h0).symm

theorem go_boxes (s s' : session) (d m r c : Int) (hok : CellsOK s.l)
    (hw : WorkerTracked s.l) (hrc : p2rc s.l.worker = (r, c))
    (hin1 : has (get s.l (r + deltaRow d) (c + deltaCol d)) SPACE = true →
      InMap s.l (r + deltaRow d) (c + deltaCol d))
    (hin2 : has (get s.l (r + deltaRow d) (c + deltaCol d)) BOX = true →
      has (get s.l (r + deltaRow d + deltaRow d) (c + deltaCol d + deltaCol d)) SPACE = true →
      InMap s.l (r + deltaRow d + deltaRow d) (c + deltaCol d + deltaCol d))
    (hgo : go s d = some (s', m)) :
    boxCount s'.l = boxCount s.l ∧
    ((m = 0 ∨ has (get s.l (r + deltaRow d) (c + deltaCol d)) SPACE = true) →
      ∀ r' c' : Int, has (get s'.l r' c') BOX = has (get s.l r' c') BOX) ∧
    (m = 1 → has (get s.l (r + deltaRow d) (c + deltaCol d)) SPACE = false →
      (deltaRow d).natAbs + (deltaCol d).natAbs = 1 ∧
      has (get s.l (r + deltaRow d) (c + deltaCol d)) BOX = true ∧
      has (get s.l (r + deltaRow d + deltaRow d) (c + deltaCol d + deltaCol d)) BOX = false ∧
      has (get s'.l (r + deltaRow d) (c + deltaCol d)) BOX = false ∧
      has (get s'.l (r + deltaRow d + deltaRow d) (c + deltaCol d + deltaCol d)) BOX = true ∧
      ∀ r' c' : Int, ¬ (r' = r + deltaRow d ∧ c' = c + deltaCol d) →
        ¬ (r' = r + deltaRow d + deltaRow d ∧ c' = c + deltaCol d + deltaCol d) →
        has (get s'.l r' c') BOX = has (get s.l r' c') BOX) := by
  have hr : (p2rc s.l.worker).1 = r := by rw [hrc]
  have hc : (p2rc s.l.worker).2 = c := by rw [hrc]
  have hw' : has (get s.l r c) WORKER = true := by rw [← hr, ← hc]; exact hw
  have hinw := inMap_of_has_WORKER s.l r c hw'
  obtain ⟨chw, hgw⟩ : ∃ chw, get s.l r c = chw := ⟨_, rfl⟩
  have hpw : peek s.l r c = some chw := by rw [← hgw]; exact peek_inMap s.l r c hinw
  have hhw : has chw WORKER = true := by rw [← hgw]; exact hw'
  have hcw := cellOK_worker chw (cellOK_of_peek s.l hok r c chw hinw hpw) hhw
  have hinv := go_inv s s' d m hgo
  rw [hr, hc] at hinv
  rcases hinv with ⟨h0, hs, _, _⟩ | ⟨h1, hsp, l1, s1, hm, hpush, hs⟩ |
    ⟨h1, hsp, hbx, hsp2, l1, l2, s1, hm1, hm2, hpush, hs⟩
  · subst hs
    refine ⟨rfl, fun _ _ _ => rfl, ?_⟩
    intro h1
    rw [h0] at h1
    exact absurd h1 (by decide)
  · obtain ⟨q1, _⟩ := pushMove_inv _ _ _ hpush
    have q1' : s1.l = l1 := q1
    obtain ⟨ch0, ch1, hp0, hp1, hl1⟩ := movePiece_inv _ _ _ _ _ _ hm
    rw [hpw] at hp0
    have e0 : chw = ch0 := Option.some.inj hp0
    subst e0
    have hina := hin1 hsp
    have hg1 := get_of_peek s.l _ _ ch1 hina hp1
    rw [hg1] at hsp
    have hcs := cellOK_space ch1 (cellOK_of_peek s.l hok _ _ ch1 hina hp1) hsp
    have hea := entered_ne_zero chw ch1 (Or.inr hhw)
    have hne : ¬ (r + deltaRow d = r ∧ c + deltaCol d = c) := by
      apply peek_differs s.l _ _ _ _ ch1 chw hp1 hpw
      intro e; rw [e, hhw] at hcs; exact Bool.noConfusion hcs.2.1
    have hl : s'.l = moved s.l r c (r + deltaRow d) (c + deltaCol d) chw ch1 := by
      rw [hs]; show s1.l = _; rw [q1', hl1]
    rw [hl]
    refine ⟨boxCount_moved s.l r c _ _ chw ch1 hinw hina hpw hp1 hne hcs.2.2 hea, ?_, ?_⟩
    · intro _ r' c'
      rw [box_moved s.l r c _ _ chw ch1 hinw hina hea r' c']
      by_cases e1 : r' = r + deltaRow d ∧ c' = c + deltaCol d
      · rw [if_pos e1, e1.1, e1.2, hg1, hcs.2.2, hcw.2.1]
      · rw [if_neg e1]
        by_cases e2 : r' = r ∧ c' = c
        · rw [if_pos e2, e2.1, e2.2, hgw, hcw.2.1]
        · rw [if_neg e2]
    · intro _ hf
      rw [hg1, hsp] at hf
      exact Bool.noConfusion hf
  · obtain ⟨q1, _⟩ := pushMove_inv _ _ _ hpush
    have q1' : s1.l = l2 := q1
    obtain ⟨x, y, hpx, hpy, hl1⟩ := movePiece_inv _ _ _ _ _ _ hm1
    have hing := inMap_of_has_BOX s.l _ _ hbx
    have hinb := hin2 hbx hsp2
    have hgx := get_of_peek s.l _ _ x hing hpx
    have hgy := get_of_peek s.l _ _ y hinb hpy
    rw [hgx] at hsp hbx
    rw [hgy] at hsp2
    have hcb := cellOK_box x (cellOK_of_peek s.l hok _ _ x hing hpx) hbx
    have hcs := cellOK_space y (cellOK_of_peek s.l hok _ _ y hinb hpy) hsp2
    have heb := entered_ne_zero x y (Or.inl hbx)
    have heg := entered_ne_zero chw (vacated x) (Or.inr hhw)
    have hinw1 := (inMap_moved s.l _ _ _ _ x y hing hinb heb r c).2 hinw
    have hing1 := (inMap_moved s.l _ _ _ _ x y hing hinb heb (r + deltaRow d)
      (c + deltaCol d)).2 hing
    have hneAB : ¬ (r + deltaRow d + deltaRow d = r + deltaRow d ∧
        c + deltaCol d + deltaCol d = c + deltaCol d) := by
      apply peek_differs s.l _ _ _ _ y x hpy hpx
      intro e; rw [e, hbx] at hcs; exact Bool.noConfusion hcs.2.2
    have hneWA : ¬ (r = r + deltaRow d ∧ c = c + deltaCol d) := by
      apply peek_differs s.l _ _ _ _ chw x hpw hpx
      intro e; rw [← e, hhw] at hcb; exact Bool.noConfusion hcb.2.1
    have hneWB : ¬ (r = r + deltaRow d + deltaRow d ∧ c = c + deltaCol d + deltaCol d) := by
      apply peek_differs s.l _ _ _ _ chw y hpw hpy
      intro e; rw [← e, hhw] at hcs; exact Bool.noConfusion hcs.2.1
    have hneAW : ¬ (r + deltaRow d = r ∧ c + deltaCol d = c) := fun e =>
      hneWA ⟨e.1.symm, e.2.symm⟩
    have hneBA : ¬ (r + deltaRow d = r + deltaRow d + deltaRow d ∧
        c + deltaCol d = c + deltaCol d + deltaCol d) := fun e => hneAB ⟨e.1.symm, e.2.symm⟩
    subst hl1
    obtain ⟨ch0, z, hq0, hqz, hl2⟩ := movePiece_inv _ _ _ _ _ _ hm2
    rw [peek_moved s.l _ _ _ _ _ _ x y hpx hpy, if_neg hneWB, if_neg hneWA, hpw] at hq0
    have e0 : chw = ch0 := Option.some.inj hq0
    subst e0
    rw [peek_moved s.l _ _ _ _ _ _ x y hpx hpy, if_neg hneBA, if_pos ⟨rfl, rfl⟩] at hqz
    have ez : vacated x = z := Option.some.inj hqz
    subst ez
    have hq0' : peek (moved s.l (r + deltaRow d) (c + deltaCol d) (r + deltaRow d + deltaRow d)
        (c + deltaCol d + deltaCol d) x y) r c = some chw := by
      rw [peek_moved s.l _ _ _ _ _ _ x y hpx hpy, if_neg hneWB, if_neg hneWA, hpw]
    have hqz' : peek (moved s.l (r + deltaRow d) (c + deltaCol d) (r + deltaRow d + deltaRow d)
        (c + deltaCol d + deltaCol d) x y) (r + deltaRow d) (c + deltaCol d) =
        some (vacated x) := by
      rw [peek_moved s.l _ _ _ _ _ _ x y hpx hpy, if_neg hneBA, if_pos ⟨rfl, rfl⟩]
    have hvW : has (vacated x) WALL = false := by rw [(has_vacated x).1]; exact hcb.1
    have hvB : has (vacated x) BOX = false := (has_vacated x).2.1
    have hl : s'.l = moved (moved s.l (r + deltaRow d) (c + deltaCol d)
        (r + deltaRow d + deltaRow d) (c + deltaCol d + deltaCol d) x y) r c
        (r + deltaRow d) (c + deltaCol d) chw (vacated x) := by
      rw [hs]; show s1.l = _; rw [q1', hl2]
    rw [hl]
    have hbm2 := box_moved _ r c (r + deltaRow d) (c + deltaCol d) chw (vacated x)
      hinw1 hing1 heg
    have hbm1 := box_moved s.l (r + deltaRow d) (c + deltaCol d)
      (r + deltaRow d + deltaRow d) (c + deltaCol d + deltaCol d) x y hing hinb heb
    refine ⟨?_, ?_, ?_⟩
    · rw [boxCount_moved _ r c _ _ chw (vacated x) hinw1 hing1 hq0' hqz' hneAW hvB heg]
      exact boxCount_moved s.l _ _ _ _ x y hing hinb hpx hpy hneAB hcs.2.2 heb
    · intro h
      rcases h with h | h
      · rw [h1] at h; exact absurd h (by decide)
      · rw [hgx, hsp] at h; exact Bool.noConfusion h
    · intro _ _
      refine ⟨?_, by rw [hgx]; exact hbx, by rw [hgy]; exact hcs.2.2, ?_, ?_, ?_⟩
      · rcases delta_cases d with ⟨a, b⟩ | ⟨a, b⟩ | ⟨a, b⟩ | ⟨a, b⟩ | ⟨a, b⟩
        · rw [a, b]; rfl
        · rw [a, b]; rfl
        · rw [a, b]; rfl
        · rw [a, b]; rfl
        · exfalso; apply hneWA; rw [a, b]; omega
      · rw [hbm2, if_pos ⟨rfl, rfl⟩]; exact hcw.2.1
      · rw [hbm2, if_neg hneAB, if_neg (fun e => hneWB ⟨e.1.symm, e.2.symm⟩), hbm1,
          if_pos ⟨rfl, rfl⟩]
        exact hbx
      · intro r' c' e1 e2
        rw [hbm2, if_neg e1]
        by_cases e3 : r' = r ∧ c' = c
        · rw [if_pos e3, e3.1, e3.2, hgw, hcw.2.1]
        · rw [if_neg e3, hbm1, if_neg e2, if_neg e1]

theorem go_returns (s : session) (d : Int) (hok : CellsOK s.l) (hw : WorkerTracked s.l)
    (hst : StackOK s)
    (hin1 : has (get s.l ((p2rc s.l.worker).1 + deltaRow d) ((p2rc s.l.worker).2 + deltaCol d))
      SPACE = true →
      InMap s.l ((p2rc s.l.worker).1 + deltaRow d) ((p2rc s.l.worker).2 + deltaCol d))
    (hin2 : has (get s.l ((p2rc s.l.worker).1 + deltaRow d) ((p2rc s.l.worker).2 + deltaCol d))
      BOX = true →
      has (get s.l ((p2rc s.l.worker).1 + deltaRow d + deltaRow d)
        ((p2rc s.l.worker).2 + deltaCol d + deltaCol d)) SPACE = true →
      InMap s.l ((p2rc s.l.worker).1 + deltaRow d + deltaRow d)
        ((p2rc s.l.worker).2 + deltaCol d + deltaCol d)) :
    ∃ s' m, go s d = some (s', m) := by
  have hinw := inMap_of_has_WORKER s.l _ _ hw
  have hcw := cellOK_worker _ (hok _ _ hinw) hw
  have hdv_of : has (get s.l ((p2rc s.l.worker).1 + deltaRow d)
      ((p2rc s.l.worker).2 + deltaCol d)) SPACE = true ∨
      has (get s.l ((p2rc s.l.worker).1 + deltaRow d)
        ((p2rc s.l.worker).2 + deltaCol d)) BOX = true →
      ¬ (deltaRow d = 0 ∧ deltaCol d = 0) := by
    intro h e
    rw [e.1, e.2, Int.add_zero, Int.add_zero] at h
    rcases h with h | h
    · rw [hcw.2.2] at h; cases h
    · rw [hcw.2.1] at h; cases h
  cases hsp : has (get s.l ((p2rc s.l.worker).1 + deltaRow d)
      ((p2rc s.l.worker).2 + deltaCol d)) SPACE
  · cases hbx : has (get s.l ((p2rc s.l.worker).1 + deltaRow d)
        ((p2rc s.l.worker).2 + deltaCol d)) BOX
    · exact ⟨s, 0, go_blocked s d hsp (Or.inl hbx)⟩
    · cases hsp2 : has (get s.l ((p2rc s.l.worker).1 + deltaRow d + deltaRow d)
          ((p2rc s.l.worker).2 + deltaCol d + deltaCol d)) SPACE
      · exact ⟨s, 0, go_blocked s d hsp (Or.inr hsp2)⟩
      · have hp := peek_inMap s.l _ _ (hin2 hbx hsp2)
        obtain ⟨s', h⟩ := go_push_returns s d _ hst hw (hdv_of (Or.inr hbx))
          hsp hbx hsp2 hp
        exact ⟨s', 1, h⟩
  · have hp := peek_inMap s.l _ _ (hin1 hsp)
    obtain ⟨s', h⟩ := go_slide_returns s d _ hst hw (hdv_of (Or.inl hsp)) hsp hp
    exact ⟨s', 1, h⟩

/-- C20: boxes are conserved.  On every well-formed board (the cell invariants
hold, the tracked worker position decodes to a cell `[r,c]` that carries
`WORKER`, and the cells `go` stores into are in the map: the cell ahead when it
reads as `SPACE`, the far cell when a box ahead has `SPACE` behind it) and for
every direction, `go` returns once the undo stack is allocated, and every
result of `go` leaves the number of cells carrying `BOX` unchanged.  A blocked or
sliding `go` leaves the `BOX` bit of every cell as it was; a pushing `go` (it
returns 1 and the cell ahead has no `SPACE`) has a unit offset `(dr,dc)`, finds a
box at `[r+dr,c+dc]` and none at `[r+2dr,c+2dc]`, leaves none at `[r+dr,c+dc]` and
one at `[r+2dr,c+2dc]`, and leaves the `BOX` bit of every other cell as it was. -/
theorem C20_boxes_conserved (s : session) (direction r c : Int) (hok : CellsOK s.l)
    (hw : WorkerTracked s.l) (hrc : p2rc s.l.worker = (r, c))
    (hin1 : has (get s.l (r + deltaRow direction) (c + deltaCol direction)) SPACE = true →
      InMap s.l (r + deltaRow direction) (c + deltaCol direction))
    (hin2 : has (get s.l (r + deltaRow direction) (c + deltaCol direction)) BOX = true →
      has (get s.l (r + deltaRow direction + deltaRow direction)
        (c + deltaCol direction + deltaCol direction)) SPACE = true →
      InMap s.l (r + deltaRow direction + deltaRow direction)
        (c + deltaCol direction + deltaCol direction)) :
    (StackOK s → ∃ s' m, go s direction = some (s', m)) ∧
    ∀ s' m, go s direction = some (s', m) →
      boxCount s'.l = boxCount s.l ∧
      ((m = 0 ∨ has (get s.l (r + deltaRow direction) (c + deltaCol direction)) SPACE = true) →
        ∀ r' c' : Int, has (get s'.l r' c') BOX = has (get s.l r' c') BOX) ∧
      (m = 1 → has (get s.l (r + deltaRow direction) (c + deltaCol direction)) SPACE = false →
        (deltaRow direction).natAbs + (deltaCol direction).natAbs = 1 ∧
        has (get s.l (r + deltaRow direction) (c + deltaCol direction)) BOX = true ∧
        has (get s.l (r + deltaRow direction + deltaRow direction)
          (c + deltaCol direction + deltaCol direction)) BOX = false ∧
        has (get s'.l (r + deltaRow direction) (c + deltaCol direction)) BOX = false ∧
        has (get s'.l (r + deltaRow direction + deltaRow direction)
          (c + deltaCol direction + deltaCol direction)) BOX = true ∧
        ∀ r' c' : Int, ¬ (r' = r + deltaRow direction ∧ c' = c + deltaCol direction) →
          ¬ (r' = r + deltaRow direction + deltaRow direction ∧
            c' = c + deltaCol direction + deltaCol direction) →
          has (get s'.l r' c') BOX = has (get s.l r' c') BOX) := by
  have hr : (p2rc s.l.worker).1 = r := by rw [hrc]
  have hc : (p2rc s.l.worker).2 = c := by rw [hrc]
  constructor
  · intro hst
    apply go_returns s direction hok hw hst
    · rw [hr, hc]; exact hin1
    · rw [hr, hc]; exact hin2
  · intro s' m hgo
    exact go_boxes s s' direction m r c hok hw hrc hin1 hin2 hgo

/-- Witness of C20: on `#@$.#` with one box, `go` east returns and every result
has one box, at `[1,3]` and no longer at `[1,2]`. -/
theorem C20_boxes_conserved_witness :
    CellsOK boxAhead.l ∧ WorkerTracked boxAhead.l ∧ p2rc boxAhead.l.worker = (1, 1) ∧
      StackOK boxAhead ∧ boxCount boxAhead.l = 1 ∧
      (∃ s' m, go boxAhead EAST = some (s', m)) ∧
      ∀ s' m, go boxAhead EAST = some (s', m) → boxCount s'.l = 1 ∧
        (m = 1 → has (get s'.l 1 2) BOX = false ∧ has (get s'.l 1 3) BOX = true) :=
  have h1 : CellsOK boxAhead.l := cellsOK_of_all _ (by decide)
  have h2 : WorkerTracked boxAhead.l := by unfold WorkerTracked; decide
  have h3 : StackOK boxAhead := ⟨by decide, by decide, by decide, by decide⟩
  have h4 : InMap boxAhead.l (1 + deltaRow EAST + deltaRow EAST)
      (1 + deltaCol EAST + deltaCol EAST) := ⟨by decide, by decide, by decide, by decide⟩
  have h5 : has (get boxAhead.l (1 + deltaRow EAST) (1 + deltaCol EAST)) SPACE = false := by
    decide
  have w := C20_boxes_conserved boxAhead EAST 1 1 h1 h2 (by decide)
    (fun h => absurd h (by decide)) (fun _ _ => h4)
  ⟨h1, h2, by decide, h3, by decide, w.1 h3, fun s' m hgo =>
    ⟨(w.2 s' m hgo).1, fun hm =>
      ⟨((w.2 s' m hgo).2.2 hm h5).2.2.2.1, ((w.2 s' m hgo).2.2 hm h5).2.2.2.2.1⟩⟩⟩
/-! ## The tracked worker position -/

theorem go_tracks (s s' : session) (d m r c : Int)
    (hdir : d = NORTH ∨ d = EAST ∨ d = SOUTH ∨ d = WEST) (hu : WorkerUnique s.l)
    (hrc : p2rc s.l.worker = (r, c))
    (hin1 : has (get s.l (r + deltaRow d) (c + deltaCol d)) SPACE = true →
      InMap s.l (r + deltaRow d) (c + deltaCol d))
    (hin2 : has (get s.l (r + deltaRow d) (c + deltaCol d)) BOX = true →
      has (get s.l (r + deltaRow d + deltaRow d) (c + deltaCol d + deltaCol d)) SPACE = true →
      InMap s.l (r + deltaRow d + deltaRow d) (c + deltaCol d + deltaCol d))
    (h64 : (has (get s.l (r + deltaRow d) (c + deltaCol d)) SPACE = true ∨
        (has (get s.l (r + deltaRow d) (c + deltaCol d)) BOX = true ∧
          has (get s.l (r + deltaRow d + deltaRow d) (c + deltaCol d + deltaCol d))
            SPACE = true)) →
      r + deltaRow d < 64 ∧ c + deltaCol d < 64)
    (hgo : go s d = some (s', m)) :
    WorkerUnique s'.l ∧ (m = 0 ∨ m = 1) ∧ (m = 1 ↔ p2rc s'.l.worker ≠ p2rc s.l.worker) ∧
      (m = 1 ↔ s'.l.worker ≠ s.l.worker) := by
  have hr : (p2rc s.l.worker).1 = r := by rw [hrc]
  have hc : (p2rc s.l.worker).2 = c := by rw [hrc]
  have hw : has (get s.l r c) WORKER = true := (hu r c).2 ⟨hr.symm, hc.symm⟩
  have hinW := inMap_of_has_WORKER s.l r c hw
  have hpw := peek_inMap s.l r c hinW
  have hdv := delta_valid d hdir
  have hneAW : ¬ (r + deltaRow d = r ∧ c + deltaCol d = c) := by
    intro e; apply hdv; constructor <;> omega
  have hneWA : ¬ (r = r + deltaRow d ∧ c = c + deltaCol d) := by
    intro e; apply hdv; constructor <;> omega
  have hneWB : ¬ (r = r + deltaRow d + deltaRow d ∧ c = c + deltaCol d + deltaCol d) := by
    intro e; apply hdv; constructor <;> omega
  have hneAB : ¬ (r + deltaRow d = r + deltaRow d + deltaRow d ∧
      c + deltaCol d = c + deltaCol d + deltaCol d) := by
    intro e; apply hdv; constructor <;> omega
  have hneBA : ¬ (r + deltaRow d + deltaRow d = r + deltaRow d ∧
      c + deltaCol d + deltaCol d = c + deltaCol d) := by
    intro e; apply hdv; constructor <;> omega
  have hAw : has (get s.l (r + deltaRow d) (c + deltaCol d)) WORKER = false := by
    cases hh : has (get s.l (r + deltaRow d) (c + deltaCol d)) WORKER
    · rfl
    · have e := (hu _ _).1 hh
      rw [hr, hc] at e
      exact absurd e hneAW
  have hinv := go_inv s s' d m hgo
  rw [hr, hc] at hinv
  -- the shape of the conclusion once the move has been made to the cell ahead
  have key : ∀ l2 : level, s'.l = l2 → m = 1 →
      l2.worker = rc2p (r + deltaRow d) (c + deltaCol d) →
      InMap s.l (r + deltaRow d) (c + deltaCol d) →
      (r + deltaRow d < 64 ∧ c + deltaCol d < 64) →
      (∀ r' c' : Int, has (get l2 r' c') WORKER = true ↔
        (r' = r + deltaRow d ∧ c' = c + deltaCol d)) →
      WorkerUnique s'.l ∧ (m = 0 ∨ m = 1) ∧ (m = 1 ↔ p2rc s'.l.worker ≠ p2rc s.l.worker) ∧
        (m = 1 ↔ s'.l.worker ≠ s.l.worker) := by
    intro l2 hl h1 hwk hA hb hcells
    have hdec : p2rc l2.worker = (r + deltaRow d, c + deltaCol d) := by
      rw [hwk]; exact p2rc_rc2p _ _ hA.1 hb.1 hA.2.1 hb.2
    have hd1 : (p2rc l2.worker).1 = r + deltaRow d := by rw [hdec]
    have hd2 : (p2rc l2.worker).2 = c + deltaCol d := by rw [hdec]
    have hchg : p2rc l2.worker ≠ p2rc s.l.worker := by
      rw [hdec, hrc]
      intro e
      exact hneAW ⟨(Prod.mk.inj e).1, (Prod.mk.inj e).2⟩
    rw [hl]
    refine ⟨?_, Or.inr h1, ⟨fun _ => hchg, fun _ => h1⟩, ⟨fun _ e => ?_, fun _ => h1⟩⟩
    · intro r' c'
      rw [hd1, hd2]
      exact hcells r' c'
    · apply hchg; rw [e]
  rcases hinv with ⟨h0, hs, _, _⟩ | ⟨h1, hsp, l1, s1, hm, hpush, hs⟩ |
    ⟨h1, hsp, hbx, hsp2, l1, l2, s1, hm1, hm2, hpush, hs⟩
  · subst hs
    refine ⟨hu, Or.inl h0, ⟨fun h1 => ?_, fun h => absurd rfl h⟩,
      ⟨fun h1 => ?_, fun h => absurd rfl h⟩⟩
    · rw [h0] at h1; exact absurd h1 (by decide)
    · rw [h0] at h1; exact absurd h1 (by decide)
  · have hA := hin1 hsp
    have hb := h64 (Or.inl hsp)
    have hpA := peek_inMap s.l _ _ hA
    obtain ⟨q1, _⟩ := pushMove_inv _ _ _ hpush
    have q1' : s1.l = l1 := q1
    obtain ⟨ch0, ch1, hp0, hp1, hl1⟩ := movePiece_inv _ _ _ _ _ _ hm
    rw [hpw] at hp0
    rw [hpA] at hp1
    have e0 := Option.some.inj hp0
    have e1 := Option.some.inj hp1
    subst e0; subst e1
    have he := entered_ne_zero (get s.l r c) (get s.l (r + deltaRow d) (c + deltaCol d))
      (Or.inr hw)
    have hl : s'.l = moved s.l r c (r + deltaRow d) (c + deltaCol d) (get s.l r c)
        (get s.l (r + deltaRow d) (c + deltaCol d)) := by
      rw [hs]; show s1.l = _; rw [q1', hl1]
    apply key _ hl h1 (by rw [moved_worker, if_pos ⟨hr.symm, hc.symm⟩]) hA hb
    intro r' c'
    rw [get_moved s.l r c _ _ _ _ hinW hA he]
    by_cases e1 : r' = r + deltaRow d ∧ c' = c + deltaCol d
    · rw [if_pos e1, (has_entered _ _).2.2.2.1]
      exact ⟨fun _ => e1, fun _ => hw⟩
    · rw [if_neg e1]
      by_cases e2 : r' = r ∧ c' = c
      · rw [if_pos e2, (has_vacated _).2.2.2.1]
        exact ⟨fun h => Bool.noConfusion h, fun h => absurd h e1⟩
      · rw [if_neg e2, hu r' c', hr, hc]
        exact ⟨fun h => absurd h e2, fun h => absurd h e1⟩
  · have hA := inMap_of_has_BOX s.l _ _ hbx
    have hB := hin2 hbx hsp2
    have hb := h64 (Or.inr ⟨hbx, hsp2⟩)
    have hpA := peek_inMap s.l _ _ hA
    have hpB := peek_inMap s.l _ _ hB
    obtain ⟨q1, _⟩ := pushMove_inv _ _ _ hpush
    have q1' : s1.l = l2 := q1
    obtain ⟨x, y, hpx, hpy, hl1⟩ := movePiece_inv _ _ _ _ _ _ hm1
    rw [hpA] at hpx
    rw [hpB] at hpy
    have ex := Option.some.inj hpx
    have ey := Option.some.inj hpy
    subst ex; subst ey
    have he1 := entered_ne_zero (get s.l (r + deltaRow d) (c + deltaCol d))
      (get s.l (r + deltaRow d + deltaRow d) (c + deltaCol d + deltaCol d)) (Or.inl hbx)
    subst hl1
    have hg1 := get_moved s.l (r + deltaRow d) (c + deltaCol d) (r + deltaRow d + deltaRow d)
      (c + deltaCol d + deltaCol d) (get s.l (r + deltaRow d) (c + deltaCol d))
      (get s.l (r + deltaRow d + deltaRow d) (c + deltaCol d + deltaCol d)) hA hB he1
    have hi1 := inMap_moved s.l (r + deltaRow d) (c + deltaCol d) (r + deltaRow d + deltaRow d)
      (c + deltaCol d + deltaCol d) (get s.l (r + deltaRow d) (c + deltaCol d))
      (get s.l (r + deltaRow d + deltaRow d) (c + deltaCol d + deltaCol d)) hA hB he1
    have hinW1 := (hi1 r c).2 hinW
    have hA1 := (hi1 (r + deltaRow d) (c + deltaCol d)).2 hA
    have hpw1 := peek_inMap _ _ _ hinW1
    have hpA1 := peek_inMap _ _ _ hA1
    rw [hg1, if_neg hneWB, if_neg hneWA] at hpw1
    rw [hg1, if_neg hneAB, if_pos ⟨rfl, rfl⟩] at hpA1
    obtain ⟨ch0, z, hq0, hqz, hl2⟩ := movePiece_inv _ _ _ _ _ _ hm2
    rw [hpw1] at hq0
    rw [hpA1] at hqz
    have e0 := Option.some.inj hq0
    have ez := Option.some.inj hqz
    subst e0; subst ez
    have he2 := entered_ne_zero (get s.l r c)
      (vacated (get s.l (r + deltaRow d) (c + deltaCol d))) (Or.inr hw)
    have hw1 : (moved s.l (r + deltaRow d) (c + deltaCol d) (r + deltaRow d + deltaRow d)
        (c + deltaCol d + deltaCol d) (get s.l (r + deltaRow d) (c + deltaCol d))
        (get s.l (r + deltaRow d + deltaRow d) (c + deltaCol d + deltaCol d))).worker =
        s.l.worker := by
      rw [moved_worker, hr, hc, if_neg hneAW]
    have hl : s'.l = l2 := by rw [hs]; exact q1'
    apply key _ hl h1 (by rw [hl2, moved_worker, hw1, if_pos ⟨hr.symm, hc.symm⟩]) hA hb
    intro r' c'
    rw [hl2, get_moved _ r c _ _ _ _ hinW1 hA1 he2]
    by_cases e1 : r' = r + deltaRow d ∧ c' = c + deltaCol d
    · rw [if_pos e1, (has_entered _ _).2.2.2.1]
      exact ⟨fun _ => e1, fun _ => hw⟩
    · rw [if_neg e1]
      by_cases e2 : r' = r ∧ c' = c
      · rw [if_pos e2, (has_vacated _).2.2.2.1]
        exact ⟨fun h => Bool.noConfusion h, fun h => absurd h e1⟩
      · rw [if_neg e2, hg1, if_neg e1]
        by_cases e3 : r' = r + deltaRow d + deltaRow d ∧ c' = c + deltaCol d + deltaCol d
        · rw [if_pos e3, (has_entered _ _).2.2.2.1, hAw]
          exact ⟨fun h => Bool.noConfusion h, fun h => absurd h e1⟩
        · rw [if_neg e3, hu r' c', hr, hc]
          exact ⟨fun h => absurd h e2, fun h => absurd h e1⟩
theorem workerUnique_of_scan (l : level)
    (hw : has (get l (p2rc l.worker).1 (p2rc l.worker).2) WORKER = true)
    (hscan : ((List.range l.pic.length).all fun i =>
      (List.range (l.pic.getD i []).length).all fun j =>
        !has (get l (i : Int) (j : Int)) WORKER ||
          decide ((i : Int) = (p2rc l.worker).1 ∧ (j : Int) = (p2rc l.worker).2)) = true) :
    WorkerUnique l := by
  intro r c
  constructor
  · intro h
    have hin := inMap_of_has_WORKER l r c h
    obtain ⟨i, rfl⟩ := Int.eq_ofNat_of_zero_le hin.1
    obtain ⟨j, rfl⟩ := Int.eq_ofNat_of_zero_le hin.2.1
    have hj := (inMap_nat l i j).1 hin
    have hlen := strlen_le_length (l.pic.getD i [])
    have hi : i < l.pic.length := by
      have := hin.2.2.1
      unfold level.rows at this
      omega
    rw [List.all_eq_true] at hscan
    have h1 := hscan i (List.mem_range.2 hi)
    rw [List.all_eq_true] at h1
    have h2 := h1 j (List.mem_range.2 (by omega))
    rw [h] at h2
    simpa using h2
  · intro h
    rw [h.1, h.2]
    exact hw

theorem go_returns_tracked (s : session) (d r c : Int)
    (hdir : d = NORTH ∨ d = EAST ∨ d = SOUTH ∨ d = WEST) (hu : WorkerUnique s.l)
    (hrc : p2rc s.l.worker = (r, c))
    (hin1 : has (get s.l (r + deltaRow d) (c + deltaCol d)) SPACE = true →
      InMap s.l (r + deltaRow d) (c + deltaCol d))
    (hin2 : has (get s.l (r + deltaRow d) (c + deltaCol d)) BOX = true →
      has (get s.l (r + deltaRow d + deltaRow d) (c + deltaCol d + deltaCol d)) SPACE = true →
      InMap s.l (r + deltaRow d + deltaRow d) (c + deltaCol d + deltaCol d))
    (hst : StackOK s) : ∃ s' m, go s d = some (s', m) := by
  have hr : (p2rc s.l.worker).1 = r := by rw [hrc]
  have hc : (p2rc s.l.worker).2 = c := by rw [hrc]
  have hw : has (get s.l r c) WORKER = true := (hu r c).2 ⟨hr.symm, hc.symm⟩
  have hpw := peek_inMap s.l r c (inMap_of_has_WORKER s.l r c hw)
  have hwt : WorkerTracked s.l := by unfold WorkerTracked; rw [hr, hc]; exact hw
  have hdv := delta_valid d hdir
  rw [← hr, ← hc] at hin1 hin2
  cases hsp : has (get s.l ((p2rc s.l.worker).1 + deltaRow d)
      ((p2rc s.l.worker).2 + deltaCol d)) SPACE
  · cases hbx : has (get s.l ((p2rc s.l.worker).1 + deltaRow d)
        ((p2rc s.l.worker).2 + deltaCol d)) BOX
    · exact ⟨s, 0, go_blocked s d hsp (Or.inl hbx)⟩
    · cases hsp2 : has (get s.l ((p2rc s.l.worker).1 + deltaRow d + deltaRow d)
          ((p2rc s.l.worker).2 + deltaCol d + deltaCol d)) SPACE
      · exact ⟨s, 0, go_blocked s d hsp (Or.inr hsp2)⟩
      · have hp := peek_inMap s.l _ _ (hin2 hbx hsp2)
        obtain ⟨s', h⟩ := go_push_returns s d _ hst hwt hdv hsp hbx hsp2 hp
        exact ⟨s', 1, h⟩
  · have hp := peek_inMap s.l _ _ (hin1 hsp)
    obtain ⟨s', h⟩ := go_slide_returns s d _ hst hwt hdv hsp hp
    exact ⟨s', 1, h⟩

/-- C21: worker tracking stays consistent.  If exactly one cell of the drawn map
carries `WORKER` and the tracked position `l->worker` decodes (via `p2rc`) to that
cell `[r,c]`, then for each of the four directions, with the cells `go` stores
into in the map (the cell ahead when it reads `SPACE`, the far cell when a box
ahead has `SPACE` behind it) and the cell the worker moves onto below row and
column 64: `go` returns once the undo stack is allocated, and after every result
of `go` there is still exactly one cell carrying `WORKER` and `l->worker` decodes
to it; `go` returns 0 or 1, and it returns 1 if and only if the tracked position
changed (as decoded position and as stored value). -/
theorem C21_worker_tracking_consistent (s : session) (direction r c : Int)
    (hdir : direction = NORTH ∨ direction = EAST ∨ direction = SOUTH ∨ direction = WEST)
    (hu : WorkerUnique s.l) (hrc : p2rc s.l.worker = (r, c))
    (hin1 : has (get s.l (r + deltaRow direction) (c + deltaCol direction)) SPACE = true →
      InMap s.l (r + deltaRow direction) (c + deltaCol direction))
    (hin2 : has (get s.l (r + deltaRow direction) (c + deltaCol direction)) BOX = true →
      has (get s.l (r + deltaRow direction + deltaRow direction)
        (c + deltaCol direction + deltaCol direction)) SPACE = true →
      InMap s.l (r + deltaRow direction + deltaRow direction)
        (c + deltaCol direction + deltaCol direction))
    (h64 : (has (get s.l (r + deltaRow direction) (c + deltaCol direction)) SPACE = true ∨
        (has (get s.l (r + deltaRow direction) (c + deltaCol direction)) BOX = true ∧
          has (get s.l (r + deltaRow direction + deltaRow direction)
            (c + deltaCol direction + deltaCol direction)) SPACE = true)) →
      r + deltaRow direction < 64 ∧ c + deltaCol direction < 64) :
    (StackOK s → ∃ s' m, go s direction = some (s', m)) ∧
    ∀ s' m, go s direction = some (s', m) →
      WorkerUnique s'.l ∧ (m = 0 ∨ m = 1) ∧
      (m = 1 ↔ p2rc s'.l.worker ≠ p2rc s.l.worker) ∧ (m = 1 ↔ s'.l.worker ≠ s.l.worker) :=
  ⟨go_returns_tracked s direction r c hdir hu hrc hin1 hin2,
    fun s' m hgo => go_tracks s s' direction m r c hdir hu hrc hin1 hin2 h64 hgo⟩

/-- Witness of C21: on `#@$.#` the worker at `[1,1]` is the only `WORKER` cell;
`go` east returns 1, the worker is then tracked at `[1,2]`, again the only
`WORKER` cell; `go` west at the wall returns 0 and the position stays. -/
theorem C21_worker_tracking_consistent_witness :
    WorkerUnique boxAhead.l ∧ p2rc boxAhead.l.worker = (1, 1) ∧
      (∃ s', go boxAhead EAST = some (s', 1) ∧ WorkerUnique s'.l ∧
        p2rc s'.l.worker = (1, 2)) ∧
      (∀ s' m, go boxAhead WEST = some (s', m) →
        WorkerUnique s'.l ∧ (m = 1 ↔ s'.l.worker ≠ boxAhead.l.worker)) ∧
      go boxAhead WEST = some (boxAhead, 0) :=
  have hu : WorkerUnique boxAhead.l := workerUnique_of_scan _ (by decide) (by decide)
  have hgo : go boxAhead EAST = some (boxAheadPushed, 1) := by decide
  have hB : InMap boxAhead.l (1 + deltaRow EAST + deltaRow EAST)
      (1 + deltaCol EAST + deltaCol EAST) := ⟨by decide, by decide, by decide, by decide⟩
  have e := C21_worker_tracking_consistent boxAhead EAST 1 1 (Or.inr (Or.inl rfl)) hu
    (by decide) (fun h => absurd h (by decide)) (fun _ _ => hB)
    (fun _ => ⟨by decide, by decide⟩)
  have w := C21_worker_tracking_consistent boxAhead WEST 1 1 (Or.inr (Or.inr (Or.inr rfl))) hu
    (by decide) (fun h => absurd h (by decide)) (fun h => absurd h (by decide))
    (fun _ => ⟨by decide, by decide⟩)
  ⟨hu, by decide, ⟨boxAheadPushed, hgo, (e.2 _ _ hgo).1, by decide⟩,
    fun s' m h => ⟨(w.2 s' m h).1, (w.2 s' m h).2.2.2⟩, by decide⟩
/-! ## The invariant of play -/

theorem undo_board (t : session) (p : Int) (h0 : 0 ≤ t.UndoTop)
    (hp : t.UndoStack[t.UndoTop.toNat]? = some p) :
    undo t = (undoBoard t.l p).bind fun l2 =>
      some ({ t with UndoTop := t.UndoTop - 1, l := l2, MoveCount := t.MoveCount - 1 }, 1) := by
  rw [undo_eq t p h0 hp]
  unfold undoBoard
  cases movePiece t.l (p2rc t.l.worker).1 (p2rc t.l.worker).2 (p2rc p).1 (p2rc p).2 with
  | none => rfl
  | some l1 => rfl

theorem same_refl (a : level) : SameButHilite a a := by
  refine ⟨rfl, rfl, rfl, rfl, rfl, rfl, rfl, ?_⟩
  intro r c
  cases h : peek a r c with
  | none => exact Or.inl ⟨rfl, rfl⟩
  | some x => exact Or.inr ⟨x, x, rfl, rfl, sameByte_refl x⟩

theorem same_trans (a b c : level) (h1 : SameButHilite a b) (h2 : SameButHilite b c) :
    SameButHilite a c := by
  obtain ⟨f1, f2, f3, f4, f5, f6, f7, hc1⟩ := h1
  obtain ⟨g1, g2, g3, g4, g5, g6, g7, hc2⟩ := h2
  refine ⟨f1.trans g1, f2.trans g2, f3.trans g3, f4.trans g4, f5.trans g5, f6.trans g6,
    f7.trans g7, ?_⟩
  intro r k
  rcases hc1 r k with ⟨a1, a2⟩ | ⟨x, y, a1, a2, a3⟩
  · rcases hc2 r k with ⟨_, b2⟩ | ⟨y', z, b1, _, _⟩
    · exact Or.inl ⟨a1, b2⟩
    · rw [a2] at b1; cases b1
  · rcases hc2 r k with ⟨b1, _⟩ | ⟨y', z, b1, b2, b3⟩
    · rw [a2] at b1; cases b1
    · rw [a2] at b1
      have e := Option.some.inj b1
      subst e
      exact Or.inr ⟨x, z, a1, b2, a3.1.trans b3.1, a3.2.trans b3.2⟩

theorem win_same (l l' : level) (v : Int) (h : win l = some (l', v)) : SameButHilite l l' := by
  rcases win_inv l l' v h with ⟨_, e⟩ | ⟨_, D, mk⟩
  · rw [e]; exact same_refl l
  · obtain ⟨m1, m2, m3, m4, m5, m6, m7, mp, _⟩ := mk
    refine ⟨m1.symm, m2.symm, m3.symm, m4.symm, m5.symm, m6.symm, m7.symm, ?_⟩
    intro r c
    cases hp : peek l r c with
    | none => left; rw [mp r c, hp]; exact ⟨rfl, rfl⟩
    | some x =>
      right
      refine ⟨x, _, rfl, by rw [mp r c, hp]; rfl, ?_⟩
      show sameButHiliteByte x
        (if (D r c && has (get l r c) BOX) = true then x ||| HILITE else x)
      by_cases hD : (D r c && has (get l r c) BOX) = true
      · rw [if_pos hD]
        refine ⟨(hilite_idem x).symm, ?_⟩
        have hb : has (get l r c) BOX = true := by
          rw [Bool.and_eq_true] at hD; exact hD.2
        have hin := peek_inMap l r c (inMap_of_has_BOX l r c hb)
        rw [hp] at hin
        have ex := Option.some.inj hin
        have hx0 : x ≠ 0 := by rw [ex]; exact has_ne_zero _ BOX hb
        exact ⟨fun e => absurd e hx0, fun e => absurd e (hilite_ne_zero x)⟩
      · rw [if_neg hD]; exact sameByte_refl x

theorem undoBoard_sim (a b a' : level) (p : Int) (h : SameButHilite a b)
    (hu : undoBoard a p = some a') : ∃ b', undoBoard b p = some b' ∧ SameButHilite a' b' := by
  have hw : b.worker = a.worker := h.2.2.2.2.1.symm
  unfold undoBoard at hu ⊢
  rw [hw]
  cases hm : movePiece a (p2rc a.worker).1 (p2rc a.worker).2 (p2rc p).1 (p2rc p).2 with
  | none => rw [hm] at hu; simp at hu
  | some a1 =>
    rw [hm] at hu
    simp only [Option.some_bind] at hu
    obtain ⟨b1, hb1, hs1⟩ := movePiece_sim a b h _ _ _ _ a1 hm
    rw [hb1]
    simp only [Option.some_bind]
    by_cases hpull : Int.land PULL p ≠ 0
    · rw [if_pos hpull] at hu ⊢
      exact movePiece_sim a1 b1 hs1 _ _ _ _ a' hu
    · rw [if_neg hpull] at hu ⊢
      have e := Option.some.inj hu
      subst e
      exact ⟨b1, rfl, hs1⟩

theorem undoable_wf (stack : List Int) (n : Nat) (l : level) (h : Undoable stack n l) :
    WellFormed l := by
  cases n with
  | zero => exact h
  | succ k => exact h.1

theorem undoable_len (stack : List Int) (n : Nat) (l : level) (h : Undoable stack n l) :
    n ≤ stack.length := by
  cases n with
  | zero => exact Nat.zero_le _
  | succ k =>
    obtain ⟨_, p, l', hp, _, _⟩ := h
    have := (List.getElem?_eq_some_iff.1 hp).1
    omega

theorem undoable_congr (st st' : List Int) (n : Nat) (l : level)
    (hst : ∀ i : Nat, i < n → st'[i]? = st[i]?) (h : Undoable st n l) : Undoable st' n l := by
  induction n generalizing l with
  | zero => exact h
  | succ k ih =>
    obtain ⟨hwf, p, l', hp, hb, hrec⟩ := h
    refine ⟨hwf, p, l', ?_, hb, ih l' (fun i hi => hst i (by omega)) hrec⟩
    rw [hst k (by omega)]; exact hp

theorem go_undoable (s s' : session) (d m : Int) (htop : -1 ≤ s.UndoTop)
    (hu : Undoable s.UndoStack (s.UndoTop + 1).toNat s.l) (hst : StoresInMap s.l d)
    (hgo : go s d = some (s', m)) :
    -1 ≤ s'.UndoTop ∧ Undoable s'.UndoStack (s'.UndoTop + 1).toNat s'.l := by
  rcases go_counts s s' d m hgo with ⟨_, hs⟩ | ⟨h1, _, _⟩
  · rw [hs]; exact ⟨htop, hu⟩
  · subst h1
    obtain ⟨hok, h64, r, c, hw⟩ := undoable_wf _ _ _ hu
    obtain ⟨k1, k2, k3, k4, _, k6, ⟨p, hp⟩, k8, k9⟩ := go_undo_step s s' d r c hok h64 hw hst hgo
    obtain ⟨t', hundo, ht'l, _⟩ := k9 s' rfl rfl rfl rfl
    rw [undo_board s' p k6 hp] at hundo
    have hlen := undoable_len _ _ _ hu
    have hn : (s'.UndoTop + 1).toNat = (s.UndoTop + 1).toNat + 1 := by omega
    have hidx : s'.UndoTop.toNat = (s.UndoTop + 1).toNat := by omega
    cases hb : undoBoard s'.l p with
    | none => rw [hb] at hundo; simp at hundo
    | some l2 =>
      rw [hb] at hundo
      simp only [Option.some_bind, Option.some.injEq, Prod.mk.injEq, and_true] at hundo
      have el : l2 = s.l := by rw [← ht'l, ← hundo]
      refine ⟨by omega, ?_⟩
      rw [hn]
      refine ⟨⟨k1, k2, k3⟩, p, s.l, by rw [← hidx]; exact hp, by rw [hb, el], ?_⟩
      exact undoable_congr s.UndoStack s'.UndoStack _ s.l
        (fun i hi => k8 i (by omega) (by omega)) hu

theorem same_inMap (a b : level) (h : SameButHilite a b) (r c : Int) :
    InMap a r c ↔ InMap b r c := by
  unfold InMap level.rows
  rw [h.2.2.2.2.2.2.1, same_strlen a b h r.toNat]

theorem same_storesInMap (g l : level) (d : Int) (hsame : SameButHilite g l)
    (h : StoresInMap l d) : StoresInMap g d := by
  have hwk : g.worker = l.worker := hsame.2.2.2.2.1
  have hA := sameByte_has _ _ (same_get g l hsame ((p2rc l.worker).1 + deltaRow d)
    ((p2rc l.worker).2 + deltaCol d))
  have hB := sameByte_has _ _ (same_get g l hsame
    ((p2rc l.worker).1 + deltaRow d + deltaRow d)
    ((p2rc l.worker).2 + deltaCol d + deltaCol d))
  unfold StoresInMap
  rw [hwk, hA.2.2.2.2, hA.2.1, hB.2.2.2.2, same_inMap g l hsame, same_inMap g l hsame]
  exact h

theorem playable_go (t t' : session) (d m : Int) (h : Playable t) (hst : StoresInMap t.l d)
    (hgo : go t d = some (t', m)) : Playable t' := by
  obtain ⟨htop, g, hsame, hu⟩ := h
  have hrel0 : SameButHiliteSession t { t with l := g } :=
    ⟨same_symm _ _ hsame, rfl, rfl, rfl, rfl⟩
  obtain ⟨sg', hgo', hrel⟩ := go_sim t { t with l := g } t' d m hrel0 hgo
  obtain ⟨htop', hu'⟩ := go_undoable { t with l := g } sg' d m htop hu
    (same_storesInMap g t.l d hsame hst) hgo'
  refine ⟨by rw [hrel.2.2.2.1]; exact htop', sg'.l, same_symm _ _ hrel.1, ?_⟩
  rw [hrel.2.2.1, hrel.2.2.2.1]
  exact hu'

theorem playable_undo (t t' : session) (m : Int) (h : Playable t)
    (hundo : undo t = some (t', m)) : Playable t' := by
  rcases undo_inv t t' m hundo with ⟨_, _, hs⟩ | ⟨h0, _, a3, _, a5, _, p, _, hp, _⟩
  · rw [hs]; exact h
  · obtain ⟨_, g, hsame, hu⟩ := h
    have hn : (t.UndoTop + 1).toNat = t.UndoTop.toNat + 1 := by omega
    rw [hn] at hu
    obtain ⟨_, p', g', hp', hb, hrec⟩ := hu
    rw [hp] at hp'
    have ep := Option.some.inj hp'
    subst ep
    obtain ⟨b', hb', hs'⟩ := undoBoard_sim g t.l g' p hsame hb
    rw [undo_board t p h0 hp, hb'] at hundo
    simp only [Option.some_bind, Option.some.injEq, Prod.mk.injEq, and_true] at hundo
    have el : t'.l = b' := by rw [← hundo.1]
    have hk : (t'.UndoTop + 1).toNat = t.UndoTop.toNat := by omega
    refine ⟨by omega, g', by rw [el]; exact hs', ?_⟩
    rw [a5, hk]
    exact hrec

theorem playable_win (t : session) (l' : level) (v : Int) (h : Playable t)
    (hw : win t.l = some (l', v)) : Playable { t with l := l' } := by
  obtain ⟨htop, g, hsame, hu⟩ := h
  exact ⟨htop, g, same_trans g t.l l' hsame (win_same t.l l' v hw), hu⟩

theorem playable_call (t t' : session) (k : Call) (h : Playable t)
    (hmap : match k with
      | Call.move d => StoresInMap t.l d
      | _ => True)
    (hk : applyCall t k = some t') : Playable t' := by
  cases k with
  | move d =>
    simp only [applyCall] at hk
    cases hg : go t d with
    | none => rw [hg] at hk; simp at hk
    | some x =>
      rw [hg] at hk
      simp only [Option.map_some', Option.some.injEq] at hk
      rw [← hk]
      exact playable_go t x.1 d x.2 h hmap hg
  | back =>
    simp only [applyCall] at hk
    cases hg : undo t with
    | none => rw [hg] at hk; simp at hk
    | some x =>
      rw [hg] at hk
      simp only [Option.map_some', Option.some.injEq] at hk
      rw [← hk]
      exact playable_undo t x.1 x.2 h hg
  | check =>
    simp only [applyCall] at hk
    cases hg : win t.l with
    | none => rw [hg] at hk; simp at hk
    | some x =>
      rw [hg] at hk
      simp only [Option.map_some', Option.some.injEq] at hk
      rw [← hk]
      exact playable_win t x.1 x.2 h hg

theorem playable_calls (calls : List Call) (s t : session) (h : Playable s)
    (hmap : CallsInMap s calls) (hc : applyCalls s calls = some t) : Playable t := by
  induction calls generalizing s with
  | nil =>
    simp only [applyCalls, Option.some.injEq] at hc
    rw [← hc]; exact h
  | cons k rest ih =>
    simp only [applyCalls] at hc
    cases hk : applyCall s k with
    | none => rw [hk] at hc; simp at hc
    | some s1 =>
      simp only [CallsInMap, hk] at hmap
      rw [hk] at hc
      exact ih s1 (playable_call s s1 k h hmap.1 hk) hmap.2 hc

theorem fresh_playable (s : session) (h : FreshState s) : Playable s := by
  obtain ⟨hwf, htop⟩ := h
  have h0 : ((-1 : Int) + 1).toNat = 0 := rfl
  refine ⟨by omega, s.l, same_refl s.l, ?_⟩
  rw [htop, h0]
  exact hwf

theorem cellOK_glyphBit (ch : Nat) (h : cellOK ch = true) : hasGlyphBit ch = true := by
  unfold cellOK at h
  unfold hasGlyphBit
  cases hW : has ch WALL <;> cases hB : has ch BOX <;> cases hK : has ch WORKER <;>
    cases hS : has ch SPACE <;> simp_all

theorem playable_bits (t : session) (h : Playable t) (r c : Int) :
    hasGlyphBit (get t.l r c) = true := by
  obtain ⟨_, g, hsame, hu⟩ := h
  have hok := (undoable_wf _ _ _ hu).1
  have hb := sameByte_has _ _ (same_get g t.l hsame r c)
  have hg : hasGlyphBit (get g r c) = true := by
    by_cases hin : InMap g r c
    · exact cellOK_glyphBit _ (hok r c hin)
    · rw [get_outside g r c hin]; decide
  unfold hasGlyphBit at hg ⊢
  rw [← hb.1, ← hb.2.1, ← hb.2.2.1, ← hb.2.2.2.1, ← hb.2.2.2.2]
  exact hg

theorem stackOK_go (s s' : session) (d m : Int) (h : StackOK s) (hgo : go s d = some (s', m)) :
    StackOK s' := by
  rcases go_inv s s' d m hgo with ⟨_, hs, _⟩ | ⟨_, _, l1, s1, _, hpush, hs⟩ |
    ⟨_, _, _, _, l1, l2, s1, _, _, hpush, hs⟩
  · rw [hs]; exact h
  · obtain ⟨s2, h2, hok⟩ := pushMove_ok { s with l := l1 }
      (rc2p (p2rc s.l.worker).1 (p2rc s.l.worker).2) (stackOK_setLevel s l1 h)
    rw [hpush] at h2
    have e := Option.some.inj h2
    subst e
    rw [hs]; exact hok
  · obtain ⟨s2, h2, hok⟩ := pushMove_ok { s with l := l2 }
      (Int.lor (rc2p (p2rc s.l.worker).1 (p2rc s.l.worker).2) PULL) (stackOK_setLevel s l2 h)
    rw [hpush] at h2
    have e := Option.some.inj h2
    subst e
    rw [hs]; exact hok

theorem stackOK_undo (s s' : session) (m : Int) (h : StackOK s)
    (hundo : undo s = some (s', m)) : StackOK s' := by
  rcases undo_inv s s' m hundo with ⟨_, _, hs⟩ | ⟨h0, _, a3, _, a5, a6, _⟩
  · rw [hs]; exact h
  · obtain ⟨b1, b2, b3, b4⟩ := h
    unfold StackOK
    rw [a3, a5, a6]
    exact ⟨b1, b2, by omega, by omega⟩

theorem stackOK_calls (calls : List Call) (s t : session) (h : StackOK s)
    (hc : applyCalls s calls = some t) : StackOK t := by
  induction calls generalizing s with
  | nil =>
    simp only [applyCalls, Option.some.injEq] at hc
    rw [← hc]; exact h
  | cons k rest ih =>
    simp only [applyCalls] at hc
    cases hk : applyCall s k with
    | none => rw [hk] at hc; simp at hc
    | some s1 =>
      rw [hk] at hc
      apply ih s1 _ hc
      cases k with
      | move d =>
        simp only [applyCall] at hk
        cases hg : go s d with
        | none => rw [hg] at hk; simp at hk
        | some x =>
          rw [hg] at hk
          simp only [Option.map_some', Option.some.injEq] at hk
          rw [← hk]
          exact stackOK_go s x.1 d x.2 h hg
      | back =>
        simp only [applyCall] at hk
        cases hg : undo s with
        | none => rw [hg] at hk; simp at hk
        | some x =>
          rw [hg] at hk
          simp only [Option.map_some', Option.some.injEq] at hk
          rw [← hk]
          exact stackOK_undo s x.1 x.2 h hg
      | check =>
        simp only [applyCall] at hk
        cases hg : win s.l with
        | none => rw [hg] at hk; simp at hk
        | some x =>
          rw [hg] at hk
          simp only [Option.map_some', Option.some.injEq] at hk
          rw [← hk]
          exact h

theorem playable_undo_returns (t : session) (h : Playable t) : ∃ res, undo t = some res := by
  by_cases hneg : t.UndoTop < 0
  · exact ⟨(t, 0), by unfold undo; simp [hneg]⟩
  · have h0 : 0 ≤ t.UndoTop := by omega
    obtain ⟨_, g, hsame, hu⟩ := h
    have hn : (t.UndoTop + 1).toNat = t.UndoTop.toNat + 1 := by omega
    rw [hn] at hu
    obtain ⟨_, p, g', hp, hb, _⟩ := hu
    obtain ⟨b', hb', _⟩ := undoBoard_sim g t.l g' p hsame hb
    exact ⟨_, by rw [undo_board t p h0 hp, hb']; rfl⟩

theorem playable_go_returns (t : session) (d : Int) (h : Playable t) (hst : StackOK t)
    (hin1 : has (get t.l ((p2rc t.l.worker).1 + deltaRow d) ((p2rc t.l.worker).2 + deltaCol d))
      SPACE = true →
      InMap t.l ((p2rc t.l.worker).1 + deltaRow d) ((p2rc t.l.worker).2 + deltaCol d))
    (hin2 : has (get t.l ((p2rc t.l.worker).1 + deltaRow d) ((p2rc t.l.worker).2 + deltaCol d))
      BOX = true →
      has (get t.l ((p2rc t.l.worker).1 + deltaRow d + deltaRow d)
        ((p2rc t.l.worker).2 + deltaCol d + deltaCol d)) SPACE = true →
      InMap t.l ((p2rc t.l.worker).1 + deltaRow d + deltaRow d)
        ((p2rc t.l.worker).2 + deltaCol d + deltaCol d)) :
    ∃ res, go t d = some res := by
  obtain ⟨_, g, hsame, hu⟩ := h
  obtain ⟨hok, _, r, c, hw⟩ := undoable_wf _ _ _ hu
  have hwk : g.worker = t.l.worker := hsame.2.2.2.2.1
  have hA := sameByte_has _ _ (same_get g t.l hsame ((p2rc t.l.worker).1 + deltaRow d)
    ((p2rc t.l.worker).2 + deltaCol d))
  have hB := sameByte_has _ _ (same_get g t.l hsame
    ((p2rc t.l.worker).1 + deltaRow d + deltaRow d)
    ((p2rc t.l.worker).2 + deltaCol d + deltaCol d))
  have hret := go_returns { t with l := g } d hok (workerTracked_of_at g r c hw)
    (stackOK_setLevel t g hst)
    (by
      show has (get g ((p2rc g.worker).1 + deltaRow d) ((p2rc g.worker).2 + deltaCol d))
        SPACE = true → InMap g ((p2rc g.worker).1 + deltaRow d) ((p2rc g.worker).2 + deltaCol d)
      rw [hwk, hA.2.2.2.2, same_inMap g t.l hsame]
      exact hin1)
    (by
      show has (get g ((p2rc g.worker).1 + deltaRow d) ((p2rc g.worker).2 + deltaCol d))
          BOX = true →
        has (get g ((p2rc g.worker).1 + deltaRow d + deltaRow d)
          ((p2rc g.worker).2 + deltaCol d + deltaCol d)) SPACE = true →
        InMap g ((p2rc g.worker).1 + deltaRow d + deltaRow d)
          ((p2rc g.worker).2 + deltaCol d + deltaCol d)
      rw [hwk, hA.2.1, hB.2.2.2.2, same_inMap g t.l hsame]
      exact hin2)
  obtain ⟨sg', m, hgo⟩ := hret
  obtain ⟨t', ht', _⟩ := go_sim { t with l := g } t sg' d m ⟨hsame, rfl, rfl, rfl, rfl⟩ hgo
  exact ⟨_, ht'⟩

theorem callsInMap_cons (s s1 : session) (k : Call) (rest : List Call)
    (h1 : match k with
      | Call.move d => StoresInMap s.l d
      | _ => True)
    (hk : applyCall s k = some s1) (h2 : CallsInMap s1 rest) : CallsInMap s (k :: rest) := by
  simp only [CallsInMap, hk]
  exact ⟨h1, h2⟩

theorem glyph_of_bit (ch : Nat) (h : hasGlyphBit ch = true) : ∃ g, selectGlyph ch = some g := by
  apply selectGlyph_isSome
  simp only [hasGlyphBit, Bool.or_eq_true] at h
  rcases h with (((h | h) | h) | h) | h
  · exact Or.inl h
  · exact Or.inr (Or.inl h)
  · exact Or.inr (Or.inr (Or.inl h))
  · exact Or.inr (Or.inr (Or.inr (Or.inl h)))
  · exact Or.inr (Or.inr (Or.inr (Or.inr h)))

/-- C22 (as amended): the `assert(0)` in the glyph selection of `update` is
unreachable in play from a well-formed start.  For every cell value that has at
least one of `WALL`, `WORKER`, `BOX`, `STORE`, `SPACE` set the selection chain picks
a glyph.  For every state reached from a well-formed state (cell invariants
hold, map within 64 × 64, tracked position `rc2p` of a cell carrying `WORKER`,
undo stack empty) by any sequence of `go`, `undo` and `win` calls that return,
every `go` of it storing inside the drawn map (the cell the worker enters and the
cell a pushed box enters are cells of the map):
every cell read through `get`, in particular every in-map cell, has at least one
of those bits set, and `update` picks a glyph for every in-map cell; and the next
call returns as well, without reaching the `assert`: `undo` and `win` always, `go`
in any direction whose stored cells are in the map (the cell ahead when it reads
`SPACE`, the far cell when a box ahead has `SPACE` behind it) once the undo stack
was allocated at the start. -/
theorem C22_assert_unreachable (s0 t : session) (calls : List Call) (hfresh : FreshState s0)
    (hmap : CallsInMap s0 calls) (hreach : applyCalls s0 calls = some t) :
    (∀ ch : Nat, hasGlyphBit ch = true → ∃ g, selectGlyph ch = some g) ∧
    (∀ r c : Int, hasGlyphBit (get t.l r c) = true) ∧
    (∀ r c : Int, InMap t.l r c → ∃ g, update t.l r c = some g) ∧
    (∃ res, undo t = some res) ∧ (∃ res, win t.l = some res) ∧
    (∀ d : Int, StackOK s0 →
      (has (get t.l ((p2rc t.l.worker).1 + deltaRow d) ((p2rc t.l.worker).2 + deltaCol d))
        SPACE = true →
        InMap t.l ((p2rc t.l.worker).1 + deltaRow d) ((p2rc t.l.worker).2 + deltaCol d)) →
      (has (get t.l ((p2rc t.l.worker).1 + deltaRow d) ((p2rc t.l.worker).2 + deltaCol d))
        BOX = true →
        has (get t.l ((p2rc t.l.worker).1 + deltaRow d + deltaRow d)
          ((p2rc t.l.worker).2 + deltaCol d + deltaCol d)) SPACE = true →
        InMap t.l ((p2rc t.l.worker).1 + deltaRow d + deltaRow d)
          ((p2rc t.l.worker).2 + deltaCol d + deltaCol d)) →
      ∃ res, go t d = some res) := by
  have hp := playable_calls calls s0 t (fresh_playable s0 hfresh) hmap hreach
  refine ⟨glyph_of_bit, playable_bits t hp, ?_, playable_undo_returns t hp, ?_, ?_⟩
  · intro r c hin
    unfold update
    rw [peek_inMap t.l r c hin]
    exact glyph_of_bit _ (playable_bits t hp r c)
  · obtain ⟨l', h⟩ := win_value t.l
    exact ⟨_, h⟩
  · intro d hst hin1 hin2
    exact playable_go_returns t d hp (stackOK_calls calls s0 t hst hreach) hin1 hin2

/-- Witness of C22: from the scenario level `#@$.#` the calls push east, win
check, undo, blocked move west, push east, undo, undo on the empty stack and win
check all return, every `go` among them storing inside the map, and in the state
they reach every cell has a glyph bit and the worker's cell is painted. -/
theorem C22_assert_unreachable_witness :
    FreshState boxAhead ∧
      CallsInMap boxAhead [Call.move EAST, Call.check, Call.back, Call.move WEST,
          Call.move EAST, Call.back, Call.back, Call.check] ∧
      ∃ t, applyCalls boxAhead [Call.move EAST, Call.check, Call.back, Call.move WEST,
          Call.move EAST, Call.back, Call.back, Call.check] = some t ∧
        (∀ r c : Int, hasGlyphBit (get t.l r c) = true) ∧
        (∃ res, undo t = some res) := by
  have hf : FreshState boxAhead :=
    ⟨⟨cellsOK_of_all _ (by decide), ⟨by decide, by decide⟩, 1, 1,
      ⟨by decide, by decide, by decide, by decide, by decide, by decide⟩⟩,
      by decide⟩
  have hmap : CallsInMap boxAhead [Call.move EAST, Call.check, Call.back, Call.move WEST,
      Call.move EAST, Call.back, Call.back, Call.check] := by
    refine callsInMap_cons _ (boxAheadAfter [Call.move EAST]) _ _
      (show StoresInMap _ EAST from by unfold StoresInMap InMap; decide) (by decide) ?_
    refine callsInMap_cons _ (boxAheadAfter [Call.move EAST, Call.check]) _ _
      trivial (by decide) ?_
    refine callsInMap_cons _ (boxAheadAfter [Call.move EAST, Call.check, Call.back]) _ _
      trivial (by decide) ?_
    refine callsInMap_cons _
      (boxAheadAfter [Call.move EAST, Call.check, Call.back, Call.move WEST]) _ _
      (show StoresInMap _ WEST from by unfold StoresInMap InMap; decide) (by decide) ?_
    refine callsInMap_cons _
      (boxAheadAfter [Call.move EAST, Call.check, Call.back, Call.move WEST, Call.move EAST])
      _ _ (show StoresInMap _ EAST from by unfold StoresInMap InMap; decide) (by decide) ?_
    refine callsInMap_cons _
      (boxAheadAfter [Call.move EAST, Call.check, Call.back, Call.move WEST, Call.move EAST,
        Call.back]) _ _ trivial (by decide) ?_
    refine callsInMap_cons _
      (boxAheadAfter [Call.move EAST, Call.check, Call.back, Call.move WEST, Call.move EAST,
        Call.back, Call.back]) _ _ trivial (by decide) ?_
    refine callsInMap_cons _
      (boxAheadAfter [Call.move EAST, Call.check, Call.back, Call.move WEST, Call.move EAST,
        Call.back, Call.back, Call.check]) _ _ trivial (by decide) ?_
    exact trivial
  have hne : (applyCalls boxAhead [Call.move EAST, Call.check, Call.back, Call.move WEST,
      Call.move EAST, Call.back, Call.back, Call.check]).isSome = true := by decide
  obtain ⟨t, ht⟩ := Option.isSome_iff_exists.1 hne
  have w := C22_assert_unreachable boxAhead t _ hf hmap ht
  exact ⟨hf, hmap, t, ht, w.2.1, w.2.2.2.1⟩

/-- Counterexample to C22 as stated.  The level text of two blanks loads as two
floor cells (the cell invariants hold) with the tracked position left at `[0,0]`,
a cell without `WORKER`: `go` east, all in the map, stores the byte 0 at `[0,1]`,
a cell value with none of the bits, and the `assert` of `update` is reached.  The
level of two lines 65 columns wide with `@` at `[0,63]` loads as a board with the
cell invariants and the worker tracked: `go` east returns 1 and leaves the tracked
position 64, which decodes to the floor cell `[1,0]`; the next `go` east, all in
the map, stores the byte 0 at `[1,1]` and reaches the `assert`. -/
theorem C22_counterexample :
    (readLevel 24 10 (List.replicate 10 0) 1 blankText 0 = some noWorker ∧
      CellsOK noWorker.l ∧ p2rc noWorker.l.worker = (0, 0) ∧
      InMap noWorker.l 0 0 ∧ InMap noWorker.l 0 1 ∧ get noWorker.l 0 1 = SPACE ∧
      entered (get noWorker.l 0 0) (get noWorker.l 0 1) = 0 ∧
      hasGlyphBit 0 = false ∧ selectGlyph 0 = none ∧ go noWorker EAST = none) ∧
    (readLevel 24 10 (List.replicate 10 0) 1 wideText 0 = some wideFloor ∧
      CellsOK wideFloor.l ∧ WorkerTracked wideFloor.l ∧ InMap wideFloor.l 0 64 ∧
      (go wideFloor EAST).map (fun x => (x.2, p2rc x.1.l.worker, get x.1.l 1 0, get x.1.l 1 1,
          entered (get x.1.l 1 0) (get x.1.l 1 1))) =
        some (1, (1, 0), SPACE, SPACE, 0) ∧
      InMap wideFloor.l 1 0 ∧ InMap wideFloor.l 1 1 ∧
      ((go wideFloor EAST).bind fun x => go x.1 EAST) = none) := by
  refine ⟨⟨by decide, cellsOK_of_all _ (by decide), by decide, by unfold InMap; decide,
    by unfold InMap; decide, by decide, by decide, by decide, by decide, by decide⟩,
    ⟨by set_option maxRecDepth 100000 in decide, cellsOK_of_all _ (by decide),
      by unfold WorkerTracked; decide,
      by unfold InMap; decide, by decide, by unfold InMap; decide, by unfold InMap; decide,
      by decide⟩⟩

end Sokoban
